import Mathlib

/-! # Graph traversal algorithms (`include/algorithms/graph_traversal.hpp`)

A shallow embedding of `breadthFirstSearch`, `depthFirstSearch`, `dijkstra` and
`bellmanFord`, and the verification of their specification.

* A node identity (`std::shared_ptr<GraphNode<T>>`) is a natural number (the address);
  the payload `current->value` is read through a function `value : Node → T`.
* A map is the list of its entries in iteration order; a `std::map` keeps it sorted by
  key.  `operator[]` on a missing key inserts a value-initialised entry, so every read
  through `operator[]` returns the map as well.  The theorems ask of the graph only
  that its keys are distinct, so they hold for every iteration order of the graph.
* `int` is a 32-bit two's complement integer.  Signed overflow is undefined behaviour in
  C++; an addition that leaves the `int` range, or a size that does not fit in an `int`,
  ends the run with `Error.overflow`.
* `while` loops are run with a fuel argument; `Error.outOfFuel` is the only outcome that
  does not correspond to a behaviour of the program.
-/

namespace GraphTraversal

/-! ## Data model -/

/-- A node identity: the address held by a `std::shared_ptr<GraphNode<T>>`. -/
abbrev Node := Nat

/-- A map keyed by node identity: the list of its entries in iteration order (for a
`std::map`, by increasing key). -/
abbrev NodeMap (V : Type) := List (Node × V)

/-- Modelled from the spec: `data_structures/graph.hpp` is not part of the sources; the member
`Graph<T>::graph` is the mapping of section 3, "from node identity to an ordered sequence
of (neighbor, weight) pairs", a map from node to a vector of pairs. -/
abbrev Graph := NodeMap (List (Node × Int))

/-- The distance map `std::map<std::shared_ptr<GraphNode<T>>, int>`. -/
abbrev DistMap := NodeMap Int

/-- How a run ends when it does not return a value. -/
inductive Error where
  | negativeCycle
  | overflow
  | outOfFuel
  deriving DecidableEq, Repr

deriving instance DecidableEq for Except

/-- The keys of a map in iteration order. -/
def keys {V : Type} (m : NodeMap V) : List Node := m.map Prod.fst

/-- The lookup `m.find(k)`: the value of the first entry with key `k`. -/
def mapFind {V : Type} : NodeMap V → Node → Option V
  | [], _ => none
  | (k', v') :: rest, k => if k = k' then some v' else mapFind rest k

/-- The assignment `m[k] = v`: replaces the value at `k` or inserts a new entry in key order. -/
def mapSet {V : Type} : NodeMap V → Node → V → NodeMap V
  | [], k, v => [(k, v)]
  | (k', v') :: rest, k, v =>
    if k < k' then (k, v) :: (k', v') :: rest
    else if k = k' then (k, v) :: rest
    else (k', v') :: mapSet rest k v

/-- The read `m[k]`: returns the value at `k`; a missing key is first inserted with the
value-initialised default `dflt`.  The (possibly grown) map is returned as well. -/
def mapIndex {V : Type} (m : NodeMap V) (k : Node) (dflt : V) : V × NodeMap V :=
  match mapFind m k with
  | some v => (v, m)
  | none => (dflt, mapSet m k dflt)

/-- `std::numeric_limits<int>::max()`, the "unreachable" sentinel. -/
def intMax : Int := 2147483647

/-- `std::numeric_limits<int>::min()`. -/
def intMin : Int := -2147483648

/-- The `int` addition `a + b`; `none` when the sum is not representable (undefined behaviour). -/
def addInt (a b : Int) : Option Int :=
  if intMin ≤ a + b ∧ a + b ≤ intMax then some (a + b) else none

/-! ## Breadth-first search -/

/-- The local variables of `breadthFirstSearch`, together with the graph it was handed. -/
structure BfsState (T : Type) where
  graph : Graph
  visited : List Node
  queue : List Node
  result : List T

/-- The inner `for` loop of `breadthFirstSearch` over the edge list of the current node,
acting on `(visited, queue)`. -/
def bfsNeighbors : List (Node × Int) → List Node × List Node → List Node × List Node
  | [], s => s
  | (neighbor, _) :: es, (visited, queue) =>
    if neighbor ∈ visited then bfsNeighbors es (visited, queue)
    else bfsNeighbors es (neighbor :: visited, queue ++ [neighbor])

/-- One iteration of the `while` loop of `breadthFirstSearch` (the queue is not empty). -/
def bfsStep {T : Type} (value : Node → T) (st : BfsState T) : BfsState T :=
  match st.queue with
  | [] => st
  | current :: rest =>
    let (es, g) := mapIndex st.graph current []
    let (visited, queue) := bfsNeighbors es (st.visited, rest)
    { graph := g, visited := visited, queue := queue, result := st.result ++ [value current] }

/-- The `while(!queue.empty())` loop of `breadthFirstSearch`. -/
def bfsLoop {T : Type} (value : Node → T) : Nat → BfsState T → Graph × Except Error (List T)
  | 0, st => (st.graph, if st.queue = [] then .ok st.result else .error .outOfFuel)
  | fuel + 1, st =>
    if st.queue = [] then (st.graph, .ok st.result) else bfsLoop value fuel (bfsStep value st)

/-- The state of `breadthFirstSearch(graph, start)` on entry to the `while` loop. -/
def bfsInit (T : Type) (graph : Graph) (start : Node) : BfsState T :=
  { graph := graph, visited := [start], queue := [start], result := [] }

/-- The function `breadthFirstSearch(graph, start)`; returns the graph after the call and the
result vector. -/
def breadthFirstSearch {T : Type} (value : Node → T) (fuel : Nat) (graph : Graph) (start : Node) :
    Graph × Except Error (List T) :=
  bfsLoop value fuel (bfsInit T graph start)

/-! ## Depth-first search -/

/-- The local variables of `depthFirstSearch`, together with the graph it was handed. -/
structure DfsState (T : Type) where
  graph : Graph
  visited : List Node
  stack : List Node
  result : List T

/-- The inner `for` loop of `depthFirstSearch`: pushes the neighbours that are not visited. -/
def dfsNeighbors (visited : List Node) : List (Node × Int) → List Node → List Node
  | [], stack => stack
  | (neighbor, _) :: es, stack =>
    if neighbor ∈ visited then dfsNeighbors visited es stack
    else dfsNeighbors visited es (neighbor :: stack)

/-- One iteration of the `while` loop of `depthFirstSearch` (the stack is not empty). -/
def dfsStep {T : Type} (value : Node → T) (st : DfsState T) : DfsState T :=
  match st.stack with
  | [] => st
  | current :: rest =>
    if current ∈ st.visited then { st with stack := rest }
    else
      let visited := current :: st.visited
      let (es, g) := mapIndex st.graph current []
      { graph := g, visited := visited, stack := dfsNeighbors visited es rest,
        result := st.result ++ [value current] }

/-- The `while(!stack.empty())` loop of `depthFirstSearch`. -/
def dfsLoop {T : Type} (value : Node → T) : Nat → DfsState T → Graph × Except Error (List T)
  | 0, st => (st.graph, if st.stack = [] then .ok st.result else .error .outOfFuel)
  | fuel + 1, st =>
    if st.stack = [] then (st.graph, .ok st.result) else dfsLoop value fuel (dfsStep value st)

/-- The state of `depthFirstSearch(graph, start)` on entry to the `while` loop. -/
def dfsInit (T : Type) (graph : Graph) (start : Node) : DfsState T :=
  { graph := graph, visited := [], stack := [start], result := [] }

/-- The function `depthFirstSearch(graph, start)`; returns the graph after the call and the
result vector. -/
def depthFirstSearch {T : Type} (value : Node → T) (fuel : Nat) (graph : Graph) (start : Node) :
    Graph × Except Error (List T) :=
  dfsLoop value fuel (dfsInit T graph start)

/-! ## Dijkstra -/

/-- An entry `std::pair<int, std::shared_ptr<GraphNode<T>>>` of the priority queue. -/
abbrev Entry := Int × Node

/-- The standard container `std::priority_queue` with the comparator `a.first > b.first`:
the entry at the top has the smallest distance, and the order among entries of equal
distance is left to the implementation.  A queue is its underlying vector together
with any `push`, `top`, `pop` that keep the contents and return a smallest entry. -/
structure PriorityQueue where
  push : List Entry → Entry → List Entry
  top : List Entry → Entry
  pop : List Entry → List Entry
  push_perm : ∀ q e, (push q e).Perm (e :: q)
  top_pop_perm : ∀ q, q ≠ [] → (top q :: pop q).Perm q
  top_min : ∀ q, ∀ x ∈ q, (top q).1 ≤ x.1

/-- The local variables of `dijkstra`, together with the graph it was handed. -/
structure DijkstraState where
  graph : Graph
  distances : DistMap
  queue : List Entry

/-- The initialisation `for(pair : graph.graph) distances[pair.first] = max`. -/
def initDistances (graph : Graph) : DistMap :=
  graph.foldl (fun d pair => mapSet d pair.1 intMax) []

/-- The inner `for` loop of `dijkstra` over the edge list of `curr_node`, acting on
`(distances, priority_queue)`. -/
def dijkstraRelax (P : PriorityQueue) (curr_dist : Int) :
    List (Node × Int) → DistMap × List Entry → Except Error (DistMap × List Entry)
  | [], s => .ok s
  | (neighbor, weight) :: es, (distances, queue) =>
    if weight ≠ 0 then
      match addInt curr_dist weight with
      | none => .error .overflow
      | some new_distance =>
        let (old, distances1) := mapIndex distances neighbor 0
        if new_distance < old then
          dijkstraRelax P curr_dist es
            (mapSet distances1 neighbor new_distance, P.push queue (new_distance, neighbor))
        else dijkstraRelax P curr_dist es (distances1, queue)
    else dijkstraRelax P curr_dist es (distances, queue)

/-- One iteration of the `while` loop of `dijkstra` (the queue is not empty): the graph
after it, and the new `(distances, priority_queue)` unless an addition overflowed. -/
def dijkstraStep (P : PriorityQueue) (st : DijkstraState) :
    Graph × Except Error (DistMap × List Entry) :=
  let (curr_dist, curr_node) := P.top st.queue
  let queue := P.pop st.queue
  let (recorded, distances) := mapIndex st.distances curr_node 0
  if curr_dist > recorded then (st.graph, .ok (distances, queue))
  else
    let (es, g) := mapIndex st.graph curr_node []
    (g, dijkstraRelax P curr_dist es (distances, queue))

/-- The `while(!priority_queue.empty())` loop of `dijkstra`. -/
def dijkstraLoop (P : PriorityQueue) : Nat → DijkstraState → Graph × Except Error DistMap
  | 0, st => (st.graph, if st.queue = [] then .ok st.distances else .error .outOfFuel)
  | fuel + 1, st =>
    if st.queue = [] then (st.graph, .ok st.distances)
    else
      match dijkstraStep P st with
      | (g, .error e) => (g, .error e)
      | (g, .ok (distances, queue)) =>
        dijkstraLoop P fuel { graph := g, distances := distances, queue := queue }

/-- The state of `dijkstra(graph, start)` on entry to the `while` loop. -/
def dijkstraInit (P : PriorityQueue) (graph : Graph) (start : Node) : DijkstraState :=
  { graph := graph, distances := mapSet (initDistances graph) start 0,
    queue := P.push [] (0, start) }

/-- The function `dijkstra(graph, start)`; returns the graph after the call and the
distance map. -/
def dijkstra (P : PriorityQueue) (fuel : Nat) (graph : Graph) (start : Node) :
    Graph × Except Error DistMap :=
  dijkstraLoop P fuel (dijkstraInit P graph start)

/-- The smallest-distance entry of `e :: q`, the earliest one among equals. -/
def minEntry : Entry → List Entry → Entry
  | e, [] => e
  | e, x :: xs => if x.1 < e.1 then minEntry x xs else minEntry e xs

/-- The top of a queue kept as a plain list. -/
def listTop : List Entry → Entry
  | [] => (0, 0)
  | e :: xs => minEntry e xs

theorem minEntry_mem (e : Entry) (xs : List Entry) : minEntry e xs ∈ e :: xs := by
  induction xs generalizing e with
  | nil => simp [minEntry]
  | cons x xs ih =>
    unfold minEntry
    split
    · have := ih x
      simp only [List.mem_cons] at this ⊢
      tauto
    · have := ih e
      simp only [List.mem_cons] at this ⊢
      tauto

theorem minEntry_le (e : Entry) (xs : List Entry) : ∀ x ∈ e :: xs, (minEntry e xs).1 ≤ x.1 := by
  induction xs generalizing e with
  | nil => simp [minEntry]
  | cons x xs ih =>
    intro y hy
    unfold minEntry
    split
    · rename_i hlt
      have h1 := ih x
      simp only [List.mem_cons, forall_eq_or_imp] at h1 hy
      rcases hy with rfl | rfl | hy
      · omega
      · exact h1.1
      · exact h1.2 y hy
    · rename_i hlt
      have h1 := ih e
      simp only [List.mem_cons, forall_eq_or_imp] at h1 hy
      rcases hy with rfl | rfl | hy
      · exact h1.1
      · omega
      · exact h1.2 y hy

/-- Removes the first occurrence of `e`. -/
def removeEntry (e : Entry) : List Entry → List Entry
  | [] => []
  | x :: xs => if x = e then xs else x :: removeEntry e xs

theorem removeEntry_perm (e : Entry) (q : List Entry) (h : e ∈ q) :
    (e :: removeEntry e q).Perm q := by
  induction q with
  | nil => cases h
  | cons x xs ih =>
    unfold removeEntry
    split
    · rename_i hx
      rw [hx]
    · rename_i hx
      have hmem : e ∈ xs := by
        rcases List.mem_cons.1 h with h1 | h1
        · exact absurd h1.symm hx
        · exact h1
      exact (List.Perm.swap x e _).trans (List.Perm.cons x (ih hmem))

/-- A priority queue kept as a plain list: `push` appends, `top` is the earliest entry of
smallest distance, `pop` removes it. -/
def listQueue : PriorityQueue where
  push q e := q ++ [e]
  top := listTop
  pop q := removeEntry (listTop q) q
  push_perm q e := (List.perm_append_comm : (q ++ [e]).Perm ([e] ++ q))
  top_pop_perm q hq := by
    cases q with
    | nil => exact absurd rfl hq
    | cons e xs =>
      exact removeEntry_perm _ _ (minEntry_mem e xs)
  top_min q x hx := by
    cases q with
    | nil => cases hx
    | cons e xs => exact minEntry_le e xs x hx

/-! ## Bellman-Ford -/

/-- The conversion of a `size_t` to `int` in `int numVertices = graph.graph.size()`; `none`
when the size is not representable as an `int`. -/
def intOfSize (n : Nat) : Option Int :=
  if (n : Int) ≤ intMax then some (n : Int) else none

/-- The conversion of an `int` to `size_t` in the comparison `i < numVertices - 1`. -/
def sizeOfInt (i : Int) : Nat := (i % 18446744073709551616).toNat

/-- The innermost `for` loop of the relaxation passes of `bellmanFord`, over the edge list
`neighbors` of `node`.  The sum `distances[node] + weight` of the assignment is the one
already computed by the test. -/
def bfRelaxEdges (node : Node) : List (Node × Int) → DistMap → Except Error DistMap
  | [], distances => .ok distances
  | (neighbor, weight) :: es, distances =>
    let (dn, distances1) := mapIndex distances node 0
    if dn ≠ intMax then
      match addInt dn weight with
      | none => .error .overflow
      | some sum =>
        let (old, distances2) := mapIndex distances1 neighbor 0
        if sum < old then bfRelaxEdges node es (mapSet distances2 neighbor sum)
        else bfRelaxEdges node es distances2
    else bfRelaxEdges node es distances1

/-- One relaxation pass of `bellmanFord`: the loop over the entries of `graph.graph`. -/
def bfPass : Graph → DistMap → Except Error DistMap
  | [], distances => .ok distances
  | (node, neighbors) :: rest, distances =>
    match bfRelaxEdges node neighbors distances with
    | .error e => .error e
    | .ok distances1 => bfPass rest distances1

/-- The passes of the loop `for(size_t i = 0; i < numVertices - 1; ++i)` of `bellmanFord`
without the loop variable: `n` passes over the distance map. -/
def bfPasses (graph : Graph) : Nat → DistMap → Except Error DistMap
  | 0, distances => .ok distances
  | n + 1, distances =>
    match bfPass graph distances with
    | .error e => .error e
    | .ok distances1 => bfPasses graph n distances1

/-- The innermost `for` loop of the final pass of `bellmanFord`: throws when an edge relaxes. -/
def bfCheckEdges (node : Node) : List (Node × Int) → DistMap → Except Error DistMap
  | [], distances => .ok distances
  | (neighbor, weight) :: es, distances =>
    let (dn, distances1) := mapIndex distances node 0
    if dn ≠ intMax then
      match addInt dn weight with
      | none => .error .overflow
      | some sum =>
        let (old, distances2) := mapIndex distances1 neighbor 0
        if sum < old then .error .negativeCycle
        else bfCheckEdges node es distances2
    else bfCheckEdges node es distances1

/-- The final pass of `bellmanFord`: the loop over the entries of `graph.graph`. -/
def bfCheck : Graph → DistMap → Except Error DistMap
  | [], distances => .ok distances
  | (node, neighbors) :: rest, distances =>
    match bfCheckEdges node neighbors distances with
    | .error e => .error e
    | .ok distances1 => bfCheck rest distances1

/-- The loop `for(size_t i = 0; i < numVertices - 1; ++i)` of `bellmanFord` together with
its variable `i`: `n` is the number of iterations left, the state holds `i` and the
distance map, and every pass ends with `++i`. -/
def bfPassesCounted (graph : Graph) : Nat → Nat × DistMap → Except Error (Nat × DistMap)
  | 0, st => .ok st
  | n + 1, (i, distances) =>
    match bfPass graph distances with
    | .error e => .error e
    | .ok distances1 => bfPassesCounted graph n (i + 1, distances1)

/-- The body of `bellmanFord(graph, start)`: the value of the loop variable `i` when the
relaxation passes are left (the number of passes performed) and the distance map that
is returned, or the error the call ends with. -/
def bellmanFordRun (graph : Graph) (start : Node) : Except Error (Nat × DistMap) :=
  let distances := mapSet (initDistances graph) start 0
  match intOfSize graph.length with
  | none => .error .overflow
  | some numVertices =>
    match addInt numVertices (-1) with
    | none => .error .overflow
    | some bound =>
      match bfPassesCounted graph (sizeOfInt bound) (0, distances) with
      | .error e => .error e
      | .ok (i, distances1) =>
        match bfCheck graph distances1 with
        | .error e => .error e
        | .ok distances2 => .ok (i, distances2)

/-- The distance map computed by `bellmanFord(graph, start)`, or the error it ends with. -/
def bellmanFordResult (graph : Graph) (start : Node) : Except Error DistMap :=
  match bellmanFordRun graph start with
  | .error e => .error e
  | .ok (_, distances) => .ok distances

/-- The function `bellmanFord(graph, start)`; returns the graph after the call and the
distance map.  The function only iterates over `graph.graph` and reads its size. -/
def bellmanFord (graph : Graph) (start : Node) : Graph × Except Error DistMap :=
  (graph, bellmanFordResult graph start)

/-- Scenario graph of the specification: A→[B(1), C(1)], B→[D(1)], C→[D(1)], D→[]
with A, B, C, D = 0, 1, 2, 3. -/
def scenario1 : Graph := [(0, [(1, 1), (2, 1)]), (1, [(3, 1)]), (2, [(3, 1)]), (3, [])]

/-- Scenario 3 of the specification: A→[B(4), C(1)], C→[B(2), D(5)], B→[D(1)], D→[]. -/
def scenario3 : Graph := [(0, [(1, 4), (2, 1)]), (1, [(3, 1)]), (2, [(1, 2), (3, 5)]), (3, [])]
/-- Scenario 5 of the specification: A→[B(4), C(5)], B→[C(-3)], C→[]. -/
def scenario5 : Graph := [(0, [(1, 4), (2, 5)]), (1, [(2, -3)]), (2, [])]
/-- Scenario 6 of the specification: A→[B(1)], B→[C(-1)], C→[A(-1)]. -/
def scenario6 : Graph := [(0, [(1, 1)]), (1, [(2, -1)]), (2, [(0, -1)])]

/-! ## Specification vocabulary -/

/-- The edge list the code reads for `u`: the vector stored at key `u`, empty when `u` is
not a key. -/
def adj (G : Graph) (u : Node) : List (Node × Int) := (mapFind G u).getD []

/-- The keys of a `std::map` are strictly increasing. -/
def SortedKeys {V : Type} (m : NodeMap V) : Prop := (keys m).Pairwise (fun a b => a < b)

instance {V : Type} (m : NodeMap V) : Decidable (SortedKeys m) := by
  unfold SortedKeys; infer_instance

/-- Data invariant of section 3: every neighbour referenced in an edge list is a key. -/
def Closed (G : Graph) : Prop := ∀ u ∈ keys G, ∀ e ∈ adj G u, e.1 ∈ keys G

instance (G : Graph) : Decidable (Closed G) := by
  unfold Closed; infer_instance

/-- A directed walk from `s` to the node `v`, with its total weight and the list of the nodes
it leaves, latest first (its length is the number of edges). -/
inductive Walk (G : Graph) (s : Node) : Node → Int → List Node → Prop
  | nil : Walk G s s 0 []
  | snoc {u v : Node} {w W : Int} {p : List Node} :
      Walk G s u W p → (v, w) ∈ adj G u → Walk G s v (W + w) (u :: p)

/-- The node `n` is reachable from `s` along directed edges. -/
def Reachable (G : Graph) (s n : Node) : Prop := ∃ W p, Walk G s n W p

/-- The integer `d` is the minimum total weight of a directed path from `s` to `n`. -/
def IsDist (G : Graph) (s n : Node) (d : Int) : Prop :=
  (∃ p, Walk G s n d p) ∧ ∀ W p, Walk G s n W p → d ≤ W

/-- The number `k` is the hop distance from `s` to `n`: the minimum number of edges of a
directed path from `s` to `n`. -/
def IsHopDist (G : Graph) (s n : Node) (k : Nat) : Prop :=
  (∃ W p, Walk G s n W p ∧ p.length = k) ∧ ∀ W p, Walk G s n W p → k ≤ p.length

/-- A directed cycle of strictly negative total weight is reachable from `s`. -/
def NegativeCycleReachable (G : Graph) (s : Node) : Prop :=
  ∃ x W p, Reachable G s x ∧ Walk G x x W p ∧ W < 0

/-- The sum of all edge weights of the graph. -/
def totalWeight (G : Graph) : Int := (G.map (fun pair => (pair.2.map Prod.snd).sum)).sum

/-- Every edge weight is strictly positive. -/
def PositiveWeights (G : Graph) : Prop := ∀ pair ∈ G, ∀ e ∈ pair.2, 0 < e.2

instance (G : Graph) : Decidable (PositiveWeights G) := by
  unfold PositiveWeights; infer_instance

/-- A list keeps each element once, at its first occurrence. -/
def firstOccurrences : List Node → List Node
  | [] => []
  | x :: xs => x :: (firstOccurrences xs).filter (fun y => y ≠ x)

/-- The neighbours the inner loop of `breadthFirstSearch` enqueues: those not visited,
each at its first occurrence. -/
def freshNeighbors : List Node → List (Node × Int) → List Node
  | _, [] => []
  | visited, (n, _) :: es =>
    if n ∈ visited then freshNeighbors visited es else n :: freshNeighbors (n :: visited) es

/-- The loop invariant of `breadthFirstSearch` on a closed graph `G` with start `s`. -/
structure BfsInv (G : Graph) (s : Node) (st : BfsState Node) : Prop where
  graph_eq : st.graph = G
  nodup : (st.result ++ st.queue).Nodup
  visited_iff : ∀ n, n ∈ st.visited ↔ n ∈ st.result ++ st.queue
  reach : ∀ n ∈ st.visited, Reachable G s n
  closed : ∀ u ∈ st.result, ∀ e ∈ adj G u, e.1 ∈ st.visited
  start : s ∈ st.visited

/-- The graph without its weights: each key with the sequence of its neighbours. -/
def unweighted (G : Graph) : List (Node × List Node) :=
  G.map (fun pair => (pair.1, pair.2.map Prod.fst))

/-- The part of the loop invariant of `breadthFirstSearch` that speaks of hop distances:
the nodes output and queued are in non-decreasing hop distance, the queue spans at most
two levels, and every node not yet visited is farther than the front of the queue. -/
structure BfsLevelInv (G : Graph) (s : Node) (st : BfsState Node) : Prop where
  sorted : (st.result ++ st.queue).Pairwise
    (fun x y => ∀ kx ky, IsHopDist G s x kx → IsHopDist G s y ky → kx ≤ ky)
  span : ∀ c rest, st.queue = c :: rest → ∀ y ∈ st.queue, ∀ kc ky,
    IsHopDist G s c kc → IsHopDist G s y ky → ky ≤ kc + 1
  far : ∀ c rest, st.queue = c :: rest → ∀ v kv kc,
    IsHopDist G s v kv → IsHopDist G s c kc → v ∉ st.visited → kc < kv

/-- The loop invariant of `depthFirstSearch` on a closed graph `G` with start `s`. -/
structure DfsInv (G : Graph) (s : Node) (st : DfsState Node) : Prop where
  graph_eq : st.graph = G
  nodup : st.result.Nodup
  visited_iff : ∀ n, n ∈ st.visited ↔ n ∈ st.result
  reach_visited : ∀ n ∈ st.visited, Reachable G s n
  reach_stack : ∀ n ∈ st.stack, Reachable G s n
  closed : ∀ u ∈ st.visited, ∀ e ∈ adj G u, e.1 ∈ st.visited ∨ e.1 ∈ st.stack
  start : s ∈ st.visited ∨ s ∈ st.stack

/-- The loop of the textbook recursive depth-first search over a list of neighbours:
a neighbour that is not yet visited when its turn comes is visited by `visit`.
The state is `(visited, output)`. -/
def visitAll (visit : Node → List Node × List Node → Option (List Node × List Node)) :
    List Node → List Node × List Node → Option (List Node × List Node)
  | [], st => some st
  | v :: vs, (visited, out) =>
    if v ∈ visited then visitAll visit vs (visited, out)
    else
      match visit v (visited, out) with
      | none => none
      | some st1 => visitAll visit vs st1

/-- The textbook recursive depth-first search in pre-order: marks `u` visited, outputs it,
and recurses into its not-yet-visited neighbours in the REVERSE of the adjacency-list
order of `u`.  The first argument bounds the recursion depth. -/
def dfsVisit (G : Graph) : Nat → Node → List Node × List Node → Option (List Node × List Node)
  | 0, _, _ => none
  | depth + 1, u, (visited, out) =>
    visitAll (dfsVisit G depth) ((adj G u).map Prod.fst).reverse (u :: visited, out ++ [u])

/-- The number of keys of the graph that are not marked visited. -/
def slack (G : Graph) (visited : List Node) : Nat :=
  ((keys G).filter (fun n => decide (n ∉ visited))).length

/-- The pre-order of the textbook recursive depth-first search from `s` over reversed
adjacency lists. -/
def dfsRecursive (G : Graph) (depth : Nat) (s : Node) : Option (List Node) :=
  (dfsVisit G depth s ([], [])).map Prod.snd

/-- The sum of the values of a distance map. -/
def distSum (d : DistMap) : Int := (d.map Prod.snd).sum

/-- The invariant of the inner loop of `dijkstra` while it scans the edge list of `u`
with `curr_dist = cd`; `es` are the edges still to scan and `μ` bounds the measure. -/
structure RelaxInv (G : Graph) (s u : Node) (cd μ : Int) (es : List (Node × Int))
    (d : DistMap) (q : List Entry) : Prop where
  keys_eq : keys d = keys (initDistances G)
  range : ∀ n x, mapFind d n = some x → x ≤ intMax
  start : ∃ x, mapFind d s = some x ∧ x ≤ 0
  walk : ∀ n x, mapFind d n = some x → x ≠ intMax → ∃ p, Walk G s n x p
  entries : ∀ e ∈ q, e.1 < intMax ∧ ∃ x, mapFind d e.2 = some x ∧ x ≤ e.1
  relaxed : ∀ n x, mapFind d n = some x → x ≠ intMax →
    (x, n) ∈ q ∨ ∀ e ∈ adj G n, e.2 ≠ 0 →
      (n = u ∧ x = cd ∧ e ∈ es) ∨ ∃ y, mapFind d e.1 = some y ∧ y ≤ x + e.2
  measure : (q.length : Int) + distSum d ≤ μ

/-- The loop invariant of `dijkstra` on a closed graph `G` with start `s`: every recorded
distance is the weight of a walk, every queue entry is at least the recorded distance of
its node, and every reached node either has a live queue entry or has all its
(non-zero) edges relaxed. -/
structure DijkstraInv (G : Graph) (s : Node) (st : DijkstraState) : Prop where
  graph_eq : st.graph = G
  keys_eq : keys st.distances = keys (initDistances G)
  range : ∀ n x, mapFind st.distances n = some x → x ≤ intMax
  start : ∃ x, mapFind st.distances s = some x ∧ x ≤ 0
  walk : ∀ n x, mapFind st.distances n = some x → x ≠ intMax → ∃ p, Walk G s n x p
  entries : ∀ e ∈ st.queue, e.1 < intMax ∧ ∃ x, mapFind st.distances e.2 = some x ∧ x ≤ e.1
  relaxed : ∀ n x, mapFind st.distances n = some x → x ≠ intMax →
    (x, n) ∈ st.queue ∨ ∀ e ∈ adj G n, e.2 ≠ 0 →
      ∃ y, mapFind st.distances e.1 = some y ∧ y ≤ x + e.2

/-- The sum of the weights of the edges leaving `x`. -/
def outWeight (G : Graph) (x : Node) : Int := ((adj G x).map Prod.snd).sum

/-- The graph with the same keys and every edge of weight 0 deleted from every adjacency
list. -/
def dropZeroEdges (G : Graph) : Graph :=
  G.map (fun pair => (pair.1, pair.2.filter (fun e => decide (e.2 ≠ 0))))

/-- Scenario 4 of the specification: A→[B(0)], B→[]. -/
def scenario4 : Graph := [(0, [(1, 0)]), (1, [])]

/-- The invariant of the distance map of `bellmanFord` on a closed graph `G` with start `s`:
it has the keys of the graph and every recorded distance other than the sentinel is the
weight of a walk from the start. -/
structure BfInv (G : Graph) (s : Node) (d : DistMap) : Prop where
  keys_eq : keys d = keys (initDistances G)
  range : ∀ n x, mapFind d n = some x → x ≤ intMax
  start : ∃ x, mapFind d s = some x ∧ x ≤ 0
  walk : ∀ n x, mapFind d n = some x → x ≠ intMax → ∃ p, Walk G s n x p

/-- Every distance recorded in `d` is recorded in `d'` with a value that is not larger. -/
def DistLe (d d' : DistMap) : Prop :=
  ∀ n x, mapFind d n = some x → ∃ x', mapFind d' n = some x' ∧ x' ≤ x

/-- In `d'` the edge from `u` to `v` of weight `w` is relaxed with respect to the distance of
`u` in `d`. -/
def EdgeRelaxed (d d' : DistMap) (u v : Node) (w : Int) : Prop :=
  ∀ x, mapFind d u = some x → x ≠ intMax → ∃ y, mapFind d' v = some y ∧ y ≤ x + w

/-- After `j` passes, every tracked walk (`Q`) of at most `j` edges bounds the recorded
distance of its end. -/
def GoodAt (G : Graph) (s : Node) (Q : Node → Int → List Node → Prop) (j : Nat)
    (d : DistMap) : Prop :=
  ∀ v W p, Walk G s v W p → p.length ≤ j → Q v W p → ∃ y, mapFind d v = some y ∧ y ≤ W

/-- A graph with one edge whose weight is the sentinel: A→[B(max)], B→[]. -/
def sentinelEdge : Graph := [(0, [(1, intMax)]), (1, [])]

/-- A negative self-loop behind an edge whose weight is the sentinel: A→[B(max)], B→[B(-1)]. -/
def sentinelCycle : Graph := [(0, [(1, intMax)]), (1, [(1, -1)])]

/-- The height of the entry of `n` in a distance map above the least `int`; a node without
an entry counts as higher than any entry. -/
def dval (d : DistMap) (n : Node) : Int :=
  match mapFind d n with
  | some x => x - intMin
  | none => 4294967296

/-- The sum of the heights of the nodes of `U`. -/
def potential (U : List Node) (d : DistMap) : Int := (U.map (dval d)).sum

/-- All the nodes that occur as a neighbour in some edge list of the graph. -/
def neighbours (G : Graph) : List Node := G.flatMap (fun pair => pair.2.map Prod.fst)

/-- Every value of the distance map is an `int`. -/
def InRange (d : DistMap) : Prop := ∀ n x, mapFind d n = some x → intMin ≤ x ∧ x ≤ intMax

/-- Every entry of `d'` that holds the sentinel held it in `d` already. -/
def SentinelKept (d d' : DistMap) : Prop :=
  ∀ n, mapFind d' n = some intMax → mapFind d n = some intMax

/-! ## Depth-first search as the specification words it -/

/-- The inner loop of the depth-first search of the specification: "push each of C's
outgoing neighbors in adjacency-list order", visited or not. -/
def dfsNeighborsUnfiltered : List (Node × Int) → List Node → List Node
  | [], stack => stack
  | (neighbor, _) :: es, stack => dfsNeighborsUnfiltered es (neighbor :: stack)

/-- One iteration of the depth-first search of the specification: "pop the top node C; if
C is already visited, skip it; otherwise mark C visited, append C's value to the result,
and push each of C's outgoing neighbors". -/
def dfsStepUnfiltered {T : Type} (value : Node → T) (st : DfsState T) : DfsState T :=
  match st.stack with
  | [] => st
  | current :: rest =>
    if current ∈ st.visited then { st with stack := rest }
    else
      let visited := current :: st.visited
      let (es, g) := mapIndex st.graph current []
      { graph := g, visited := visited, stack := dfsNeighborsUnfiltered es rest,
        result := st.result ++ [value current] }

/-- The loop of the depth-first search of the specification: "terminate when the stack is
empty". -/
def dfsLoopUnfiltered {T : Type} (value : Node → T) :
    Nat → DfsState T → Graph × Except Error (List T)
  | 0, st => (st.graph, if st.stack = [] then .ok st.result else .error .outOfFuel)
  | fuel + 1, st =>
    if st.stack = [] then (st.graph, .ok st.result)
    else dfsLoopUnfiltered value fuel (dfsStepUnfiltered value st)

/-- The depth-first search of the specification, which pushes every outgoing neighbour and
relies on the visited test at pop time. -/
def depthFirstSearchUnfiltered {T : Type} (value : Node → T) (fuel : Nat) (graph : Graph)
    (start : Node) : Graph × Except Error (List T) :=
  dfsLoopUnfiltered value fuel (dfsInit T graph start)

/-- Every edge weight of the graph is non-negative. -/
def NonNegWeights (G : Graph) : Prop := ∀ pair ∈ G, ∀ e ∈ pair.2, 0 ≤ e.2

instance (G : Graph) : Decidable (NonNegWeights G) := by
  unfold NonNegWeights; infer_instance

/-- A second priority queue kept as a plain list: `push` prepends, so that among entries
of equal smallest distance `top` is the one pushed last, where `listQueue` takes the one
pushed first. -/
def stackQueue : PriorityQueue where
  push q e := e :: q
  top := listTop
  pop q := removeEntry (listTop q) q
  push_perm q e := List.Perm.refl (e :: q)
  top_pop_perm q hq := by
    cases q with
    | nil => exact absurd rfl hq
    | cons e xs =>
      exact removeEntry_perm _ _ (minEntry_mem e xs)
  top_min q x hx := by
    cases q with
    | nil => cases hx
    | cons e xs => exact minEntry_le e xs x hx

/-- A walk from `s` to a node whose running total, started at `b`, is strictly below the
sentinel after every edge: these are the walks along which the relaxation test
`distances[node] + weight < distances[neighbor]` of `bellmanFord` can succeed.  The
integer is the running total at the end, the list holds the sources of the edges, last
edge first. -/
inductive LowWalk (G : Graph) (s : Node) (b : Int) : Node → Int → List Node → Prop
  | nil : LowWalk G s b s b []
  | snoc {u v : Node} {w W : Int} {p : List Node} :
      LowWalk G s b u W p → (v, w) ∈ adj G u → W + w < intMax →
      LowWalk G s b v (W + w) (u :: p)

/-- The integer `d` is the minimum total weight of a walk from `s` to `n` that stays below
the sentinel. -/
def IsLowDist (G : Graph) (s n : Node) (d : Int) : Prop :=
  (∃ p, LowWalk G s 0 n d p) ∧ ∀ W p, LowWalk G s 0 n W p → d ≤ W

/-- Every distance recorded in `d` below the sentinel is the weight of a walk from `s` that
stays below the sentinel. -/
def LowInv (G : Graph) (s : Node) (d : DistMap) : Prop :=
  ∀ n x, mapFind d n = some x → x ≠ intMax → ∃ p, LowWalk G s 0 n x p

/-- After `j` passes, every lightest walk below the sentinel of at most `j` edges bounds the
recorded distance of its end. -/
def GoodLow (G : Graph) (s : Node) (j : Nat) (d : DistMap) : Prop :=
  ∀ v W p, LowWalk G s 0 v W p → p.length ≤ j →
    (∀ W' p', LowWalk G s 0 v W' p' → W ≤ W') → ∃ y, mapFind d v = some y ∧ y ≤ W

/-- The graph `G'` has the keys of `G`, and for every key its edge list in `G'` is a
permutation of its edge list in `G`. -/
def EdgePerm (G G' : Graph) : Prop :=
  keys G' = keys G ∧ ∀ u ∈ keys G, (adj G' u).Perm (adj G u)

instance (G G' : Graph) : Decidable (EdgePerm G G') := by
  unfold EdgePerm; infer_instance

/-- Scenario 5 of the specification with the edge list of A in the other order:
A→[C(5), B(4)], B→[C(-3)], C→[]. -/
def scenario5Swapped : Graph := [(0, [(2, 5), (1, 4)]), (1, [(2, -3)]), (2, [])]

/-! # Verification -/

/-! ## Facts about maps -/

theorem mapFind_mapSet {V : Type} (m : NodeMap V) (k k' : Node) (v : V) :
    mapFind (mapSet m k v) k' = if k' = k then some v else mapFind m k' := by
  induction m with
  | nil => simp [mapSet, mapFind]
  | cons p rest ih =>
    obtain ⟨a, b⟩ := p
    by_cases h1 : k < a
    · simp only [mapSet, h1, if_true, mapFind]
    · by_cases h2 : k = a
      · subst h2
        simp only [mapSet, h1, if_false, if_true, mapFind]
        by_cases h3 : k' = k <;> simp [h3]
      · simp only [mapSet, h1, h2, if_false, mapFind, ih]
        by_cases h3 : k' = a
        · subst h3
          have : ¬ k' = k := fun h => h2 h.symm
          simp [this]
        · simp [h3]

theorem mem_keys_iff {V : Type} (m : NodeMap V) (k : Node) :
    k ∈ keys m ↔ ∃ v, mapFind m k = some v := by
  induction m with
  | nil => simp [keys, mapFind]
  | cons p rest ih =>
    obtain ⟨a, b⟩ := p
    by_cases h : k = a
    · simp [keys, mapFind, h]
    · have ih' : k ∈ List.map Prod.fst rest ↔ ∃ v, mapFind rest k = some v := ih
      simp only [keys, List.map_cons, List.mem_cons, h, false_or, mapFind, if_false, ih']

theorem mapIndex_of_find {V : Type} {m : NodeMap V} {k : Node} {v : V} (d : V)
    (h : mapFind m k = some v) : mapIndex m k d = (v, m) := by
  simp [mapIndex, h]

theorem mapIndex_graph {G : Graph} {u : Node} (h : u ∈ keys G) :
    mapIndex G u [] = (adj G u, G) := by
  obtain ⟨es, hes⟩ := (mem_keys_iff G u).1 h
  simp [mapIndex, adj, hes]

theorem keys_mapSet_of_mem {V : Type} (m : NodeMap V) (k : Node) (v : V)
    (hs : SortedKeys m) (hk : k ∈ keys m) : keys (mapSet m k v) = keys m := by
  induction m with
  | nil => simp [keys] at hk
  | cons p rest ih =>
    obtain ⟨a, b⟩ := p
    have hs' : (a :: keys rest).Pairwise (fun x y => x < y) := hs
    rw [List.pairwise_cons] at hs'
    have hk' : k = a ∨ k ∈ keys rest := by simpa [keys] using hk
    by_cases h2 : k = a
    · subst h2
      simp [mapSet, keys]
    · have hkr : k ∈ keys rest := hk'.resolve_left h2
      have h1 : ¬ k < a := Nat.lt_asymm (hs'.1 k hkr)
      simp only [mapSet, h1, h2, if_false]
      show a :: keys (mapSet rest k v) = a :: keys rest
      rw [ih hs'.2 hkr]

theorem mem_keys_mapSet {V : Type} (m : NodeMap V) (k : Node) (v : V) (n : Node) :
    n ∈ keys (mapSet m k v) ↔ n = k ∨ n ∈ keys m := by
  simp only [mem_keys_iff, mapFind_mapSet]
  by_cases h : n = k
  · simp [h]
  · simp [h]

theorem sortedKeys_mapSet {V : Type} (m : NodeMap V) (k : Node) (v : V) (hs : SortedKeys m) :
    SortedKeys (mapSet m k v) := by
  induction m with
  | nil => simp [SortedKeys, mapSet, keys]
  | cons p rest ih =>
    obtain ⟨a, b⟩ := p
    have hs' : (a :: keys rest).Pairwise (fun x y => x < y) := hs
    rw [List.pairwise_cons] at hs'
    by_cases h1 : k < a
    · simp only [mapSet, h1, if_true]
      show (k :: a :: keys rest).Pairwise (fun x y => x < y)
      rw [List.pairwise_cons]
      refine ⟨?_, hs⟩
      intro x hx
      rcases List.mem_cons.1 hx with h2 | h2
      · rw [h2]; exact h1
      · exact Nat.lt_trans h1 (hs'.1 x h2)
    · by_cases h2 : k = a
      · subst h2
        simp only [mapSet, h1, if_false, if_true]
        exact hs
      · simp only [mapSet, h1, h2, if_false]
        show (a :: keys (mapSet rest k v)).Pairwise (fun x y => x < y)
        rw [List.pairwise_cons]
        refine ⟨?_, ih hs'.2⟩
        intro x hx
        rcases (mem_keys_mapSet rest k v x).1 hx with h3 | h3
        · rw [h3]
          exact Nat.lt_of_le_of_ne (Nat.le_of_not_lt h1) (fun e => h2 e.symm)
        · exact hs'.1 x h3

theorem sortedKeys_nodup {V : Type} {m : NodeMap V} (hs : SortedKeys m) : (keys m).Nodup := by
  unfold SortedKeys at hs
  exact hs.imp (fun h => Nat.ne_of_lt h)

theorem initDistances_spec (G : Graph) :
    SortedKeys (initDistances G) ∧
      ∀ n, mapFind (initDistances G) n = if n ∈ keys G then some intMax else none := by
  unfold initDistances
  have hgen : ∀ (L : Graph) (acc : DistMap), SortedKeys acc →
      SortedKeys (L.foldl (fun d pair => mapSet d pair.1 intMax) acc) ∧
      ∀ n, mapFind (L.foldl (fun d pair => mapSet d pair.1 intMax) acc) n
        = if n ∈ keys L then some intMax else mapFind acc n := by
    intro L
    induction L with
    | nil => intro acc hs; exact ⟨hs, fun n => by simp [keys]⟩
    | cons p L ih =>
      intro acc hs
      obtain ⟨h1, h2⟩ := ih (mapSet acc p.1 intMax) (sortedKeys_mapSet acc p.1 intMax hs)
      refine ⟨h1, ?_⟩
      intro n
      simp only [List.foldl_cons]
      rw [h2 n, mapFind_mapSet]
      by_cases hn : n ∈ keys L
      · have : n ∈ keys (p :: L) := by
          simp only [keys, List.map_cons, List.mem_cons]; exact Or.inr hn
        simp [hn, this]
      · by_cases hp : n = p.1
        · have : n ∈ keys (p :: L) := by
            simp only [keys, List.map_cons, List.mem_cons]; exact Or.inl hp
          rw [if_neg hn, if_pos hp, if_pos this]
        · have : n ∉ keys (p :: L) := by
            simp only [keys, List.map_cons, List.mem_cons, not_or]; exact ⟨hp, hn⟩
          simp [hn, hp, this]
  obtain ⟨h1, h2⟩ := hgen G [] (by simp [SortedKeys, keys])
  exact ⟨h1, fun n => by rw [h2 n]; simp [mapFind]⟩

theorem mem_keys_initDistances (G : Graph) (n : Node) :
    n ∈ keys (initDistances G) ↔ n ∈ keys G := by
  rw [mem_keys_iff, (initDistances_spec G).2 n]
  by_cases h : n ∈ keys G <;> simp [h]

theorem mem_iff_mapFind {V : Type} (m : NodeMap V) (hm : (keys m).Nodup) (k : Node) (v : V) :
    (k, v) ∈ m ↔ mapFind m k = some v := by
  induction m with
  | nil => simp [mapFind]
  | cons p rest ih =>
    obtain ⟨a, b⟩ := p
    have hm' : (a :: keys rest).Nodup := hm
    rw [List.nodup_cons] at hm'
    by_cases h : k = a
    · subst h
      simp only [List.mem_cons, Prod.mk.injEq, true_and, mapFind, if_true, Option.some.injEq]
      constructor
      · rintro (h | h)
        · exact h.symm
        · exact absurd (List.mem_map_of_mem Prod.fst h) hm'.1
      · intro h; exact Or.inl h.symm
    · simp only [List.mem_cons, Prod.mk.injEq, h, false_and, false_or, mapFind, if_false]
      exact ih hm'.2

/-! ## Facts about walks -/

theorem walk_mem_keys {G : Graph} {s n : Node} {W : Int} {p : List Node}
    (hc : Closed G) (hs : s ∈ keys G) (h : Walk G s n W p) : n ∈ keys G := by
  induction h with
  | nil => exact hs
  | snoc _ he ih => exact hc _ ih _ he

theorem reachable_mem_keys {G : Graph} {s n : Node}
    (hc : Closed G) (hs : s ∈ keys G) (h : Reachable G s n) : n ∈ keys G := by
  obtain ⟨W, p, hw⟩ := h
  exact walk_mem_keys hc hs hw

theorem reachable_start (G : Graph) (s : Node) : Reachable G s s := ⟨0, [], Walk.nil⟩

theorem reachable_step {G : Graph} {s u : Node} {e : Node × Int}
    (h : Reachable G s u) (he : e ∈ adj G u) : Reachable G s e.1 := by
  obtain ⟨W, p, hw⟩ := h
  exact ⟨W + e.2, u :: p, Walk.snoc hw he⟩

/-! ## Breadth-first search: the inner loop -/

theorem bfsNeighbors_eq (es : List (Node × Int)) (visited queue : List Node) :
    bfsNeighbors es (visited, queue)
      = ((freshNeighbors visited es).reverse ++ visited, queue ++ freshNeighbors visited es) := by
  induction es generalizing visited queue with
  | nil => simp [bfsNeighbors, freshNeighbors]
  | cons e es ih =>
    obtain ⟨n, w⟩ := e
    by_cases h : n ∈ visited
    · simp only [bfsNeighbors, freshNeighbors, h, if_true]
      exact ih visited queue
    · simp only [bfsNeighbors, freshNeighbors, h, if_false]
      rw [ih]
      simp

theorem mem_freshNeighbors (es : List (Node × Int)) (visited : List Node) (n : Node) :
    n ∈ freshNeighbors visited es ↔ n ∉ visited ∧ n ∈ es.map Prod.fst := by
  induction es generalizing visited with
  | nil => simp [freshNeighbors]
  | cons e es ih =>
    obtain ⟨m, w⟩ := e
    by_cases h : m ∈ visited
    · simp only [freshNeighbors, h, if_true, ih, List.map_cons, List.mem_cons]
      constructor
      · rintro ⟨h1, h2⟩; exact ⟨h1, Or.inr h2⟩
      · rintro ⟨h1, h2 | h2⟩
        · exact absurd (h2 ▸ h) h1
        · exact ⟨h1, h2⟩
    · simp only [freshNeighbors, h, if_false, List.mem_cons, ih, List.map_cons]
      constructor
      · rintro (h1 | ⟨h1, h2⟩)
        · exact ⟨h1 ▸ h, Or.inl h1⟩
        · exact ⟨fun hn => h1 (Or.inr hn), Or.inr h2⟩
      · rintro ⟨h1, h2 | h2⟩
        · exact Or.inl h2
        · by_cases hnm : n = m
          · exact Or.inl hnm
          · exact Or.inr ⟨fun hn => hn.elim hnm h1, h2⟩

theorem nodup_freshNeighbors (es : List (Node × Int)) (visited : List Node) :
    (freshNeighbors visited es).Nodup := by
  induction es generalizing visited with
  | nil => simp [freshNeighbors]
  | cons e es ih =>
    obtain ⟨m, w⟩ := e
    by_cases h : m ∈ visited
    · simp only [freshNeighbors, h, if_true]; exact ih visited
    · simp only [freshNeighbors, h, if_false, List.nodup_cons]
      refine ⟨?_, ih _⟩
      rw [mem_freshNeighbors]
      simp

theorem bfsStep_eq {T : Type} (value : Node → T) (G : Graph) (visited rest : List Node)
    (result : List T) (c : Node) (hc : c ∈ keys G) :
    bfsStep value { graph := G, visited := visited, queue := c :: rest, result := result }
      = { graph := G, visited := (freshNeighbors visited (adj G c)).reverse ++ visited,
          queue := rest ++ freshNeighbors visited (adj G c), result := result ++ [value c] } := by
  simp only [bfsStep, mapIndex_graph hc, bfsNeighbors_eq]

/-! ## Breadth-first search: the loop invariant -/

theorem bfsInv_init (G : Graph) (s : Node) : BfsInv G s (bfsInit Node G s) where
  graph_eq := rfl
  nodup := by simp [bfsInit]
  visited_iff := by simp [bfsInit]
  reach := by
    intro n hn
    simp only [bfsInit, List.mem_singleton] at hn
    exact hn ▸ reachable_start G s
  closed := by simp [bfsInit]
  start := by simp [bfsInit]

theorem bfsInv_step {G : Graph} {s : Node} {st : BfsState Node}
    (hc : Closed G) (hs : s ∈ keys G) (h : BfsInv G s st) (hq : st.queue ≠ []) :
    BfsInv G s (bfsStep id st) := by
  obtain ⟨g, visited, queue, result⟩ := st
  obtain ⟨hg, hnd, hv, hr, hcl, hst⟩ := h
  simp only at hg hnd hv hr hcl hst hq
  subst hg
  cases queue with
  | nil => exact absurd rfl hq
  | cons c rest =>
    have hcv : c ∈ visited := (hv c).2 (by simp)
    have hck : c ∈ keys g := reachable_mem_keys hc hs (hr c hcv)
    rw [bfsStep_eq id g visited rest result c hck]
    have hfresh := mem_freshNeighbors (adj g c) visited
    refine ⟨rfl, ?_, ?_, ?_, ?_, ?_⟩
    · simp only [id]
      have h1 : (result ++ c :: rest).Nodup := hnd
      have h2 : ((result ++ [c]) ++ rest).Nodup := by simpa using h1
      rw [← List.append_assoc]
      refine List.Nodup.append h2 (nodup_freshNeighbors _ _) ?_
      intro n hn1 hn2
      have := ((hfresh n).1 hn2).1
      exact this ((hv n).2 (by simpa using hn1))
    · intro n
      simp only [List.mem_append, List.mem_reverse, hv, List.mem_cons, id, List.mem_singleton,
        List.not_mem_nil, or_false]
      tauto
    · intro n hn
      simp only [List.mem_append, List.mem_reverse] at hn
      rcases hn with hn | hn
      · obtain ⟨-, hmem⟩ := (hfresh n).1 hn
        obtain ⟨e, he, rfl⟩ := List.mem_map.1 hmem
        exact reachable_step (hr c hcv) he
      · exact hr n hn
    · intro u hu e he
      simp only [List.mem_append, List.mem_reverse]
      simp only [List.mem_append, id, List.mem_singleton] at hu
      rcases hu with hu | hu
      · exact Or.inr (hcl u hu e he)
      · subst hu
        by_cases hev : e.1 ∈ visited
        · exact Or.inr hev
        · exact Or.inl ((hfresh e.1).2 ⟨hev, List.mem_map_of_mem Prod.fst he⟩)
    · simp only [List.mem_append]
      exact Or.inr hst

theorem bfsInv_length_le {G : Graph} {s : Node} {st : BfsState Node}
    (hc : Closed G) (hs : s ∈ keys G) (h : BfsInv G s st) :
    st.result.length + st.queue.length ≤ (keys G).length := by
  have hsub : st.result ++ st.queue ⊆ keys G := by
    intro n hn
    exact reachable_mem_keys hc hs (h.reach n ((h.visited_iff n).2 hn))
  have := (List.subperm_of_subset h.nodup hsub).length_le
  simpa using this

theorem bfsStep_result_length {T : Type} (value : Node → T) (st : BfsState T)
    (hq : st.queue ≠ []) : (bfsStep value st).result.length = st.result.length + 1 := by
  obtain ⟨g, visited, queue, result⟩ := st
  cases queue with
  | nil => exact absurd rfl hq
  | cons c rest => simp [bfsStep]

theorem bfsStep_extends (st : BfsState Node) :
    st.result ++ st.queue <+: (bfsStep id st).result ++ (bfsStep id st).queue := by
  obtain ⟨g, visited, queue, result⟩ := st
  cases queue with
  | nil => simp [bfsStep]
  | cons c rest =>
    simp only [bfsStep, bfsNeighbors_eq, id]
    refine ⟨freshNeighbors visited (mapIndex g c []).1, ?_⟩
    simp

/-- From a state satisfying the invariant the loop runs to completion when the fuel covers
the nodes not yet output; the final state satisfies the invariant with an empty queue. -/
theorem bfsLoop_complete {G : Graph} {s : Node} (hc : Closed G) (hs : s ∈ keys G)
    (fuel : Nat) (st : BfsState Node) (h : BfsInv G s st)
    (hfuel : (keys G).length ≤ fuel + st.result.length) :
    ∃ fin : BfsState Node, BfsInv G s fin ∧ fin.queue = [] ∧
      bfsLoop id fuel st = (G, .ok fin.result) ∧ st.result ++ st.queue <+: fin.result := by
  induction fuel generalizing st with
  | zero =>
    have hlen := bfsInv_length_le hc hs h
    have hq : st.queue = [] := by
      have : st.queue.length = 0 := by omega
      exact List.length_eq_zero.1 this
    exact ⟨st, h, hq, by simp [bfsLoop, hq, h.graph_eq], by simp [hq]⟩
  | succ fuel ih =>
    by_cases hq : st.queue = []
    · exact ⟨st, h, hq, by simp [bfsLoop, hq, h.graph_eq], by simp [hq]⟩
    · have h' := bfsInv_step hc hs h hq
      have hl := bfsStep_result_length id st hq
      obtain ⟨fin, hfin, hfq, hrun, hpre⟩ := ih (bfsStep id st) h' (by omega)
      refine ⟨fin, hfin, hfq, ?_, (bfsStep_extends st).trans hpre⟩
      simp only [bfsLoop, hq, if_false]
      exact hrun

/-- The result vector is the image under `value` of the sequence of nodes output. -/
theorem bfsLoop_map {T : Type} (value : Node → T) (fuel : Nat) (st : BfsState Node) :
    bfsLoop value fuel
        { graph := st.graph, visited := st.visited, queue := st.queue,
          result := st.result.map value }
      = ((bfsLoop id fuel st).1, (bfsLoop id fuel st).2.map (List.map value)) := by
  induction fuel generalizing st with
  | zero =>
    by_cases hq : st.queue = [] <;> simp [bfsLoop, hq, Except.map]
  | succ fuel ih =>
    by_cases hq : st.queue = []
    · simp [bfsLoop, hq, Except.map]
    · simp only [bfsLoop, hq, if_false]
      rw [← ih]
      congr 1
      obtain ⟨g, visited, queue, result⟩ := st
      cases queue with
      | nil => exact absurd rfl hq
      | cons c rest => simp [bfsStep]

theorem bfsInv_mem_result {G : Graph} {s : Node} {fin : BfsState Node}
    (h : BfsInv G s fin) (hq : fin.queue = []) {n : Node} (hn : Reachable G s n) :
    n ∈ fin.result := by
  have hv : ∀ m, m ∈ fin.visited ↔ m ∈ fin.result := by
    intro m; rw [h.visited_iff, hq, List.append_nil]
  obtain ⟨W, p, hw⟩ := hn
  induction hw with
  | nil => exact (hv s).1 h.start
  | snoc _ he ih => exact (hv _).1 (h.closed _ ih _ he)

theorem breadthFirstSearch_eq_map {T : Type} (value : Node → T) (fuel : Nat) (G : Graph)
    (s : Node) :
    breadthFirstSearch value fuel G s
      = ((breadthFirstSearch id fuel G s).1,
         (breadthFirstSearch id fuel G s).2.map (List.map value)) := by
  have := bfsLoop_map value fuel (bfsInit Node G s)
  simpa [breadthFirstSearch, bfsInit] using this

theorem bfsLoop_mono {T : Type} (value : Node → T) (fuel : Nat) (st : BfsState T)
    (g : Graph) (r : List T) (h : bfsLoop value fuel st = (g, .ok r)) (k : Nat) :
    bfsLoop value (fuel + k) st = (g, .ok r) := by
  induction fuel generalizing st with
  | zero =>
    by_cases hq : st.queue = []
    · simp only [bfsLoop, hq, if_true] at h
      cases k <;> simp [bfsLoop, hq, h]
    · simp [bfsLoop, hq] at h
  | succ fuel ih =>
    have e : fuel + 1 + k = (fuel + k) + 1 := by omega
    rw [e]
    by_cases hq : st.queue = []
    · simp only [bfsLoop, hq, if_true] at h ⊢
      exact h
    · simp only [bfsLoop, hq, if_false] at h ⊢
      exact ih _ h

/-- C4. On a graph in which every neighbour is a key, from a start node that is a key,
`breadthFirstSearch` terminates (every sufficient fuel gives the same result), leaves the
graph as it was, and the sequence of nodes whose values it appends has no node twice
and contains a node if and only if the node is reachable from the start. -/
theorem breadthFirstSearch_visits_reachable {T : Type} (value : Node → T) (G : Graph)
    (s : Node) (hc : Closed G) (hs : s ∈ keys G) :
    ∃ order : List Node, order.Nodup ∧ (∀ n, n ∈ order ↔ Reachable G s n) ∧
      ∃ N, ∀ fuel, N ≤ fuel →
        breadthFirstSearch value fuel G s = (G, .ok (order.map value)) := by
  obtain ⟨fin, hfin, hq, hrun, -⟩ :=
    bfsLoop_complete hc hs (keys G).length _ (bfsInv_init G s) (by simp [bfsInit])
  refine ⟨fin.result, ?_, ?_, (keys G).length, ?_⟩
  · have := hfin.nodup
    rwa [hq, List.append_nil] at this
  · intro n
    constructor
    · intro hn
      exact hfin.reach n ((hfin.visited_iff n).2 (by simp [hn]))
    · exact bfsInv_mem_result hfin hq
  · intro fuel hfuel
    obtain ⟨k, rfl⟩ := Nat.exists_eq_add_of_le hfuel
    rw [breadthFirstSearch_eq_map]
    have := bfsLoop_mono id _ _ _ _ hrun k
    simp only [breadthFirstSearch, this, Except.map]

/-- Witness for C4: the scenario graph A→[B, C], B→[D], C→[D], D→[] with start A. -/
theorem breadthFirstSearch_visits_reachable_witness :
    Closed scenario1 ∧ 0 ∈ keys scenario1 ∧
    ∃ order : List Node, order.Nodup ∧ (∀ n, n ∈ order ↔ Reachable scenario1 0 n) ∧
      ∃ N, ∀ fuel, N ≤ fuel →
        breadthFirstSearch id fuel scenario1 0 = (scenario1, .ok (order.map id)) :=
  ⟨by decide, by decide,
    breadthFirstSearch_visits_reachable id scenario1 0 (by decide) (by decide)⟩

/-! ## Breadth-first search: order of siblings -/

theorem filter_firstOccurrences (p : Node → Bool) (l : List Node) :
    (firstOccurrences l).filter p = firstOccurrences (l.filter p) := by
  induction l with
  | nil => rfl
  | cons x xs ih =>
    by_cases hx : p x = true
    · simp only [firstOccurrences, List.filter_cons, hx, if_true]
      rw [← ih, List.filter_filter, List.filter_filter]
      congr 2
      funext y
      exact Bool.and_comm _ _
    · simp only [firstOccurrences, List.filter_cons, hx, if_false, Bool.false_eq_true]
      rw [← ih, List.filter_filter]
      apply List.filter_congr
      intro y _
      by_cases hy : y = x
      · subst hy; simp [hx]
      · simp [hy]

theorem freshNeighbors_eq (es : List (Node × Int)) (visited : List Node) :
    freshNeighbors visited es
      = firstOccurrences ((es.map Prod.fst).filter (fun n => decide (n ∉ visited))) := by
  induction es generalizing visited with
  | nil => rfl
  | cons e es ih =>
    obtain ⟨m, w⟩ := e
    by_cases h : m ∈ visited
    · simp only [freshNeighbors, h, if_true, List.map_cons, List.filter_cons, not_true_eq_false,
        decide_False, Bool.false_eq_true, if_false]
      exact ih visited
    · simp only [freshNeighbors, h, if_false, List.map_cons, List.filter_cons, not_false_eq_true,
        decide_True, if_true, firstOccurrences]
      rw [ih, filter_firstOccurrences, List.filter_filter]
      congr 2
      apply List.filter_congr
      intro y _
      by_cases hy : y = m
      · subst hy; simp
      · simp [hy]

theorem unweighted_mapFind {G G' : Graph} (h : unweighted G = unweighted G') (k : Node) :
    (mapFind G k).map (List.map Prod.fst) = (mapFind G' k).map (List.map Prod.fst) := by
  induction G generalizing G' with
  | nil =>
    cases G' with
    | nil => rfl
    | cons p' r' => simp [unweighted] at h
  | cons p r ih =>
    cases G' with
    | nil => simp [unweighted] at h
    | cons p' r' =>
      obtain ⟨a, es⟩ := p
      obtain ⟨a', es'⟩ := p'
      simp only [unweighted, List.map_cons, List.cons.injEq, Prod.mk.injEq] at h
      obtain ⟨⟨rfl, hes⟩, hr⟩ := h
      by_cases hk : k = a
      · simp [mapFind, hk, hes]
      · simp only [mapFind, hk, if_false]
        exact ih hr

theorem unweighted_mapSet {G G' : Graph} (h : unweighted G = unweighted G') (k : Node) :
    unweighted (mapSet G k []) = unweighted (mapSet G' k []) := by
  induction G generalizing G' with
  | nil =>
    cases G' with
    | nil => rfl
    | cons p' r' => simp [unweighted] at h
  | cons p r ih =>
    cases G' with
    | nil => simp [unweighted] at h
    | cons p' r' =>
      obtain ⟨a, es⟩ := p
      obtain ⟨a', es'⟩ := p'
      have h0 := h
      simp only [unweighted, List.map_cons, List.cons.injEq, Prod.mk.injEq] at h
      obtain ⟨⟨rfl, hes⟩, hr⟩ := h
      by_cases h1 : k < a
      · simp only [mapSet, h1, if_true]
        simpa [unweighted] using h0
      · by_cases h2 : k = a
        · simp only [mapSet, h1, h2, if_false, if_true]
          simpa [unweighted] using hr
        · simp only [mapSet, h1, h2, if_false]
          have := ih hr
          simp only [unweighted, List.map_cons, List.cons.injEq, Prod.mk.injEq] at this ⊢
          exact ⟨⟨trivial, hes⟩, this⟩

theorem bfsNeighbors_unweighted (es es' : List (Node × Int))
    (h : es.map Prod.fst = es'.map Prod.fst) (s : List Node × List Node) :
    bfsNeighbors es s = bfsNeighbors es' s := by
  obtain ⟨visited, queue⟩ := s
  rw [bfsNeighbors_eq, bfsNeighbors_eq, freshNeighbors_eq, freshNeighbors_eq, h]

theorem bfsStep_unweighted {T : Type} (value : Node → T) (st st' : BfsState T)
    (hg : unweighted st.graph = unweighted st'.graph) (hv : st.visited = st'.visited)
    (hq : st.queue = st'.queue) (hr : st.result = st'.result) :
    unweighted (bfsStep value st).graph = unweighted (bfsStep value st').graph ∧
    (bfsStep value st).visited = (bfsStep value st').visited ∧
    (bfsStep value st).queue = (bfsStep value st').queue ∧
    (bfsStep value st).result = (bfsStep value st').result := by
  obtain ⟨g, visited, queue, result⟩ := st
  obtain ⟨g', visited', queue', result'⟩ := st'
  simp only at hg hv hq hr
  subst hv hq hr
  cases queue with
  | nil => exact ⟨hg, rfl, rfl, rfl⟩
  | cons c rest =>
    have hf := unweighted_mapFind hg c
    simp only [bfsStep, mapIndex]
    cases h1 : mapFind g c with
    | none =>
      cases h2 : mapFind g' c with
      | none => refine ⟨unweighted_mapSet hg c, ?_, ?_, ?_⟩ <;> first | rfl | trivial
      | some es' => rw [h1, h2] at hf; simp at hf
    | some es =>
      cases h2 : mapFind g' c with
      | none => rw [h1, h2] at hf; simp at hf
      | some es' =>
        rw [h1, h2] at hf
        simp only [Option.map_some', Option.some.injEq] at hf
        simp only [bfsNeighbors_unweighted es es' hf]
        refine ⟨hg, ?_, ?_, ?_⟩ <;> first | rfl | trivial

theorem bfsLoop_unweighted {T : Type} (value : Node → T) (fuel : Nat) (st st' : BfsState T)
    (hg : unweighted st.graph = unweighted st'.graph) (hv : st.visited = st'.visited)
    (hq : st.queue = st'.queue) (hr : st.result = st'.result) :
    (bfsLoop value fuel st).2 = (bfsLoop value fuel st').2 := by
  induction fuel generalizing st st' with
  | zero => simp [bfsLoop, hq, hr]
  | succ fuel ih =>
    by_cases h : st.queue = []
    · have h' : st'.queue = [] := hq ▸ h
      simp [bfsLoop, h, h', hr]
    · have h' : ¬ st'.queue = [] := hq ▸ h
      simp only [bfsLoop, h, h', if_false]
      obtain ⟨h1, h2, h3, h4⟩ := bfsStep_unweighted value st st' hg hv hq hr
      exact ih _ _ h1 h2 h3 h4

/-- C8. On a graph in which every neighbour is a key, from a start node `s` that is a key,
the sequence returned by `breadthFirstSearch` begins with the value of `s`, immediately
followed by the values of the neighbours of `s` other than `s`, each once at its first
occurrence in the adjacency list of `s`, in adjacency-list order; and two graphs that
differ only in their edge weights give the same result. -/
theorem breadthFirstSearch_sibling_order {T : Type} (value : Node → T) (G : Graph) (s : Node)
    (hc : Closed G) (hs : s ∈ keys G) :
    (∃ tail : List Node, ∃ N, ∀ fuel, N ≤ fuel →
      breadthFirstSearch value fuel G s
        = (G, .ok ((s :: firstOccurrences (((adj G s).map Prod.fst).filter (fun n => n ≠ s))
                    ++ tail).map value))) ∧
    ∀ (G' : Graph) (fuel : Nat), unweighted G' = unweighted G →
      (breadthFirstSearch value fuel G' s).2 = (breadthFirstSearch value fuel G s).2 := by
  constructor
  · have hstep : bfsStep id (bfsInit Node G s) = _ := bfsStep_eq id G [s] [] [] s hs
    have hinv : BfsInv G s (bfsStep id (bfsInit Node G s)) :=
      bfsInv_step hc hs (bfsInv_init G s) (by simp [bfsInit])
    obtain ⟨fin, -, -, hrun, hpre⟩ := bfsLoop_complete hc hs (keys G).length _ hinv (by
      rw [hstep]; simp)
    rw [hstep] at hpre
    obtain ⟨tail, htail⟩ := hpre
    refine ⟨tail, (keys G).length + 1, ?_⟩
    intro fuel hfuel
    obtain ⟨k, rfl⟩ := Nat.exists_eq_add_of_le hfuel
    rw [breadthFirstSearch_eq_map]
    have h1 : bfsLoop id ((keys G).length + 1) (bfsInit Node G s) = (G, .ok fin.result) := by
      have : ¬ (bfsInit Node G s).queue = [] := by simp [bfsInit]
      simp only [bfsLoop, this, if_false]
      exact hrun
    have h2 := bfsLoop_mono id _ _ _ _ h1 k
    simp only [breadthFirstSearch, h2, Except.map]
    rw [← htail, freshNeighbors_eq]
    have hfil : (List.map Prod.fst (adj G s)).filter (fun n => decide (n ∉ [s]))
        = (List.map Prod.fst (adj G s)).filter (fun n => decide (n ≠ s)) := by
      apply List.filter_congr
      intro y _
      simp
    rw [hfil]
    simp [id]
  · intro G' fuel h
    exact bfsLoop_unweighted value fuel _ _ h rfl rfl rfl

/-- Witness for C8: scenario 1 of the specification, `bfs(A) = [A, B, C, D]`. -/
theorem breadthFirstSearch_sibling_order_witness :
    Closed scenario1 ∧ 0 ∈ keys scenario1 ∧
    breadthFirstSearch id 4 scenario1 0 = (scenario1, .ok [0, 1, 2, 3]) ∧
    ((∃ tail : List Node, ∃ N, ∀ fuel, N ≤ fuel →
      breadthFirstSearch id fuel scenario1 0
        = (scenario1, .ok ((0 :: firstOccurrences
            (((adj scenario1 0).map Prod.fst).filter (fun n => n ≠ 0)) ++ tail).map id))) ∧
    ∀ (G' : Graph) (fuel : Nat), unweighted G' = unweighted scenario1 →
      (breadthFirstSearch id fuel G' 0).2 = (breadthFirstSearch id fuel scenario1 0).2) :=
  ⟨by decide, by decide, by decide,
    breadthFirstSearch_sibling_order id scenario1 0 (by decide) (by decide)⟩

/-! ## Hop distance -/

theorem walk_inv_cons {G : Graph} {s v u : Node} {W : Int} {p : List Node}
    (h : Walk G s v W (u :: p)) :
    ∃ W' w, Walk G s u W' p ∧ (v, w) ∈ adj G u ∧ W = W' + w := by
  cases h with
  | snoc hw he => exact ⟨_, _, hw, he, rfl⟩

theorem walk_inv_nil {G : Graph} {s v : Node} {W : Int} (h : Walk G s v W []) :
    v = s ∧ W = 0 := by
  cases h with
  | nil => exact ⟨rfl, rfl⟩

theorem exists_isHopDist {G : Graph} {s n : Node} (h : Reachable G s n) :
    ∃ k, IsHopDist G s n k := by
  classical
  obtain ⟨W, p, hw⟩ := h
  have hex : ∃ k, ∃ W p, Walk G s n W p ∧ p.length = k := ⟨p.length, W, p, hw, rfl⟩
  refine ⟨Nat.find hex, Nat.find_spec hex, ?_⟩
  intro W' p' hw'
  exact Nat.find_min' hex ⟨W', p', hw', rfl⟩

theorem isHopDist_unique {G : Graph} {s n : Node} {k k' : Nat}
    (h : IsHopDist G s n k) (h' : IsHopDist G s n k') : k = k' := by
  obtain ⟨⟨W, p, hw, hp⟩, hmin⟩ := h
  obtain ⟨⟨W', p', hw', hp'⟩, hmin'⟩ := h'
  have h1 := hmin W' p' hw'
  have h2 := hmin' W p hw
  omega

theorem isHopDist_start (G : Graph) (s : Node) : IsHopDist G s s 0 :=
  ⟨⟨0, [], Walk.nil, rfl⟩, fun _ _ _ => Nat.zero_le _⟩

theorem isHopDist_edge_le {G : Graph} {s u : Node} {e : Node × Int} {ku kv : Nat}
    (hu : IsHopDist G s u ku) (he : e ∈ adj G u) (hv : IsHopDist G s e.1 kv) : kv ≤ ku + 1 := by
  obtain ⟨⟨W, p, hw, hp⟩, -⟩ := hu
  have := hv.2 _ _ (Walk.snoc hw he)
  simpa [hp] using this

theorem isHopDist_pred {G : Graph} {s v : Node} {k : Nat} (h : IsHopDist G s v (k + 1)) :
    ∃ u w, (v, w) ∈ adj G u ∧ IsHopDist G s u k := by
  obtain ⟨⟨W, p, hw, hp⟩, hmin⟩ := h
  cases p with
  | nil => simp at hp
  | cons u p =>
    obtain ⟨W', w, hw', he, -⟩ := walk_inv_cons hw
    have hpl : p.length = k := by simpa using hp
    refine ⟨u, w, he, ⟨W', p, hw', hpl⟩, ?_⟩
    intro W2 p2 hw2
    have := hmin _ _ (Walk.snoc hw2 he)
    simpa using this

/-! ## Breadth-first search: level order -/

theorem isHopDist_eq_start {G : Graph} {s v : Node} (h : IsHopDist G s v 0) : v = s := by
  obtain ⟨⟨W, p, hw, hp⟩, -⟩ := h
  have : p = [] := List.length_eq_zero.1 hp
  subst this
  exact (walk_inv_nil hw).1

theorem bfsLevelInv_init (G : Graph) (s : Node) : BfsLevelInv G s (bfsInit Node G s) where
  sorted := by simp [bfsInit]
  span := by
    intro c rest hq y hy kc ky hc hy'
    simp only [bfsInit, List.cons.injEq] at hq
    simp only [bfsInit, List.mem_singleton] at hy
    obtain ⟨rfl, -⟩ := hq
    subst hy
    have := isHopDist_unique hc hy'
    omega
  far := by
    intro c rest hq v kv kc hv hc hnv
    simp only [bfsInit, List.cons.injEq] at hq
    simp only [bfsInit, List.mem_singleton] at hnv
    obtain ⟨rfl, -⟩ := hq
    have h0 := isHopDist_unique hc (isHopDist_start G s)
    subst h0
    rcases Nat.eq_zero_or_pos kv with h | h
    · subst h; exact absurd (isHopDist_eq_start hv) hnv
    · exact h

theorem bfsLevelInv_step {G : Graph} {s : Node} {st : BfsState Node}
    (hc : Closed G) (hs : s ∈ keys G) (h : BfsInv G s st) (hl : BfsLevelInv G s st)
    (hq : st.queue ≠ []) : BfsLevelInv G s (bfsStep id st) := by
  obtain ⟨g, visited, queue, result⟩ := st
  obtain ⟨hg, hnd, hv, hr, hcl, hst⟩ := h
  obtain ⟨hdistinct, hspan, hfar⟩ := hl
  simp only at hg hnd hv hr hcl hst hq hdistinct hspan hfar
  subst hg
  cases queue with
  | nil => exact absurd rfl hq
  | cons c rest =>
    have hcv : c ∈ visited := (hv c).2 (by simp)
    have hck : c ∈ keys g := reachable_mem_keys hc hs (hr c hcv)
    rw [bfsStep_eq id g visited rest result c hck]
    have hfresh := mem_freshNeighbors (adj g c) visited
    obtain ⟨kc, hkc⟩ := exists_isHopDist (hr c hcv)
    -- every node enqueued now is exactly one level below `c`
    have hnew : ∀ n ∈ freshNeighbors visited (adj g c), ∀ kn, IsHopDist g s n kn → kn = kc + 1 := by
      intro n hn kn hkn
      obtain ⟨hnv, hmem⟩ := (hfresh n).1 hn
      obtain ⟨e, he, rfl⟩ := List.mem_map.1 hmem
      have h1 := hfar c rest rfl e.1 kn kc hkn hkc hnv
      have h2 := isHopDist_edge_le hkc he hkn
      omega
    have hold := List.pairwise_append.1 hdistinct
    have hcr := List.pairwise_cons.1 hold.2.1
    have hdistinct' : ((result ++ [id c]) ++ (rest ++ freshNeighbors visited (adj g c))).Pairwise
        (fun x y => ∀ kx ky, IsHopDist g s x kx → IsHopDist g s y ky → kx ≤ ky) := by
      have e : (result ++ [id c]) ++ (rest ++ freshNeighbors visited (adj g c))
          = (result ++ c :: rest) ++ freshNeighbors visited (adj g c) := by simp
      rw [e, List.pairwise_append]
      refine ⟨hdistinct, ?_, ?_⟩
      · refine List.Pairwise.imp_of_mem ?_ (nodup_freshNeighbors (adj g c) visited)
        intro a b ha hb _ ka kb hka hkb
        have h1 := hnew a ha ka hka
        have h2 := hnew b hb kb hkb
        omega
      · intro x hx y hy kx ky hkx hky
        have h1 := hnew y hy ky hky
        rcases List.mem_append.1 hx with hx | hx
        · have := hold.2.2 x hx c (by simp) kx kc hkx hkc
          omega
        · rcases List.mem_cons.1 hx with hx | hx
          · subst hx
            have := isHopDist_unique hkx hkc
            omega
          · have := hspan c rest rfl x (by simp [hx]) kc kx hkc hkx
            omega
    -- the front of the new queue is a nearest node of the new queue
    have hfront : ∀ c' rest', rest ++ freshNeighbors visited (adj g c) = c' :: rest' →
        ∀ y ∈ rest ++ freshNeighbors visited (adj g c), ∀ kc' ky,
          IsHopDist g s c' kc' → IsHopDist g s y ky → kc' ≤ ky := by
      intro c' rest' hq' y hy kc' ky hkc' hky
      have h1 := (List.pairwise_append.1 hdistinct').2.1
      rw [hq'] at h1 hy
      rcases List.mem_cons.1 hy with hy | hy
      · subst hy
        have := isHopDist_unique hkc' hky
        omega
      · exact (List.pairwise_cons.1 h1).1 y hy kc' ky hkc' hky
    have hbound : ∀ y ∈ rest ++ freshNeighbors visited (adj g c), ∀ ky,
        IsHopDist g s y ky → kc ≤ ky ∧ ky ≤ kc + 1 := by
      intro y hy ky hky
      rcases List.mem_append.1 hy with hy | hy
      · exact ⟨hcr.1 y hy kc ky hkc hky, hspan c rest rfl y (by simp [hy]) kc ky hkc hky⟩
      · have := hnew y hy ky hky
        omega
    refine ⟨hdistinct', ?_, ?_⟩
    · intro c' rest' hq' y hy kc' ky hkc' hky
      have hc' : c' ∈ rest ++ freshNeighbors visited (adj g c) := by
        simp only at hq'
        rw [hq']; simp
      have h1 := hbound c' hc' kc' hkc'
      have h2 := hbound y hy ky hky
      omega
    · intro c' rest' hq' v kv kc' hkv hkc' hnv
      simp only at hq' hnv
      have hc' : c' ∈ rest ++ freshNeighbors visited (adj g c) := by
        rw [hq']; simp
      have hnv1 : v ∉ visited := fun hmem => hnv (by simp [hmem])
      have hnv2 : v ∉ freshNeighbors visited (adj g c) := fun hmem => hnv (by simp [hmem])
      have h1 := hfar c rest rfl v kv kc hkv hkc hnv1
      have h2 := hbound c' hc' kc' hkc'
      by_contra hcon
      have hkv' : kv = kc + 1 := by omega
      subst hkv'
      obtain ⟨u, w, he, hku⟩ := isHopDist_pred hkv
      have huv : u ∈ visited := by
        by_contra hun
        have := hfar c rest rfl u kc kc hku hkc hun
        omega
      rcases List.mem_append.1 ((hv u).1 huv) with hu | hu
      · exact hnv1 (hcl u hu _ he)
      · rcases List.mem_cons.1 hu with hu | hu
        · subst hu
          by_cases hvv : v ∈ visited
          · exact hnv1 hvv
          · exact hnv2 ((hfresh v).2 ⟨hvv, List.mem_map_of_mem Prod.fst he⟩)
        · have := hfront c' rest' hq' u (by simp [hu]) kc' kc hkc' hku
          omega

theorem bfsLoop_level_order {G : Graph} {s : Node} (hc : Closed G) (hs : s ∈ keys G)
    (fuel : Nat) (st : BfsState Node) (h : BfsInv G s st) (hl : BfsLevelInv G s st)
    (g : Graph) (r : List Node) (hrun : bfsLoop id fuel st = (g, .ok r)) :
    r.Pairwise (fun x y => ∀ kx ky, IsHopDist G s x kx → IsHopDist G s y ky → kx ≤ ky) := by
  induction fuel generalizing st with
  | zero =>
    by_cases hq : st.queue = []
    · simp only [bfsLoop, hq, if_true, Prod.mk.injEq, Except.ok.injEq] at hrun
      have := hl.sorted
      rw [hq, List.append_nil, hrun.2] at this
      exact this
    · simp [bfsLoop, hq] at hrun
  | succ fuel ih =>
    by_cases hq : st.queue = []
    · simp only [bfsLoop, hq, if_true, Prod.mk.injEq, Except.ok.injEq] at hrun
      have := hl.sorted
      rw [hq, List.append_nil, hrun.2] at this
      exact this
    · simp only [bfsLoop, hq, if_false] at hrun
      exact ih _ (bfsInv_step hc hs h hq) (bfsLevelInv_step hc hs h hl hq) hrun

/-- C6. On a graph in which every neighbour is a key, from a start node that is a key,
`breadthFirstSearch` outputs the nodes in level order: every node output has a hop
distance from the start, and when a node `x` is output before a node `y`, the hop
distance of `x` is at most the hop distance of `y`. -/
theorem breadthFirstSearch_level_order {T : Type} (value : Node → T) (G : Graph) (s : Node)
    (hc : Closed G) (hs : s ∈ keys G) :
    ∃ order : List Node,
      (∃ N, ∀ fuel, N ≤ fuel →
        breadthFirstSearch value fuel G s = (G, .ok (order.map value))) ∧
      (∀ x ∈ order, ∃ k, IsHopDist G s x k) ∧
      order.Pairwise
        (fun x y => ∀ kx ky, IsHopDist G s x kx → IsHopDist G s y ky → kx ≤ ky) := by
  obtain ⟨fin, hfin, hq, hrun, -⟩ :=
    bfsLoop_complete hc hs (keys G).length _ (bfsInv_init G s) (by simp [bfsInit])
  refine ⟨fin.result, ⟨(keys G).length, ?_⟩, ?_, ?_⟩
  · intro fuel hfuel
    obtain ⟨k, rfl⟩ := Nat.exists_eq_add_of_le hfuel
    rw [breadthFirstSearch_eq_map]
    have := bfsLoop_mono id _ _ _ _ hrun k
    simp only [breadthFirstSearch, this, Except.map]
  · intro x hx
    exact exists_isHopDist (hfin.reach x ((hfin.visited_iff x).2 (by simp [hx])))
  · exact bfsLoop_level_order hc hs _ _ (bfsInv_init G s) (bfsLevelInv_init G s) _ _ hrun

/-- Witness for C6: the scenario graph A→[B, C], B→[D], C→[D], D→[] with start A. -/
theorem breadthFirstSearch_level_order_witness :
    Closed scenario1 ∧ 0 ∈ keys scenario1 ∧
    ∃ order : List Node,
      (∃ N, ∀ fuel, N ≤ fuel →
        breadthFirstSearch id fuel scenario1 0 = (scenario1, .ok (order.map id))) ∧
      (∀ x ∈ order, ∃ k, IsHopDist scenario1 0 x k) ∧
      order.Pairwise
        (fun x y => ∀ kx ky,
          IsHopDist scenario1 0 x kx → IsHopDist scenario1 0 y ky → kx ≤ ky) :=
  ⟨by decide, by decide,
    breadthFirstSearch_level_order id scenario1 0 (by decide) (by decide)⟩

/-! ## Depth-first search: the loop invariant -/

theorem dfsNeighbors_eq (visited : List Node) (es : List (Node × Int)) (stack : List Node) :
    dfsNeighbors visited es stack
      = ((es.map Prod.fst).filter (fun n => decide (n ∉ visited))).reverse ++ stack := by
  induction es generalizing stack with
  | nil => simp [dfsNeighbors]
  | cons e es ih =>
    obtain ⟨n, w⟩ := e
    by_cases h : n ∈ visited
    · simp only [dfsNeighbors, h, if_true, List.map_cons, List.filter_cons, not_true_eq_false,
        decide_False, Bool.false_eq_true, if_false]
      exact ih stack
    · simp only [dfsNeighbors, h, if_false, List.map_cons, List.filter_cons, not_false_eq_true,
        decide_True, if_true]
      rw [ih]
      simp

theorem dfsStep_skip {T : Type} (value : Node → T) (g : Graph) (visited rest : List Node)
    (result : List T) (c : Node) (hc : c ∈ visited) :
    dfsStep value { graph := g, visited := visited, stack := c :: rest, result := result }
      = { graph := g, visited := visited, stack := rest, result := result } := by
  simp [dfsStep, hc]

theorem dfsStep_visit {T : Type} (value : Node → T) (G : Graph) (visited rest : List Node)
    (result : List T) (c : Node) (hc : c ∉ visited) (hk : c ∈ keys G) :
    dfsStep value { graph := G, visited := visited, stack := c :: rest, result := result }
      = { graph := G, visited := c :: visited,
          stack := (((adj G c).map Prod.fst).filter
            (fun n => decide (n ∉ c :: visited))).reverse ++ rest,
          result := result ++ [value c] } := by
  simp only [dfsStep, hc, if_false, mapIndex_graph hk, dfsNeighbors_eq]

theorem dfsInv_init (G : Graph) (s : Node) : DfsInv G s (dfsInit Node G s) where
  graph_eq := rfl
  nodup := by simp [dfsInit]
  visited_iff := by simp [dfsInit]
  reach_visited := by simp [dfsInit]
  reach_stack := by
    intro n hn
    simp only [dfsInit, List.mem_singleton] at hn
    exact hn ▸ reachable_start G s
  closed := by simp [dfsInit]
  start := by simp [dfsInit]

theorem dfsInv_step {G : Graph} {s : Node} {st : DfsState Node}
    (hc : Closed G) (hs : s ∈ keys G) (h : DfsInv G s st) (hq : st.stack ≠ []) :
    DfsInv G s (dfsStep id st) := by
  obtain ⟨g, visited, stack, result⟩ := st
  obtain ⟨hg, hnd, hv, hrv, hrs, hcl, hst⟩ := h
  simp only at hg hnd hv hrv hrs hcl hst hq
  subst hg
  cases stack with
  | nil => exact absurd rfl hq
  | cons c rest =>
    by_cases hcv : c ∈ visited
    · rw [dfsStep_skip id g visited rest result c hcv]
      refine ⟨rfl, hnd, hv, hrv, fun n hn => hrs n (by simp [hn]), ?_, ?_⟩
      · intro u hu e he
        rcases hcl u hu e he with h1 | h1
        · exact Or.inl h1
        · rcases List.mem_cons.1 h1 with h2 | h2
          · exact Or.inl (h2 ▸ hcv)
          · exact Or.inr h2
      · rcases hst with h1 | h1
        · exact Or.inl h1
        · rcases List.mem_cons.1 h1 with h2 | h2
          · exact Or.inl (h2 ▸ hcv)
          · exact Or.inr h2
    · have hcr : Reachable g s c := hrs c (by simp)
      have hck : c ∈ keys g := reachable_mem_keys hc hs hcr
      rw [dfsStep_visit id g visited rest result c hcv hck]
      refine ⟨rfl, ?_, ?_, ?_, ?_, ?_, ?_⟩
      · simp only [id]
        rw [List.nodup_append]
        refine ⟨hnd, by simp, ?_⟩
        intro a ha hb
        simp only [List.mem_singleton] at hb
        subst hb
        exact hcv ((hv a).2 ha)
      · intro n
        simp only [List.mem_cons, hv, List.mem_append, id, List.mem_singleton, List.not_mem_nil,
          or_false]
        tauto
      · intro n hn
        rcases List.mem_cons.1 hn with h1 | h1
        · exact h1 ▸ hcr
        · exact hrv n h1
      · intro n hn
        simp only [List.mem_append, List.mem_reverse, List.mem_filter, List.mem_map] at hn
        rcases hn with ⟨⟨e, he, rfl⟩, -⟩ | h1
        · exact reachable_step hcr he
        · exact hrs n (by simp [h1])
      · intro u hu e he
        by_cases hev : e.1 ∈ c :: visited
        · exact Or.inl hev
        · right
          rcases List.mem_cons.1 hu with h1 | h1
          · subst h1
            simp only [List.mem_append, List.mem_reverse, List.mem_filter, List.mem_map]
            exact Or.inl ⟨⟨e, he, rfl⟩, by simpa using hev⟩
          · rcases hcl u h1 e he with h2 | h2
            · exact absurd (List.mem_cons_of_mem c h2) hev
            · rcases List.mem_cons.1 h2 with h3 | h3
              · exact absurd (h3 ▸ List.mem_cons_self c visited) hev
              · simp only [List.mem_append]
                exact Or.inr h3
      · rcases hst with h1 | h1
        · exact Or.inl (List.mem_cons_of_mem c h1)
        · rcases List.mem_cons.1 h1 with h2 | h2
          · exact Or.inl (h2 ▸ List.mem_cons_self c visited)
          · exact Or.inr (by simp only [List.mem_append]; exact Or.inr h2)

theorem dfsLoop_inv {G : Graph} {s : Node} (hc : Closed G) (hs : s ∈ keys G)
    (fuel : Nat) (st : DfsState Node) (h : DfsInv G s st)
    (g : Graph) (r : List Node) (hrun : dfsLoop id fuel st = (g, .ok r)) :
    ∃ fin : DfsState Node, DfsInv G s fin ∧ fin.stack = [] ∧ r = fin.result ∧ g = G := by
  induction fuel generalizing st with
  | zero =>
    by_cases hq : st.stack = []
    · simp only [dfsLoop, hq, if_true, Prod.mk.injEq, Except.ok.injEq] at hrun
      exact ⟨st, h, hq, hrun.2.symm, hrun.1 ▸ h.graph_eq⟩
    · simp [dfsLoop, hq] at hrun
  | succ fuel ih =>
    by_cases hq : st.stack = []
    · simp only [dfsLoop, hq, if_true, Prod.mk.injEq, Except.ok.injEq] at hrun
      exact ⟨st, h, hq, hrun.2.symm, hrun.1 ▸ h.graph_eq⟩
    · simp only [dfsLoop, hq, if_false] at hrun
      exact ih _ (dfsInv_step hc hs h hq) hrun

theorem dfsInv_mem_result {G : Graph} {s : Node} {fin : DfsState Node}
    (h : DfsInv G s fin) (hq : fin.stack = []) {n : Node} (hn : Reachable G s n) :
    n ∈ fin.result := by
  have hstart : s ∈ fin.visited := by
    rcases h.start with h1 | h1
    · exact h1
    · rw [hq] at h1; cases h1
  obtain ⟨W, p, hw⟩ := hn
  induction hw with
  | nil => exact (h.visited_iff s).1 hstart
  | snoc _ he ih =>
    rcases h.closed _ ((h.visited_iff _).2 ih) _ he with h1 | h1
    · exact (h.visited_iff _).1 h1
    · rw [hq] at h1; cases h1

/-- The result vector is the image under `value` of the sequence of nodes output. -/
theorem dfsLoop_map {T : Type} (value : Node → T) (fuel : Nat) (st : DfsState Node) :
    dfsLoop value fuel
        { graph := st.graph, visited := st.visited, stack := st.stack,
          result := st.result.map value }
      = ((dfsLoop id fuel st).1, (dfsLoop id fuel st).2.map (List.map value)) := by
  induction fuel generalizing st with
  | zero =>
    by_cases hq : st.stack = [] <;> simp [dfsLoop, hq, Except.map]
  | succ fuel ih =>
    by_cases hq : st.stack = []
    · simp [dfsLoop, hq, Except.map]
    · simp only [dfsLoop, hq, if_false]
      rw [← ih]
      congr 1
      obtain ⟨g, visited, stack, result⟩ := st
      cases stack with
      | nil => exact absurd rfl hq
      | cons c rest =>
        by_cases hcv : c ∈ visited <;> simp [dfsStep, hcv]

theorem depthFirstSearch_eq_map {T : Type} (value : Node → T) (fuel : Nat) (G : Graph)
    (s : Node) :
    depthFirstSearch value fuel G s
      = ((depthFirstSearch id fuel G s).1,
         (depthFirstSearch id fuel G s).2.map (List.map value)) := by
  have := dfsLoop_map value fuel (dfsInit Node G s)
  simpa [depthFirstSearch, dfsInit] using this

/-! ## Depth-first search: the recursive formulation -/

theorem visitAll_subset
    (visit : Node → List Node × List Node → Option (List Node × List Node))
    (hmono : ∀ v st st', visit v st = some st' → st.1 ⊆ st'.1)
    (vs : List Node) (st st' : List Node × List Node)
    (h : visitAll visit vs st = some st') : st.1 ⊆ st'.1 := by
  induction vs generalizing st with
  | nil =>
    simp only [visitAll, Option.some.injEq] at h
    subst h
    exact fun _ hx => hx
  | cons v vs ih =>
    obtain ⟨visited, out⟩ := st
    by_cases hv : v ∈ visited
    · simp only [visitAll, hv, if_true] at h
      exact ih _ h
    · simp only [visitAll, hv, if_false] at h
      cases h1 : visit v (visited, out) with
      | none => simp [h1] at h
      | some st1 =>
        simp only [h1] at h
        exact fun x hx => ih _ h (hmono _ _ _ h1 hx)

theorem dfsVisit_subset (G : Graph) (depth : Nat) (u : Node) (st st' : List Node × List Node)
    (h : dfsVisit G depth u st = some st') : st.1 ⊆ st'.1 := by
  induction depth generalizing u st st' with
  | zero => simp [dfsVisit] at h
  | succ depth ih =>
    obtain ⟨visited, out⟩ := st
    simp only [dfsVisit] at h
    have := visitAll_subset _ (fun v a b hab => ih v a b hab) _ _ _ h
    exact fun x hx => this (List.mem_cons_of_mem u hx)

theorem visitAll_filter
    (visit : Node → List Node × List Node → Option (List Node × List Node))
    (hmono : ∀ v st st', visit v st = some st' → st.1 ⊆ st'.1)
    (seen : List Node) (vs : List Node) (st : List Node × List Node) (hsub : seen ⊆ st.1) :
    visitAll visit (vs.filter (fun n => decide (n ∉ seen))) st = visitAll visit vs st := by
  induction vs generalizing st with
  | nil => rfl
  | cons v vs ih =>
    obtain ⟨visited, out⟩ := st
    by_cases hs : v ∈ seen
    · have hv : v ∈ visited := hsub hs
      simp only [List.filter_cons, hs, not_true_eq_false, decide_False, Bool.false_eq_true,
        if_false, visitAll, hv, if_true]
      exact ih _ hsub
    · simp only [List.filter_cons, hs, not_false_eq_true, decide_True, if_true]
      by_cases hv : v ∈ visited
      · simp only [visitAll, hv, if_true]
        exact ih _ hsub
      · simp only [visitAll, hv, if_false]
        cases h1 : visit v (visited, out) with
        | none => rfl
        | some st1 => exact ih _ (fun x hx => hmono _ _ _ h1 (hsub hx))

theorem dfsLoop_succ {T : Type} (value : Node → T) (fuel : Nat) (st : DfsState T)
    (h : st.stack ≠ []) :
    dfsLoop value (fuel + 1) st = dfsLoop value fuel (dfsStep value st) := by
  simp [dfsLoop, h]

/-- The iterative loop simulates a run of `visitAll` over the top segment of its stack. -/
theorem visitAll_sim {G : Graph}
    (visit : Node → List Node × List Node → Option (List Node × List Node))
    (hsim : ∀ u visited out st', u ∈ keys G → u ∉ visited →
      visit u (visited, out) = some st' → ∀ rest, ∃ k, ∀ fuel,
        dfsLoop id (k + fuel) { graph := G, visited := visited, stack := u :: rest, result := out }
          = dfsLoop id fuel { graph := G, visited := st'.1, stack := rest, result := st'.2 })
    (vs : List Node) (st st' : List Node × List Node) (hk : ∀ v ∈ vs, v ∈ keys G)
    (h : visitAll visit vs st = some st') (rest : List Node) :
    ∃ k, ∀ fuel,
      dfsLoop id (k + fuel) { graph := G, visited := st.1, stack := vs ++ rest, result := st.2 }
        = dfsLoop id fuel { graph := G, visited := st'.1, stack := rest, result := st'.2 } := by
  induction vs generalizing st with
  | nil =>
    simp only [visitAll, Option.some.injEq] at h
    subst h
    exact ⟨0, fun fuel => by simp⟩
  | cons v vs ih =>
    obtain ⟨visited, out⟩ := st
    have hk' : ∀ x ∈ vs, x ∈ keys G := fun x hx => hk x (List.mem_cons_of_mem v hx)
    by_cases hv : v ∈ visited
    · simp only [visitAll, hv, if_true] at h
      obtain ⟨k, hk2⟩ := ih _ hk' h
      refine ⟨k + 1, fun fuel => ?_⟩
      have e : k + 1 + fuel = (k + fuel) + 1 := by omega
      rw [e, dfsLoop_succ _ _ _ (by simp)]
      simp only [List.cons_append]
      rw [dfsStep_skip id G visited (vs ++ rest) out v hv]
      exact hk2 fuel
    · simp only [visitAll, hv, if_false] at h
      cases h1 : visit v (visited, out) with
      | none => simp [h1] at h
      | some st1 =>
        simp only [h1] at h
        obtain ⟨k1, hk1⟩ := hsim v visited out st1 (hk v (by simp)) hv h1 (vs ++ rest)
        obtain ⟨k2, hk2⟩ := ih _ hk' h
        refine ⟨k1 + k2, fun fuel => ?_⟩
        have e : k1 + k2 + fuel = k1 + (k2 + fuel) := by omega
        rw [e]
        simp only [List.cons_append]
        rw [hk1 (k2 + fuel)]
        exact hk2 fuel

/-- The iterative loop simulates a call of the recursive depth-first search on its stack top. -/
theorem dfsVisit_sim {G : Graph} (hc : Closed G) (depth : Nat) :
    ∀ u visited out st', u ∈ keys G → u ∉ visited →
      dfsVisit G depth u (visited, out) = some st' → ∀ rest, ∃ k, ∀ fuel,
        dfsLoop id (k + fuel) { graph := G, visited := visited, stack := u :: rest, result := out }
          = dfsLoop id fuel { graph := G, visited := st'.1, stack := rest, result := st'.2 } := by
  induction depth with
  | zero =>
    intro u visited out st' _ _ h
    simp [dfsVisit] at h
  | succ depth ih =>
    intro u visited out st' hu hnv h rest
    simp only [dfsVisit] at h
    have hmono : ∀ v st st', dfsVisit G depth v st = some st' → st.1 ⊆ st'.1 :=
      fun v a b hab => dfsVisit_subset G depth v a b hab
    rw [← visitAll_filter _ hmono (u :: visited) _ _ (fun x hx => hx)] at h
    have hkeys : ∀ v ∈ (((adj G u).map Prod.fst).reverse.filter
        (fun n => decide (n ∉ u :: visited))), v ∈ keys G := by
      intro v hv
      simp only [List.mem_filter, List.mem_reverse, List.mem_map] at hv
      obtain ⟨⟨e, he, rfl⟩, -⟩ := hv
      exact hc u hu e he
    obtain ⟨k, hk⟩ := visitAll_sim _ ih _ _ _ hkeys h rest
    refine ⟨k + 1, fun fuel => ?_⟩
    have e : k + 1 + fuel = (k + fuel) + 1 := by omega
    rw [e, dfsLoop_succ _ _ _ (by simp), dfsStep_visit id G visited rest out u hnv hu]
    rw [← List.filter_reverse]
    exact hk fuel

theorem visitAll_congr
    (visit visit' : Node → List Node × List Node → Option (List Node × List Node))
    (hvv : ∀ v st r, visit v st = some r → visit' v st = some r)
    (vs : List Node) (st r : List Node × List Node) (h : visitAll visit vs st = some r) :
    visitAll visit' vs st = some r := by
  induction vs generalizing st with
  | nil => exact h
  | cons v vs ih =>
    obtain ⟨visited, out⟩ := st
    by_cases hv : v ∈ visited
    · simp only [visitAll, hv, if_true] at h ⊢
      exact ih _ h
    · simp only [visitAll, hv, if_false] at h ⊢
      cases h1 : visit v (visited, out) with
      | none => simp [h1] at h
      | some st1 =>
        simp only [h1] at h
        simp only [hvv _ _ _ h1]
        exact ih _ h

theorem dfsVisit_succ (G : Graph) (depth : Nat) (u : Node) (st r : List Node × List Node)
    (h : dfsVisit G depth u st = some r) : dfsVisit G (depth + 1) u st = some r := by
  induction depth generalizing u st r with
  | zero => simp [dfsVisit] at h
  | succ depth ih =>
    obtain ⟨visited, out⟩ := st
    simp only [dfsVisit] at h
    rw [dfsVisit]
    exact visitAll_congr _ _ (fun v a b hab => ih v a b hab) _ _ _ h

theorem dfsVisit_mono (G : Graph) (depth : Nat) (u : Node) (st r : List Node × List Node)
    (h : dfsVisit G depth u st = some r) (k : Nat) : dfsVisit G (depth + k) u st = some r := by
  induction k with
  | zero => exact h
  | succ k ih => exact dfsVisit_succ G (depth + k) u st r ih

theorem slack_le_of_subset (G : Graph) (visited visited' : List Node)
    (h : visited ⊆ visited') : slack G visited' ≤ slack G visited := by
  unfold slack
  apply List.Sublist.length_le
  apply List.monotone_filter_right
  intro n hn
  simp only [decide_eq_true_eq] at hn ⊢
  exact fun hmem => hn (h hmem)

theorem slack_cons_lt (G : Graph) (visited : List Node) (u : Node)
    (hu : u ∈ keys G) (hnv : u ∉ visited) : slack G (u :: visited) < slack G visited := by
  unfold slack
  generalize keys G = l at hu
  induction l with
  | nil => cases hu
  | cons a l ih =>
    by_cases ha : a = u
    · subst ha
      have h1 : ((a :: l).filter (fun n => decide (n ∉ a :: visited))).length
          = (l.filter (fun n => decide (n ∉ a :: visited))).length := by
        simp [List.filter_cons]
      have h2 : ((a :: l).filter (fun n => decide (n ∉ visited))).length
          = (l.filter (fun n => decide (n ∉ visited))).length + 1 := by
        simp [List.filter_cons, hnv]
      have h3 : (l.filter (fun n => decide (n ∉ a :: visited))).length
          ≤ (l.filter (fun n => decide (n ∉ visited))).length := by
        apply List.Sublist.length_le
        apply List.monotone_filter_right
        intro n hn
        simp only [decide_eq_true_eq, List.mem_cons, not_or] at hn ⊢
        exact hn.2
      omega
    · have hul : u ∈ l := by
        rcases List.mem_cons.1 hu with h | h
        · exact absurd h.symm ha
        · exact h
      have := ih hul
      by_cases hav : a ∈ visited
      · have h1 : a ∈ u :: visited := List.mem_cons_of_mem u hav
        simpa [List.filter_cons, hav, h1] using this
      · have h1 : a ∉ u :: visited := by
          simp only [List.mem_cons, not_or]; exact ⟨ha, hav⟩
        simp only [List.filter_cons, hav, h1, not_false_eq_true, decide_True, if_true,
          List.length_cons]
        omega

theorem visitAll_terminates {G : Graph} (n : Nat)
    (visit : Node → List Node × List Node → Option (List Node × List Node))
    (hmono : ∀ v st st', visit v st = some st' → st.1 ⊆ st'.1)
    (hvisit : ∀ v st, v ∈ keys G → v ∉ st.1 → slack G st.1 ≤ n → ∃ st', visit v st = some st')
    (vs : List Node) (st : List Node × List Node) (hk : ∀ v ∈ vs, v ∈ keys G)
    (hslack : slack G st.1 ≤ n) : ∃ st', visitAll visit vs st = some st' := by
  induction vs generalizing st with
  | nil => exact ⟨st, rfl⟩
  | cons v vs ih =>
    obtain ⟨visited, out⟩ := st
    have hk' : ∀ x ∈ vs, x ∈ keys G := fun x hx => hk x (List.mem_cons_of_mem v hx)
    by_cases hv : v ∈ visited
    · simp only [visitAll, hv, if_true]
      exact ih _ hk' hslack
    · simp only [visitAll, hv, if_false]
      obtain ⟨st1, h1⟩ := hvisit v (visited, out) (hk v (by simp)) hv hslack
      simp only [h1]
      exact ih _ hk' (le_trans (slack_le_of_subset G _ _ (hmono _ _ _ h1)) hslack)

theorem dfsVisit_terminates {G : Graph} (hc : Closed G) (n : Nat) :
    ∀ depth u st, u ∈ keys G → u ∉ st.1 → slack G st.1 ≤ n → n ≤ depth →
      ∃ st', dfsVisit G depth u st = some st' := by
  induction n with
  | zero =>
    intro depth u st hu hnv hslack _
    have := slack_cons_lt G st.1 u hu hnv
    omega
  | succ n ih =>
    intro depth u st hu hnv hslack hdepth
    obtain ⟨visited, out⟩ := st
    obtain ⟨d, rfl⟩ : ∃ d, depth = d + 1 := ⟨depth - 1, by omega⟩
    simp only [dfsVisit]
    have hlt := slack_cons_lt G visited u hu hnv
    refine visitAll_terminates n _ (fun v a b hab => dfsVisit_subset G d v a b hab)
      (fun v st hv hnv' hs => ih d v st hv hnv' hs (by omega)) _ _ ?_ (by simp only at hslack ⊢; omega)
    intro v hv
    simp only [List.mem_reverse, List.mem_map] at hv
    obtain ⟨e, he, rfl⟩ := hv
    exact hc u hu e he

theorem dfsLoop_empty {T : Type} (value : Node → T) (fuel : Nat) (g : Graph)
    (visited : List Node) (result : List T) :
    dfsLoop value fuel { graph := g, visited := visited, stack := [], result := result }
      = (g, .ok result) := by
  cases fuel <;> simp [dfsLoop]

/-- Both formulations of depth-first search terminate with the same sequence of nodes. -/
theorem dfs_iterative_recursive {G : Graph} {s : Node} (hc : Closed G) (hs : s ∈ keys G) :
    ∃ order : List Node,
      (∃ N, ∀ fuel, N ≤ fuel → depthFirstSearch id fuel G s = (G, .ok order)) ∧
      (∃ D, ∀ depth, D ≤ depth → dfsRecursive G depth s = some order) := by
  obtain ⟨st', hst'⟩ := dfsVisit_terminates hc (slack G []) (slack G []) s ([], []) hs
    (by simp) (le_refl _) (le_refl _)
  refine ⟨st'.2, ?_, slack G [], ?_⟩
  · obtain ⟨k, hk⟩ := dfsVisit_sim hc _ s [] [] st' hs (by simp) hst' []
    refine ⟨k, fun fuel hfuel => ?_⟩
    obtain ⟨j, rfl⟩ := Nat.exists_eq_add_of_le hfuel
    have := hk j
    rw [dfsLoop_empty] at this
    exact this
  · intro depth hdepth
    obtain ⟨j, rfl⟩ := Nat.exists_eq_add_of_le hdepth
    simp [dfsRecursive, dfsVisit_mono G _ s _ _ hst' j]

/-- C5. On a graph in which every neighbour is a key, from a start node that is a key,
`depthFirstSearch` terminates (every sufficient fuel gives the same result), leaves the
graph as it was, and the sequence of nodes whose values it appends has no node twice
and contains a node if and only if the node is reachable from the start. -/
theorem depthFirstSearch_visits_reachable {T : Type} (value : Node → T) (G : Graph)
    (s : Node) (hc : Closed G) (hs : s ∈ keys G) :
    ∃ order : List Node, order.Nodup ∧ (∀ n, n ∈ order ↔ Reachable G s n) ∧
      ∃ N, ∀ fuel, N ≤ fuel →
        depthFirstSearch value fuel G s = (G, .ok (order.map value)) := by
  obtain ⟨order, ⟨N, hN⟩, -⟩ := dfs_iterative_recursive hc hs
  obtain ⟨fin, hfin, hq, hr, -⟩ :=
    dfsLoop_inv hc hs N _ (dfsInv_init G s) G order (hN N (le_refl _))
  subst hr
  refine ⟨fin.result, hfin.nodup, ?_, N, ?_⟩
  · intro n
    constructor
    · intro hn
      exact hfin.reach_visited n ((hfin.visited_iff n).2 hn)
    · exact dfsInv_mem_result hfin hq
  · intro fuel hfuel
    rw [depthFirstSearch_eq_map, hN fuel hfuel]
    rfl

/-- Witness for C5: the scenario graph A→[B, C], B→[D], C→[D], D→[] with start A. -/
theorem depthFirstSearch_visits_reachable_witness :
    Closed scenario1 ∧ 0 ∈ keys scenario1 ∧
    ∃ order : List Node, order.Nodup ∧ (∀ n, n ∈ order ↔ Reachable scenario1 0 n) ∧
      ∃ N, ∀ fuel, N ≤ fuel →
        depthFirstSearch id fuel scenario1 0 = (scenario1, .ok (order.map id)) :=
  ⟨by decide, by decide,
    depthFirstSearch_visits_reachable id scenario1 0 (by decide) (by decide)⟩

/-- C7. On a graph in which every neighbour is a key, from a start node that is a key,
the sequence returned by the iterative, stack-based `depthFirstSearch` is the pre-order
of the textbook recursive depth-first search that recurses into the not-yet-visited
neighbours in the reverse of the adjacency-list order; both terminate. -/
theorem depthFirstSearch_eq_recursive {T : Type} (value : Node → T) (G : Graph) (s : Node)
    (hc : Closed G) (hs : s ∈ keys G) :
    ∃ order : List Node,
      (∃ N, ∀ fuel, N ≤ fuel →
        depthFirstSearch value fuel G s = (G, .ok (order.map value))) ∧
      (∃ D, ∀ depth, D ≤ depth → dfsRecursive G depth s = some order) := by
  obtain ⟨order, ⟨N, hN⟩, hrec⟩ := dfs_iterative_recursive hc hs
  refine ⟨order, ⟨N, fun fuel hfuel => ?_⟩, hrec⟩
  rw [depthFirstSearch_eq_map, hN fuel hfuel]
  rfl

/-- Witness for C7: scenario 2 of the specification, `dfs(A) = [A, C, D, B]`. -/
theorem depthFirstSearch_eq_recursive_witness :
    Closed scenario1 ∧ 0 ∈ keys scenario1 ∧
    depthFirstSearch id 6 scenario1 0 = (scenario1, .ok [0, 2, 3, 1]) ∧
    dfsRecursive scenario1 4 0 = some [0, 2, 3, 1] ∧
    ∃ order : List Node,
      (∃ N, ∀ fuel, N ≤ fuel →
        depthFirstSearch id fuel scenario1 0 = (scenario1, .ok (order.map id))) ∧
      (∃ D, ∀ depth, D ≤ depth → dfsRecursive scenario1 depth 0 = some order) :=
  ⟨by decide, by decide, by decide, by decide,
    depthFirstSearch_eq_recursive id scenario1 0 (by decide) (by decide)⟩

/-! ## Dijkstra: the priority queue and the distance map -/

theorem mem_push (P : PriorityQueue) (q : List Entry) (e x : Entry) :
    x ∈ P.push q e ↔ x = e ∨ x ∈ q := by
  rw [(P.push_perm q e).mem_iff, List.mem_cons]

theorem length_push (P : PriorityQueue) (q : List Entry) (e : Entry) :
    (P.push q e).length = q.length + 1 := by
  rw [(P.push_perm q e).length_eq, List.length_cons]

theorem mem_pop (P : PriorityQueue) (q : List Entry) (hq : q ≠ []) (x : Entry) :
    x ∈ q ↔ x = P.top q ∨ x ∈ P.pop q := by
  rw [← (P.top_pop_perm q hq).mem_iff, List.mem_cons]

theorem length_pop (P : PriorityQueue) (q : List Entry) (hq : q ≠ []) :
    (P.pop q).length + 1 = q.length := by
  rw [← (P.top_pop_perm q hq).length_eq, List.length_cons]

theorem top_mem (P : PriorityQueue) (q : List Entry) (hq : q ≠ []) : P.top q ∈ q :=
  (mem_pop P q hq _).2 (Or.inl rfl)

theorem addInt_eq_some {a b c : Int} (h : addInt a b = some c) :
    c = a + b ∧ intMin ≤ c ∧ c ≤ intMax := by
  unfold addInt at h
  split at h
  · rename_i hr
    simp only [Option.some.injEq] at h
    subst h
    exact ⟨rfl, hr.1, hr.2⟩
  · cases h

theorem addInt_of_range {a b : Int} (h1 : intMin ≤ a + b) (h2 : a + b ≤ intMax) :
    addInt a b = some (a + b) := by
  simp [addInt, h1, h2]

theorem sortedKeys_of_keys_eq {V W : Type} {m : NodeMap V} {m' : NodeMap W}
    (h : keys m = keys m') (hs : SortedKeys m') : SortedKeys m := by
  unfold SortedKeys at hs ⊢
  rw [h]; exact hs

theorem distSum_mapSet (d : DistMap) (n : Node) (old v : Int) (hs : SortedKeys d)
    (h : mapFind d n = some old) : distSum (mapSet d n v) = distSum d - old + v := by
  induction d with
  | nil => simp [mapFind] at h
  | cons p rest ih =>
    obtain ⟨a, b⟩ := p
    have hs' : (a :: keys rest).Pairwise (fun x y => x < y) := hs
    rw [List.pairwise_cons] at hs'
    by_cases h2 : n = a
    · subst h2
      simp only [mapFind, if_true, Option.some.injEq] at h
      subst h
      have h1 : ¬ n < n := Nat.lt_irrefl n
      simp only [mapSet, h1, if_false, if_true, distSum, List.map_cons, List.sum_cons]
      omega
    · simp only [mapFind, h2, if_false] at h
      have hk : n ∈ keys rest := (mem_keys_iff rest n).2 ⟨old, h⟩
      have h1 : ¬ n < a := Nat.lt_asymm (hs'.1 n hk)
      have := ih hs'.2 h
      simp only [distSum] at this
      simp only [mapSet, h1, h2, if_false, distSum, List.map_cons, List.sum_cons, this]
      omega

/-! ## Dijkstra: the inner loop -/

theorem relaxInv_skip {G : Graph} {s u : Node} {cd μ : Int} {v : Node} {w : Int}
    {es : List (Node × Int)} {d : DistMap} {q : List Entry}
    (h : RelaxInv G s u cd μ ((v, w) :: es) d q)
    (hdone : w = 0 ∨ ∃ old, mapFind d v = some old ∧ old ≤ cd + w) :
    RelaxInv G s u cd μ es d q := by
  refine ⟨h.keys_eq, h.range, h.start, h.walk, h.entries, ?_, h.measure⟩
  intro n x hx hfin
  rcases h.relaxed n x hx hfin with h1 | h1
  · exact Or.inl h1
  · right
    intro e he hw
    rcases h1 e he hw with ⟨hn, hxc, hmem⟩ | h2
    · rcases List.mem_cons.1 hmem with h3 | h3
      · subst h3
        rcases hdone with h4 | ⟨old, h4, h5⟩
        · exact absurd h4 hw
        · exact Or.inr ⟨old, h4, by rw [hxc]; exact h5⟩
      · exact Or.inl ⟨hn, hxc, h3⟩
    · exact Or.inr h2

theorem relaxInv_update (P : PriorityQueue) {G : Graph} {s u : Node} {cd μ : Int} {v : Node}
    {w : Int} {es : List (Node × Int)} {d : DistMap} {q : List Entry} {old : Int}
    (hwalk : ∃ p, Walk G s u cd p) (hedge : (v, w) ∈ adj G u)
    (h : RelaxInv G s u cd μ ((v, w) :: es) d q)
    (hold : mapFind d v = some old) (hlt : cd + w < old) :
    RelaxInv G s u cd μ es (mapSet d v (cd + w)) (P.push q (cd + w, v)) := by
  have hsd : SortedKeys d := sortedKeys_of_keys_eq h.keys_eq (initDistances_spec G).1
  have hvk : v ∈ keys d := (mem_keys_iff d v).2 ⟨old, hold⟩
  have hrange := h.range v old hold
  refine ⟨?_, ?_, ?_, ?_, ?_, ?_, ?_⟩
  · rw [keys_mapSet_of_mem d v _ hsd hvk]; exact h.keys_eq
  · intro n x hx
    rw [mapFind_mapSet] at hx
    split at hx
    · simp only [Option.some.injEq] at hx; omega
    · exact h.range n x hx
  · obtain ⟨x, hx, hx0⟩ := h.start
    rw [mapFind_mapSet]
    by_cases hsv : s = v
    · subst hsv
      rw [hx] at hold
      simp only [Option.some.injEq] at hold
      exact ⟨cd + w, by simp, by omega⟩
    · exact ⟨x, by simp [hsv, hx], hx0⟩
  · intro n x hx hfin
    rw [mapFind_mapSet] at hx
    split at hx
    · rename_i hnv
      simp only [Option.some.injEq] at hx
      subst hx hnv
      obtain ⟨p, hp⟩ := hwalk
      exact ⟨u :: p, Walk.snoc hp hedge⟩
    · exact h.walk n x hx hfin
  · intro e he
    rcases (mem_push P q _ e).1 he with h1 | h1
    · subst h1
      refine ⟨by simp only; omega, cd + w, ?_, le_refl _⟩
      rw [mapFind_mapSet]; simp
    · obtain ⟨hlt', x, hx, hle⟩ := h.entries e h1
      refine ⟨hlt', ?_⟩
      rw [mapFind_mapSet]
      by_cases hev : e.2 = v
      · rw [hev] at hx
        rw [hx] at hold
        simp only [Option.some.injEq] at hold
        exact ⟨cd + w, by simp [hev], by omega⟩
      · exact ⟨x, by simp [hev, hx], hle⟩
  · intro n x hx hfin
    rw [mapFind_mapSet] at hx
    split at hx
    · rename_i hnv
      simp only [Option.some.injEq] at hx
      subst hx hnv
      exact Or.inl ((mem_push P q _ _).2 (Or.inl rfl))
    · rename_i hnv
      rcases h.relaxed n x hx hfin with h1 | h1
      · exact Or.inl ((mem_push P q _ _).2 (Or.inr h1))
      · right
        intro e he hw
        have key : ∀ y, mapFind d e.1 = some y → y ≤ x + e.2 →
            ∃ y', mapFind (mapSet d v (cd + w)) e.1 = some y' ∧ y' ≤ x + e.2 := by
          intro y hy hle
          rw [mapFind_mapSet]
          by_cases hev : e.1 = v
          · rw [hev] at hy
            rw [hy] at hold
            simp only [Option.some.injEq] at hold
            exact ⟨cd + w, by simp [hev], by omega⟩
          · exact ⟨y, by simp [hev, hy], hle⟩
        rcases h1 e he hw with ⟨hn, hxc, hmem⟩ | ⟨y, hy, hle⟩
        · rcases List.mem_cons.1 hmem with h3 | h3
          · subst h3
            right
            refine ⟨cd + w, ?_, by rw [hxc]⟩
            rw [mapFind_mapSet]; simp
          · exact Or.inl ⟨hn, hxc, h3⟩
        · exact Or.inr (key y hy hle)
  · have h1 := distSum_mapSet d v old (cd + w) hsd hold
    have h2 := h.measure
    rw [length_push, h1]
    push_cast
    omega

theorem dijkstraRelax_inv (P : PriorityQueue) {G : Graph} {s u : Node} {cd μ : Int}
    (hc : Closed G) (hu : u ∈ keys G)
    (hwalk : ∃ p, Walk G s u cd p) (es : List (Node × Int)) (d : DistMap) (q : List Entry)
    (r : DistMap × List Entry) (hes : ∀ e ∈ es, e ∈ adj G u)
    (h : RelaxInv G s u cd μ es d q) (hrun : dijkstraRelax P cd es (d, q) = .ok r) :
    RelaxInv G s u cd μ [] r.1 r.2 := by
  induction es generalizing d q with
  | nil =>
    simp only [dijkstraRelax, Except.ok.injEq] at hrun
    subst hrun
    exact h
  | cons e es ih =>
    obtain ⟨v, w⟩ := e
    have hes' : ∀ e ∈ es, e ∈ adj G u := fun e he => hes e (List.mem_cons_of_mem _ he)
    have hedge : (v, w) ∈ adj G u := hes (v, w) (List.mem_cons_self _ _)
    by_cases hw : w = 0
    · subst hw
      simp only [dijkstraRelax, ne_eq, not_true_eq_false, if_false] at hrun
      exact ih d q hes' (relaxInv_skip h (Or.inl rfl)) hrun
    · simp only [dijkstraRelax, ne_eq, hw, not_false_eq_true, if_true] at hrun
      cases hadd : addInt cd w with
      | none => simp [hadd] at hrun
      | some nd =>
        obtain ⟨hnd, -, -⟩ := addInt_eq_some hadd
        subst hnd
        have hvk : v ∈ keys d := by
          rw [h.keys_eq, mem_keys_initDistances]; exact hc u hu (v, w) hedge
        obtain ⟨old, hold⟩ := (mem_keys_iff d v).1 hvk
        simp only [hadd, mapIndex_of_find 0 hold] at hrun
        by_cases hlt : cd + w < old
        · simp only [hlt, if_true] at hrun
          exact ih _ _ hes' (relaxInv_update P hwalk hedge h hold hlt) hrun
        · simp only [hlt, if_false] at hrun
          exact ih d q hes' (relaxInv_skip h (Or.inr ⟨old, hold, by omega⟩)) hrun

/-! ## Dijkstra: the outer loop -/

theorem dijkstraStep_eq (P : PriorityQueue) (st : DijkstraState) (cd : Int) (u : Node) (x : Int)
    (htop : P.top st.queue = (cd, u)) (hx : mapFind st.distances u = some x)
    (hu : u ∈ keys st.graph) :
    dijkstraStep P st
      = if cd > x then (st.graph, .ok (st.distances, P.pop st.queue))
        else (st.graph, dijkstraRelax P cd (adj st.graph u) (st.distances, P.pop st.queue)) := by
  simp only [dijkstraStep, htop, mapIndex_of_find 0 hx, mapIndex_graph hu]

theorem dijkstraInv_top (P : PriorityQueue) {G : Graph} {s : Node} {st : DijkstraState}
    (h : DijkstraInv G s st) (hq : st.queue ≠ []) :
    ∃ x, mapFind st.distances (P.top st.queue).2 = some x ∧ x ≤ (P.top st.queue).1 ∧
      (P.top st.queue).1 < intMax ∧ (P.top st.queue).2 ∈ keys G := by
  obtain ⟨hlt, x, hx, hle⟩ := h.entries _ (top_mem P st.queue hq)
  refine ⟨x, hx, hle, hlt, ?_⟩
  rw [← mem_keys_initDistances, ← h.keys_eq]
  exact (mem_keys_iff _ _).2 ⟨x, hx⟩

/-- One iteration of the loop of `dijkstra` leaves the graph as it is, also when it ends in
an overflow. -/
theorem dijkstraStep_graph (P : PriorityQueue) {G : Graph} {s : Node} {st : DijkstraState}
    (h : DijkstraInv G s st) (hq : st.queue ≠ []) : (dijkstraStep P st).1 = G := by
  obtain ⟨x, hx, -, -, hk⟩ := dijkstraInv_top P h hq
  have hk' : (P.top st.queue).2 ∈ keys st.graph := by rw [h.graph_eq]; exact hk
  rw [dijkstraStep_eq P st _ _ x rfl hx hk']
  split <;> exact h.graph_eq

/-- One iteration of the loop of `dijkstra` that does not overflow keeps the invariant and
decreases the measure `queue length + sum of the recorded distances`. -/
theorem dijkstraStep_inv (P : PriorityQueue) {G : Graph} {s : Node} {st : DijkstraState}
    (hc : Closed G)
    (h : DijkstraInv G s st) (hq : st.queue ≠ []) (g : Graph) (d : DistMap) (q : List Entry)
    (hrun : dijkstraStep P st = (g, .ok (d, q))) :
    DijkstraInv G s { graph := g, distances := d, queue := q } ∧
      (q.length : Int) + distSum d + 1 ≤ (st.queue.length : Int) + distSum st.distances := by
  obtain ⟨x, hx, hle, hlt, hk⟩ := dijkstraInv_top P h hq
  have hk' : (P.top st.queue).2 ∈ keys st.graph := by rw [h.graph_eq]; exact hk
  have hlen := length_pop P st.queue hq
  rw [dijkstraStep_eq P st _ _ x rfl hx hk'] at hrun
  by_cases hstale : (P.top st.queue).1 > x
  · simp only [hstale, if_true, Prod.mk.injEq, Except.ok.injEq] at hrun
    obtain ⟨hg, hd, hq'⟩ := hrun
    subst hg hd hq'
    refine ⟨⟨h.graph_eq, h.keys_eq, h.range, h.start, h.walk, ?_, ?_⟩, by omega⟩
    · intro e he
      exact h.entries e ((mem_pop P st.queue hq e).2 (Or.inr he))
    · intro n y hy hfin
      rcases h.relaxed n y hy hfin with h1 | h1
      · rcases (mem_pop P st.queue hq _).1 h1 with h2 | h2
        · exfalso
          rw [← h2] at hstale hx
          simp only at hstale hx
          rw [hy] at hx
          simp only [Option.some.injEq] at hx
          omega
        · exact Or.inl h2
      · exact Or.inr h1
  · simp only [hstale, if_false, Prod.mk.injEq] at hrun
    obtain ⟨hg, hrelax⟩ := hrun
    subst hg
    have hcd : x = (P.top st.queue).1 := by omega
    subst hcd
    rw [h.graph_eq] at hrelax
    have hwalk := h.walk _ _ hx (by omega)
    have hri : RelaxInv G s (P.top st.queue).2 (P.top st.queue).1
        (((P.pop st.queue).length : Int) + distSum st.distances)
        (adj G (P.top st.queue).2) st.distances (P.pop st.queue) := by
      refine ⟨h.keys_eq, h.range, h.start, h.walk, ?_, ?_, le_refl _⟩
      · intro e he
        exact h.entries e ((mem_pop P st.queue hq e).2 (Or.inr he))
      · intro n y hy hfin
        rcases h.relaxed n y hy hfin with h1 | h1
        · rcases (mem_pop P st.queue hq _).1 h1 with h2 | h2
          · right
            intro e he hw
            left
            have h3 : y = (P.top st.queue).1 := by rw [← h2]
            have h4 : n = (P.top st.queue).2 := by rw [← h2]
            subst h4
            exact ⟨rfl, h3, he⟩
          · exact Or.inl h2
        · right
          intro e he hw
          exact Or.inr (h1 e he hw)
    have hfin := dijkstraRelax_inv P hc hk hwalk _ _ _ (d, q) (fun e he => he) hri hrelax
    refine ⟨⟨h.graph_eq, hfin.keys_eq, hfin.range, hfin.start, hfin.walk, hfin.entries, ?_⟩, ?_⟩
    · intro n y hy hne
      rcases hfin.relaxed n y hy hne with h1 | h1
      · exact Or.inl h1
      · right
        intro e he hw
        rcases h1 e he hw with ⟨-, -, hmem⟩ | h2
        · cases hmem
        · exact h2
    · have := hfin.measure
      simp only at this ⊢
      omega

theorem dijkstraInv_init (P : PriorityQueue) {G : Graph} {s : Node} (hs : s ∈ keys G) :
    DijkstraInv G s (dijkstraInit P G s) := by
  obtain ⟨hs0, hfind0⟩ := initDistances_spec G
  have hsk : s ∈ keys (initDistances G) := (mem_keys_initDistances G s).2 hs
  have hfind : ∀ n x, mapFind (mapSet (initDistances G) s 0) n = some x →
      (n = s ∧ x = 0) ∨ x = intMax := by
    intro n x hx
    rw [mapFind_mapSet] at hx
    split at hx
    · rename_i hn
      simp only [Option.some.injEq] at hx
      exact Or.inl ⟨hn, hx.symm⟩
    · rw [hfind0 n] at hx
      split at hx
      · simp only [Option.some.injEq] at hx
        exact Or.inr hx.symm
      · cases hx
  have hqueue : ∀ e, e ∈ P.push [] (0, s) ↔ e = (0, s) := by
    intro e; rw [mem_push]; simp
  refine ⟨rfl, ?_, ?_, ?_, ?_, ?_, ?_⟩
  · show keys (mapSet (initDistances G) s 0) = keys (initDistances G)
    exact keys_mapSet_of_mem _ s 0 hs0 hsk
  · intro n x hx
    rcases hfind n x hx with ⟨-, h⟩ | h
    · rw [h]; decide
    · rw [h]
  · exact ⟨0, by show mapFind (mapSet (initDistances G) s 0) s = some 0; rw [mapFind_mapSet]; simp,
      le_refl _⟩
  · intro n x hx hfin
    rcases hfind n x hx with ⟨h1, h2⟩ | h
    · subst h1 h2
      exact ⟨[], Walk.nil⟩
    · exact absurd h hfin
  · intro e he
    have := (hqueue e).1 he
    subst this
    refine ⟨by show (0 : Int) < intMax; decide, 0, ?_, le_refl _⟩
    show mapFind (mapSet (initDistances G) s 0) s = some 0
    rw [mapFind_mapSet]; simp
  · intro n x hx hfin
    rcases hfind n x hx with ⟨h1, h2⟩ | h
    · subst h1 h2
      exact Or.inl ((hqueue _).2 rfl)
    · exact absurd h hfin

/-! ## Dijkstra on positive weights -/

theorem adj_mem_graph {G : Graph} (hdistinct : (keys G).Nodup) {u : Node} {e : Node × Int}
    (he : e ∈ adj G u) : (u, adj G u) ∈ G := by
  unfold adj at he ⊢
  cases h : mapFind G u with
  | none => simp [h] at he
  | some es =>
    simp only [Option.getD_some]
    exact (mem_iff_mapFind G hdistinct u es).2 h

theorem adj_eq_of_mem {G : Graph} (hdistinct : (keys G).Nodup) {pair : Node × List (Node × Int)}
    (h : pair ∈ G) : adj G pair.1 = pair.2 := by
  have := (mem_iff_mapFind G hdistinct pair.1 pair.2).1 h
  simp [adj, this]

theorem adj_pos {G : Graph} (hdistinct : (keys G).Nodup) (hpos : PositiveWeights G) {u : Node}
    {e : Node × Int} (he : e ∈ adj G u) : 0 < e.2 :=
  hpos _ (adj_mem_graph hdistinct he) e he

theorem walk_nonneg {G : Graph} (hdistinct : (keys G).Nodup) (hpos : PositiveWeights G) {s n : Node}
    {W : Int} {p : List Node} (h : Walk G s n W p) : 0 ≤ W := by
  induction h with
  | nil => exact le_refl _
  | snoc _ he ih =>
    have := adj_pos hdistinct hpos he
    simp only at this
    omega

theorem exists_isDist {G : Graph} (hdistinct : (keys G).Nodup) (hpos : PositiveWeights G)
    {s n : Node} (h : Reachable G s n) : ∃ d, IsDist G s n d := by
  obtain ⟨W, p, hw⟩ := h
  obtain ⟨d, ⟨p', hd⟩, hmin⟩ := Int.exists_least_of_bdd
    (P := fun W => ∃ p, Walk G s n W p)
    ⟨0, fun z hz => by obtain ⟨p, hp⟩ := hz; exact walk_nonneg hdistinct hpos hp⟩ ⟨W, p, hw⟩
  exact ⟨d, ⟨p', hd⟩, fun W' p'' hw' => hmin W' ⟨p'', hw'⟩⟩

theorem isDist_unique {G : Graph} {s n : Node} {d d' : Int}
    (h : IsDist G s n d) (h' : IsDist G s n d') : d = d' := by
  obtain ⟨⟨p, hp⟩, hmin⟩ := h
  obtain ⟨⟨p', hp'⟩, hmin'⟩ := h'
  have h1 := hmin _ _ hp'
  have h2 := hmin' _ _ hp
  omega

/-- Along any walk from the start, either some queue entry is at most the weight of the
walk, or the recorded distance of its end is. -/
theorem dijkstra_frontier {G : Graph} {s : Node} {st : DijkstraState}
    (hdistinct : (keys G).Nodup) (hpos : PositiveWeights G) (h : DijkstraInv G s st)
    {v : Node} {W : Int} {p : List Node} (hw : Walk G s v W p) (hW : W < intMax) :
    (∃ e ∈ st.queue, e.1 ≤ W) ∨ ∃ x, mapFind st.distances v = some x ∧ x ≤ W := by
  induction hw with
  | nil => exact Or.inr h.start
  | snoc hw' he ih =>
    rename_i u v w W' p'
    have hwpos : 0 < w := adj_pos hdistinct hpos he
    rcases ih (by omega) with ⟨e, hmem, hle⟩ | ⟨x, hx, hle⟩
    · exact Or.inl ⟨e, hmem, by omega⟩
    · rcases h.relaxed u x hx (by omega) with h1 | h1
      · exact Or.inl ⟨(x, u), h1, by simp only; omega⟩
      · obtain ⟨y, hy, hyle⟩ := h1 (v, w) he (by simp only; omega)
        exact Or.inr ⟨y, hy, by simp only at hyle; omega⟩

/-- The node extracted by a pop that is not stale carries its shortest-path distance. -/
theorem dijkstra_greedy (P : PriorityQueue) {G : Graph} {s : Node} {st : DijkstraState}
    (hdistinct : (keys G).Nodup) (hpos : PositiveWeights G) (h : DijkstraInv G s st)
    (hq : st.queue ≠ []) (hx : mapFind st.distances (P.top st.queue).2 = some (P.top st.queue).1) :
    IsDist G s (P.top st.queue).2 (P.top st.queue).1 := by
  obtain ⟨x, hx', -, hlt, -⟩ := dijkstraInv_top P h hq
  refine ⟨h.walk _ _ hx (by omega), ?_⟩
  intro W p hw
  by_cases hW : W < intMax
  · rcases dijkstra_frontier hdistinct hpos h hw hW with ⟨e, hmem, hle⟩ | ⟨y, hy, hle⟩
    · have := P.top_min st.queue e hmem
      omega
    · rw [hx] at hy
      simp only [Option.some.injEq] at hy
      omega
  · omega

theorem outWeight_nonneg {G : Graph} (hdistinct : (keys G).Nodup) (hpos : PositiveWeights G)
    (x : Node) : 0 ≤ outWeight G x := by
  unfold outWeight
  apply List.sum_nonneg
  intro w hw
  obtain ⟨e, he, rfl⟩ := List.mem_map.1 hw
  exact le_of_lt (adj_pos hdistinct hpos he)

theorem edge_le_outWeight {G : Graph} (hdistinct : (keys G).Nodup) (hpos : PositiveWeights G)
    {u : Node} {e : Node × Int} (he : e ∈ adj G u) : e.2 ≤ outWeight G u := by
  unfold outWeight
  apply List.single_le_sum
  · intro w hw
    obtain ⟨e', he', rfl⟩ := List.mem_map.1 hw
    exact le_of_lt (adj_pos hdistinct hpos he')
  · exact List.mem_map_of_mem Prod.snd he

theorem sum_outWeight_keys {G : Graph} (hdistinct : (keys G).Nodup) :
    ((keys G).map (outWeight G)).sum = totalWeight G := by
  unfold totalWeight keys
  rw [List.map_map]
  congr 1
  apply List.map_congr_left
  intro pair hp
  simp only [Function.comp, outWeight, adj_eq_of_mem hdistinct hp]

theorem sum_outWeight_le {G : Graph} (hdistinct : (keys G).Nodup) (hpos : PositiveWeights G)
    (A : List Node) (hnd : A.Nodup) (hsub : ∀ x ∈ A, x ∈ keys G) :
    (A.map (outWeight G)).sum ≤ totalWeight G := by
  obtain ⟨l, hperm, hsl⟩ := List.subperm_of_subset hnd hsub
  rw [← sum_outWeight_keys hdistinct, ← (hperm.map (outWeight G)).sum_eq]
  apply List.Sublist.sum_le_sum (hsl.map (outWeight G))
  intro a ha
  obtain ⟨x, -, rfl⟩ := List.mem_map.1 ha
  exact outWeight_nonneg hdistinct hpos x

/-- A shortest walk is bounded by the out-weights of distinct nodes that are strictly nearer. -/
theorem shortest_walk_bound {G : Graph} {s : Node} (hdistinct : (keys G).Nodup) (hc : Closed G)
    (hpos : PositiveWeights G) (hs : s ∈ keys G) {u : Node} {W : Int} {p : List Node}
    (hw : Walk G s u W p) (hmin : ∀ W' p', Walk G s u W' p' → W ≤ W') :
    ∃ A : List Node, A.Nodup ∧ (∀ x ∈ A, x ∈ keys G) ∧
      (∀ x ∈ A, ∃ dx, IsDist G s x dx ∧ dx < W) ∧ W ≤ (A.map (outWeight G)).sum := by
  induction hw with
  | nil => exact ⟨[], List.nodup_nil, by simp, by simp, by simp⟩
  | snoc hw' he ih =>
    rename_i u v w W' p'
    have hwpos : 0 < w := adj_pos hdistinct hpos he
    have hmin' : ∀ W'' p'', Walk G s u W'' p'' → W' ≤ W'' := by
      intro W'' p'' hw''
      have := hmin _ _ (Walk.snoc hw'' he)
      omega
    obtain ⟨A, hnd, hk, hnear, hsum⟩ := ih hmin'
    have hdu : IsDist G s u W' := ⟨⟨p', hw'⟩, hmin'⟩
    refine ⟨u :: A, ?_, ?_, ?_, ?_⟩
    · rw [List.nodup_cons]
      refine ⟨?_, hnd⟩
      intro hmem
      obtain ⟨dx, hdx, hlt⟩ := hnear u hmem
      have := isDist_unique hdx hdu
      omega
    · intro x hx
      rcases List.mem_cons.1 hx with h1 | h1
      · rw [h1]; exact walk_mem_keys hc hs hw'
      · exact hk x h1
    · intro x hx
      rcases List.mem_cons.1 hx with h1 | h1
      · rw [h1]; exact ⟨W', hdu, by omega⟩
      · obtain ⟨dx, hdx, hlt⟩ := hnear x h1
        exact ⟨dx, hdx, by omega⟩
    · have := edge_le_outWeight hdistinct hpos he
      simp only [List.map_cons, List.sum_cons] at this ⊢
      omega

theorem isDist_le_total {G : Graph} {s : Node} (hdistinct : (keys G).Nodup) (hc : Closed G)
    (hpos : PositiveWeights G) (hs : s ∈ keys G) {u : Node} {d : Int}
    (h : IsDist G s u d) : d ≤ totalWeight G := by
  obtain ⟨⟨p, hp⟩, hmin⟩ := h
  obtain ⟨A, hnd, hk, -, hsum⟩ := shortest_walk_bound hdistinct hc hpos hs hp hmin
  exact le_trans hsum (sum_outWeight_le hdistinct hpos A hnd hk)

theorem isDist_edge_le_total {G : Graph} {s : Node} (hdistinct : (keys G).Nodup) (hc : Closed G)
    (hpos : PositiveWeights G) (hs : s ∈ keys G) {u : Node} {d : Int} {e : Node × Int}
    (h : IsDist G s u d) (he : e ∈ adj G u) : d + e.2 ≤ totalWeight G := by
  obtain ⟨⟨p, hp⟩, hmin⟩ := h
  obtain ⟨A, hnd, hk, hnear, hsum⟩ := shortest_walk_bound hdistinct hc hpos hs hp hmin
  have hu : u ∉ A := by
    intro hmem
    obtain ⟨dx, hdx, hlt⟩ := hnear u hmem
    have := isDist_unique hdx ⟨⟨p, hp⟩, hmin⟩
    omega
  have h1 := sum_outWeight_le hdistinct hpos (u :: A) (List.nodup_cons.2 ⟨hu, hnd⟩) (by
    intro x hx
    rcases List.mem_cons.1 hx with h1 | h1
    · rw [h1]; exact walk_mem_keys hc hs hp
    · exact hk x h1)
  have h2 := edge_le_outWeight hdistinct hpos he
  simp only [List.map_cons, List.sum_cons] at h1
  omega

theorem dijkstraRelax_ok (P : PriorityQueue) (cd : Int) (es : List (Node × Int))
    (st : DistMap × List Entry)
    (h : ∀ e ∈ es, e.2 ≠ 0 → intMin ≤ cd + e.2 ∧ cd + e.2 ≤ intMax) :
    ∃ r, dijkstraRelax P cd es st = .ok r := by
  induction es generalizing st with
  | nil => exact ⟨st, rfl⟩
  | cons e es ih =>
    obtain ⟨v, w⟩ := e
    obtain ⟨d, q⟩ := st
    have h' : ∀ e ∈ es, e.2 ≠ 0 → intMin ≤ cd + e.2 ∧ cd + e.2 ≤ intMax :=
      fun e he => h e (List.mem_cons_of_mem _ he)
    by_cases hw : w = 0
    · subst hw
      simp only [dijkstraRelax, ne_eq, not_true_eq_false, if_false]
      exact ih _ h'
    · obtain ⟨h1, h2⟩ := h (v, w) (List.mem_cons_self _ _) hw
      simp only [dijkstraRelax, ne_eq, hw, not_false_eq_true, if_true, addInt_of_range h1 h2]
      split <;> exact ih _ h'

theorem dijkstraStep_ok (P : PriorityQueue) {G : Graph} {s : Node} {st : DijkstraState}
    (hdistinct : (keys G).Nodup) (hc : Closed G) (hpos : PositiveWeights G)
    (hsum : totalWeight G < intMax) (hs : s ∈ keys G)
    (h : DijkstraInv G s st) (hq : st.queue ≠ []) :
    ∃ d q, dijkstraStep P st = (G, .ok (d, q)) := by
  obtain ⟨x, hx, hle, hlt, hk⟩ := dijkstraInv_top P h hq
  have hk' : (P.top st.queue).2 ∈ keys st.graph := by rw [h.graph_eq]; exact hk
  rw [dijkstraStep_eq P st _ _ x rfl hx hk']
  by_cases hstale : (P.top st.queue).1 > x
  · simp only [hstale, if_true]
    exact ⟨_, _, by rw [h.graph_eq]⟩
  · simp only [hstale, if_false]
    have hcd : x = (P.top st.queue).1 := by omega
    subst hcd
    have hdist := dijkstra_greedy P hdistinct hpos h hq hx
    obtain ⟨p, hp⟩ := hdist.1
    have h0 := walk_nonneg hdistinct hpos hp
    obtain ⟨r, hr⟩ := dijkstraRelax_ok P (P.top st.queue).1 (adj st.graph (P.top st.queue).2)
      (st.distances, P.pop st.queue) (by
        intro e he _
        rw [h.graph_eq] at he
        have h1 := isDist_edge_le_total hdistinct hc hpos hs hdist he
        have h2 := adj_pos hdistinct hpos he
        have h3 : intMin ≤ 0 := by decide
        constructor <;> omega)
    exact ⟨r.1, r.2, by rw [hr, h.graph_eq]⟩

theorem dijkstra_distSum_nonneg {G : Graph} {s : Node} {st : DijkstraState}
    (hdistinct : (keys G).Nodup) (hpos : PositiveWeights G) (h : DijkstraInv G s st) :
    0 ≤ distSum st.distances := by
  unfold distSum
  apply List.sum_nonneg
  intro x hx
  obtain ⟨⟨k, x'⟩, hmem, rfl⟩ := List.mem_map.1 hx
  have hsd : SortedKeys st.distances := sortedKeys_of_keys_eq h.keys_eq (initDistances_spec G).1
  have hf := (mem_iff_mapFind _ (sortedKeys_nodup hsd) k x').1 hmem
  by_cases hfin : x' = intMax
  · simp only [hfin]; decide
  · obtain ⟨p, hp⟩ := h.walk k x' hf hfin
    exact walk_nonneg hdistinct hpos hp

theorem dijkstraLoop_complete (P : PriorityQueue) {G : Graph} {s : Node}
    (hdistinct : (keys G).Nodup) (hc : Closed G) (hpos : PositiveWeights G)
    (hsum : totalWeight G < intMax) (hs : s ∈ keys G)
    (fuel : Nat) (st : DijkstraState) (h : DijkstraInv G s st)
    (hfuel : (st.queue.length : Int) + distSum st.distances ≤ fuel) :
    ∃ fin : DijkstraState, DijkstraInv G s fin ∧ fin.queue = [] ∧
      dijkstraLoop P fuel st = (G, .ok fin.distances) := by
  induction fuel generalizing st with
  | zero =>
    have h0 := dijkstra_distSum_nonneg hdistinct hpos h
    have hq : st.queue = [] := by
      have : st.queue.length = 0 := by
        simp only [Nat.cast_zero] at hfuel
        omega
      exact List.length_eq_zero.1 this
    exact ⟨st, h, hq, by simp [dijkstraLoop, hq, h.graph_eq]⟩
  | succ fuel ih =>
    by_cases hq : st.queue = []
    · exact ⟨st, h, hq, by simp [dijkstraLoop, hq, h.graph_eq]⟩
    · obtain ⟨d, q, hstep⟩ := dijkstraStep_ok P hdistinct hc hpos hsum hs h hq
      obtain ⟨hinv, hmeas⟩ := dijkstraStep_inv P hc h hq G d q hstep
      obtain ⟨fin, hfin, hfq, hrun⟩ := ih _ hinv (by
        simp only at hmeas ⊢
        push_cast at hfuel
        omega)
      refine ⟨fin, hfin, hfq, ?_⟩
      simp only [dijkstraLoop, hq, if_false, hstep]
      exact hrun

theorem dijkstraLoop_mono (P : PriorityQueue) (fuel : Nat) (st : DijkstraState)
    (g : Graph) (m : DistMap) (h : dijkstraLoop P fuel st = (g, .ok m)) (k : Nat) :
    dijkstraLoop P (fuel + k) st = (g, .ok m) := by
  induction fuel generalizing st with
  | zero =>
    by_cases hq : st.queue = []
    · simp only [dijkstraLoop, hq, if_true] at h
      cases k <;> simp [dijkstraLoop, hq, h]
    · simp [dijkstraLoop, hq] at h
  | succ fuel ih =>
    have e : fuel + 1 + k = (fuel + k) + 1 := by omega
    rw [e]
    by_cases hq : st.queue = []
    · simp only [dijkstraLoop, hq, if_true] at h ⊢
      exact h
    · simp only [dijkstraLoop, hq, if_false] at h ⊢
      rcases hstep : dijkstraStep P st with ⟨g', r⟩
      rw [hstep] at h
      cases r with
      | error e => simp at h
      | ok r =>
        obtain ⟨d, q⟩ := r
        simp only at h ⊢
        exact ih _ h

/-- C1. On a finite graph in which every neighbour is a key, every edge weight is strictly
positive and the sum of all edge weights is below the sentinel, from a start node that
is a key, `dijkstra` terminates (every sufficient fuel gives the same result, with any
priority queue), returns a map with exactly the keys of the graph, and for every node
the mapped value is the minimum total weight of a directed path from the start when the
node is reachable, and is the sentinel if and only if the node is not reachable. -/
theorem dijkstra_correct (P : PriorityQueue) (G : Graph) (s : Node)
    (hdistinct : (keys G).Nodup) (hc : Closed G) (hpos : PositiveWeights G)
    (hsum : totalWeight G < intMax) (hs : s ∈ keys G) :
    ∃ m : DistMap,
      (∃ N, ∀ fuel, N ≤ fuel → dijkstra P fuel G s = (G, .ok m)) ∧
      SortedKeys m ∧ (∀ n, n ∈ keys m ↔ n ∈ keys G) ∧
      ∀ n ∈ keys G, ∃ d, mapFind m n = some d ∧
        (Reachable G s n → IsDist G s n d) ∧ (d = intMax ↔ ¬ Reachable G s n) := by
  have hinit := dijkstraInv_init P hs
  have h0 := dijkstra_distSum_nonneg hdistinct hpos hinit
  obtain ⟨N, hN⟩ : ∃ N : Nat, ((dijkstraInit P G s).queue.length : Int)
      + distSum (dijkstraInit P G s).distances ≤ N :=
    ⟨(((dijkstraInit P G s).queue.length : Int)
      + distSum (dijkstraInit P G s).distances).toNat, by omega⟩
  obtain ⟨fin, hfin, hq, hrun⟩ :=
    dijkstraLoop_complete P hdistinct hc hpos hsum hs N _ hinit hN
  refine ⟨fin.distances, ⟨N, ?_⟩, sortedKeys_of_keys_eq hfin.keys_eq (initDistances_spec G).1,
    fun n => by rw [hfin.keys_eq, mem_keys_initDistances], ?_⟩
  · intro fuel hfuel
    obtain ⟨k, rfl⟩ := Nat.exists_eq_add_of_le hfuel
    exact dijkstraLoop_mono P N _ _ _ hrun k
  · intro n hn
    obtain ⟨d, hd⟩ := (mem_keys_iff fin.distances n).1 (hfin.keys_eq ▸ (mem_keys_initDistances G n).2 hn)
    have hreach : Reachable G s n → IsDist G s n d := by
      intro hr
      obtain ⟨δ, hδ⟩ := exists_isDist hdistinct hpos hr
      have hb := isDist_le_total hdistinct hc hpos hs hδ
      obtain ⟨⟨p, hp⟩, hmin⟩ := hδ
      rcases dijkstra_frontier hdistinct hpos hfin hp (by omega) with ⟨e, hmem, -⟩ | ⟨x, hx, hle⟩
      · rw [hq] at hmem; cases hmem
      · rw [hd] at hx
        simp only [Option.some.injEq] at hx
        subst hx
        obtain ⟨p', hp'⟩ := hfin.walk n d hd (by omega)
        have := hmin _ _ hp'
        have hdδ : d = δ := by omega
        subst hdδ
        exact ⟨⟨p, hp⟩, hmin⟩
    refine ⟨d, hd, hreach, ?_⟩
    constructor
    · intro hmax hr
      have h1 := hreach hr
      have h2 := isDist_le_total hdistinct hc hpos hs h1
      omega
    · intro hnr
      by_contra hfinite
      obtain ⟨p, hp⟩ := hfin.walk n d hd hfinite
      exact hnr ⟨d, p, hp⟩

/-- Witness for C1: scenario 3 of the specification, `dijkstra(A) = {A:0, B:3, C:1, D:4}`. -/
theorem dijkstra_correct_witness :
    (keys scenario3).Nodup ∧ Closed scenario3 ∧ PositiveWeights scenario3 ∧
    totalWeight scenario3 < intMax ∧ 0 ∈ keys scenario3 ∧
    dijkstra listQueue 7 scenario3 0 = (scenario3, .ok [(0, 0), (1, 3), (2, 1), (3, 4)]) ∧
    ∃ m : DistMap,
      (∃ N, ∀ fuel, N ≤ fuel → dijkstra listQueue fuel scenario3 0 = (scenario3, .ok m)) ∧
      SortedKeys m ∧ (∀ n, n ∈ keys m ↔ n ∈ keys scenario3) ∧
      ∀ n ∈ keys scenario3, ∃ d, mapFind m n = some d ∧
        (Reachable scenario3 0 n → IsDist scenario3 0 n d) ∧
        (d = intMax ↔ ¬ Reachable scenario3 0 n) :=
  ⟨by decide, by decide, by decide, by decide, by decide, by decide,
    dijkstra_correct listQueue scenario3 0 (by decide) (by decide) (by decide) (by decide)
      (by decide)⟩

/-! ## Dijkstra: zero-weight edges -/

theorem dijkstraRelax_dropZero (P : PriorityQueue) (cd : Int) (es : List (Node × Int))
    (st : DistMap × List Entry) :
    dijkstraRelax P cd (es.filter (fun e => decide (e.2 ≠ 0))) st = dijkstraRelax P cd es st := by
  induction es generalizing st with
  | nil => rfl
  | cons e es ih =>
    obtain ⟨v, w⟩ := e
    obtain ⟨d, q⟩ := st
    by_cases hw : w = 0
    · subst hw
      simp only [List.filter_cons, ne_eq, not_true_eq_false, decide_False, Bool.false_eq_true,
        if_false, dijkstraRelax]
      exact ih _
    · simp only [List.filter_cons, ne_eq, hw, not_false_eq_true, decide_True, if_true,
        dijkstraRelax]
      cases addInt cd w with
      | none => rfl
      | some nd =>
        simp only
        split <;> exact ih _

theorem keys_dropZeroEdges (G : Graph) : keys (dropZeroEdges G) = keys G := by
  simp [keys, dropZeroEdges, Function.comp_def]

theorem mapFind_dropZeroEdges (G : Graph) (u : Node) :
    mapFind (dropZeroEdges G) u
      = (mapFind G u).map (fun es => es.filter (fun e => decide (e.2 ≠ 0))) := by
  induction G with
  | nil => rfl
  | cons p rest ih =>
    obtain ⟨a, es⟩ := p
    by_cases h : u = a
    · simp [dropZeroEdges, mapFind, h]
    · have ih' : mapFind (List.map (fun pair => (pair.1, pair.2.filter
          (fun e => decide (e.2 ≠ 0)))) rest) u = _ := ih
      simp only [dropZeroEdges, List.map_cons, mapFind, h, if_false, ih']

theorem mapSet_dropZeroEdges (G : Graph) (u : Node) :
    mapSet (dropZeroEdges G) u [] = dropZeroEdges (mapSet G u []) := by
  induction G with
  | nil => rfl
  | cons p rest ih =>
    obtain ⟨a, es⟩ := p
    have ih' : mapSet (List.map (fun pair => (pair.1, pair.2.filter
        (fun e => decide (e.2 ≠ 0)))) rest) u [] = _ := ih
    by_cases h1 : u < a
    · simp [dropZeroEdges, mapSet, h1]
    · by_cases h2 : u = a
      · simp [dropZeroEdges, mapSet, h1, h2]
      · simp only [dropZeroEdges, List.map_cons, mapSet, h1, h2, if_false, ih']

theorem mapIndex_dropZeroEdges (G : Graph) (u : Node) :
    mapIndex (dropZeroEdges G) u []
      = ((mapIndex G u []).1.filter (fun e => decide (e.2 ≠ 0)),
         dropZeroEdges (mapIndex G u []).2) := by
  simp only [mapIndex, mapFind_dropZeroEdges]
  cases mapFind G u with
  | none => simp [mapSet_dropZeroEdges]
  | some es => simp

theorem initDistances_dropZeroEdges (G : Graph) :
    initDistances (dropZeroEdges G) = initDistances G := by
  simp only [initDistances, dropZeroEdges, List.foldl_map]

theorem dijkstraStep_dropZero (P : PriorityQueue) (g : Graph) (d : DistMap) (q : List Entry) :
    dijkstraStep P { graph := dropZeroEdges g, distances := d, queue := q }
      = (dropZeroEdges (dijkstraStep P { graph := g, distances := d, queue := q }).1,
         (dijkstraStep P { graph := g, distances := d, queue := q }).2) := by
  simp only [dijkstraStep, mapIndex_dropZeroEdges, dijkstraRelax_dropZero]
  split <;> rfl

theorem dijkstraLoop_dropZero (P : PriorityQueue) (fuel : Nat) (g : Graph) (d : DistMap)
    (q : List Entry) :
    dijkstraLoop P fuel { graph := dropZeroEdges g, distances := d, queue := q }
      = (dropZeroEdges (dijkstraLoop P fuel { graph := g, distances := d, queue := q }).1,
         (dijkstraLoop P fuel { graph := g, distances := d, queue := q }).2) := by
  induction fuel generalizing g d q with
  | zero => simp [dijkstraLoop]
  | succ fuel ih =>
    by_cases hq : q = []
    · simp [dijkstraLoop, hq]
    · simp only [dijkstraLoop, hq, if_false]
      rw [dijkstraStep_dropZero]
      rcases dijkstraStep P { graph := g, distances := d, queue := q } with ⟨g', r⟩
      cases r with
      | error e => rfl
      | ok r =>
        obtain ⟨d', q'⟩ := r
        exact ih g' d' q'

/-! ## Non-mutation of the graph -/

theorem bfsLoop_graph {G : Graph} {s : Node} (hc : Closed G) (hs : s ∈ keys G)
    (fuel : Nat) (st : BfsState Node) (h : BfsInv G s st) : (bfsLoop id fuel st).1 = G := by
  induction fuel generalizing st with
  | zero => simp [bfsLoop, h.graph_eq]
  | succ fuel ih =>
    by_cases hq : st.queue = []
    · simp [bfsLoop, hq, h.graph_eq]
    · simp only [bfsLoop, hq, if_false]
      exact ih _ (bfsInv_step hc hs h hq)

theorem dfsLoop_graph {G : Graph} {s : Node} (hc : Closed G) (hs : s ∈ keys G)
    (fuel : Nat) (st : DfsState Node) (h : DfsInv G s st) : (dfsLoop id fuel st).1 = G := by
  induction fuel generalizing st with
  | zero => simp [dfsLoop, h.graph_eq]
  | succ fuel ih =>
    by_cases hq : st.stack = []
    · simp [dfsLoop, hq, h.graph_eq]
    · simp only [dfsLoop, hq, if_false]
      exact ih _ (dfsInv_step hc hs h hq)

theorem dijkstraRelax_queue_keys (P : PriorityQueue) (K : List Node) (cd : Int)
    (es : List (Node × Int)) (d : DistMap) (q : List Entry) (r : DistMap × List Entry)
    (hes : ∀ e ∈ es, e.1 ∈ K) (hq : ∀ e ∈ q, e.2 ∈ K)
    (hrun : dijkstraRelax P cd es (d, q) = .ok r) : ∀ e ∈ r.2, e.2 ∈ K := by
  induction es generalizing d q with
  | nil =>
    simp only [dijkstraRelax, Except.ok.injEq] at hrun
    subst hrun
    exact hq
  | cons e es ih =>
    obtain ⟨v, w⟩ := e
    have hes' : ∀ e ∈ es, e.1 ∈ K := fun e he => hes e (List.mem_cons_of_mem _ he)
    have hv : v ∈ K := hes (v, w) (List.mem_cons_self _ _)
    by_cases hw : w = 0
    · subst hw
      simp only [dijkstraRelax, ne_eq, not_true_eq_false, if_false] at hrun
      exact ih d q hes' hq hrun
    · simp only [dijkstraRelax, ne_eq, hw, not_false_eq_true, if_true] at hrun
      cases hadd : addInt cd w with
      | none => simp [hadd] at hrun
      | some nd =>
        simp only [hadd] at hrun
        split at hrun
        · refine ih _ _ hes' ?_ hrun
          intro e he
          rcases (mem_push P q _ e).1 he with h1 | h1
          · rw [h1]; exact hv
          · exact hq e h1
        · exact ih _ _ hes' hq hrun

theorem dijkstraStep_graph_of_key (P : PriorityQueue) (st : DijkstraState)
    (h : (P.top st.queue).2 ∈ keys st.graph) : (dijkstraStep P st).1 = st.graph := by
  simp only [dijkstraStep, mapIndex_graph h]
  split <;> rfl

theorem dijkstraStep_queue_keys (P : PriorityQueue) {G : Graph} (hc : Closed G)
    (st : DijkstraState) (hg : st.graph = G) (hq : st.queue ≠ [])
    (hk : ∀ e ∈ st.queue, e.2 ∈ keys G) (g : Graph) (d : DistMap) (q : List Entry)
    (hrun : dijkstraStep P st = (g, .ok (d, q))) : ∀ e ∈ q, e.2 ∈ keys G := by
  have htop : (P.top st.queue).2 ∈ keys st.graph := by
    rw [hg]; exact hk _ (top_mem P st.queue hq)
  have hpop : ∀ e ∈ P.pop st.queue, e.2 ∈ keys G :=
    fun e he => hk e ((mem_pop P st.queue hq e).2 (Or.inr he))
  simp only [dijkstraStep, mapIndex_graph htop] at hrun
  split at hrun
  · simp only [Prod.mk.injEq, Except.ok.injEq] at hrun
    obtain ⟨-, -, rfl⟩ := hrun
    exact hpop
  · simp only [Prod.mk.injEq] at hrun
    refine dijkstraRelax_queue_keys P (keys G) _ _ _ _ (d, q) ?_ hpop hrun.2
    intro e he
    rw [hg] at he htop
    exact hc _ htop e he

theorem dijkstraLoop_graph (P : PriorityQueue) {G : Graph} (hc : Closed G)
    (fuel : Nat) (st : DijkstraState) (hg : st.graph = G)
    (hk : ∀ e ∈ st.queue, e.2 ∈ keys G) : (dijkstraLoop P fuel st).1 = G := by
  induction fuel generalizing st with
  | zero => simp [dijkstraLoop, hg]
  | succ fuel ih =>
    by_cases hq : st.queue = []
    · simp [dijkstraLoop, hq, hg]
    · have htop : (P.top st.queue).2 ∈ keys st.graph := by
        rw [hg]; exact hk _ (top_mem P st.queue hq)
      have hgraph := dijkstraStep_graph_of_key P st htop
      simp only [dijkstraLoop, hq, if_false]
      rcases hstep : dijkstraStep P st with ⟨g', r⟩
      rw [hstep] at hgraph
      simp only at hgraph
      cases r with
      | error e => simp only; rw [hgraph, hg]
      | ok r =>
        obtain ⟨d, q⟩ := r
        simp only
        exact ih _ (by simp only; rw [hgraph, hg])
          (dijkstraStep_queue_keys P hc st hg hq hk g' d q hstep)

/-- C10. On a graph in which every neighbour referenced in an edge list is a key, from a
start node that is a key, each of `breadthFirstSearch`, `depthFirstSearch`, `dijkstra`
and `bellmanFord` leaves the graph unchanged, whatever the outcome of the call (a result,
an error, or an interrupted run): the graph after the call is the graph before it. -/
theorem graph_not_mutated {T : Type} (value : Node → T) (P : PriorityQueue) (G : Graph)
    (s : Node) (hc : Closed G) (hs : s ∈ keys G) :
    (∀ fuel, (breadthFirstSearch value fuel G s).1 = G) ∧
    (∀ fuel, (depthFirstSearch value fuel G s).1 = G) ∧
    (∀ fuel, (dijkstra P fuel G s).1 = G) ∧
    (bellmanFord G s).1 = G := by
  refine ⟨?_, ?_, ?_, rfl⟩
  · intro fuel
    rw [breadthFirstSearch_eq_map]
    exact bfsLoop_graph hc hs fuel _ (bfsInv_init G s)
  · intro fuel
    rw [depthFirstSearch_eq_map]
    exact dfsLoop_graph hc hs fuel _ (dfsInv_init G s)
  · intro fuel
    refine dijkstraLoop_graph P hc fuel _ rfl ?_
    intro e he
    have : e = (0, s) := by
      have := (mem_push P [] (0, s) e).1 he
      simpa using this
    rw [this]; exact hs

/-- Witness for C10: scenario 6 of the specification, on which `bellmanFord` raises. -/
theorem graph_not_mutated_witness :
    Closed scenario6 ∧ 0 ∈ keys scenario6 ∧
    bellmanFord scenario6 0 = (scenario6, .error .negativeCycle) ∧
    ((∀ fuel, (breadthFirstSearch id fuel scenario6 0).1 = scenario6) ∧
    (∀ fuel, (depthFirstSearch id fuel scenario6 0).1 = scenario6) ∧
    (∀ fuel, (dijkstra listQueue fuel scenario6 0).1 = scenario6) ∧
    (bellmanFord scenario6 0).1 = scenario6) :=
  ⟨by decide, by decide, by decide,
    graph_not_mutated id listQueue scenario6 0 (by decide) (by decide)⟩

/-! ## Bellman-Ford: one relaxation pass -/

theorem distLe_refl (d : DistMap) : DistLe d d := fun _ x hx => ⟨x, hx, le_refl _⟩

theorem distLe_trans {d d1 d2 : DistMap} (h1 : DistLe d d1) (h2 : DistLe d1 d2) :
    DistLe d d2 := by
  intro n x hx
  obtain ⟨x1, hx1, hle1⟩ := h1 n x hx
  obtain ⟨x2, hx2, hle2⟩ := h2 n x1 hx1
  exact ⟨x2, hx2, by omega⟩

theorem distLe_mapSet {d : DistMap} {v : Node} {old new : Int}
    (hold : mapFind d v = some old) (hlt : new < old) : DistLe d (mapSet d v new) := by
  intro n x hx
  rw [mapFind_mapSet]
  by_cases hn : n = v
  · subst hn
    rw [hx] at hold
    simp only [Option.some.injEq] at hold
    exact ⟨new, by simp, by omega⟩
  · exact ⟨x, by simp [hn, hx], le_refl _⟩

theorem edgeRelaxed_of_le_left {G : Graph} {s : Node} {d d1 d' : DistMap} {u v : Node} {w : Int}
    (hinv : BfInv G s d) (hle : DistLe d d1) (h : EdgeRelaxed d1 d' u v w) :
    EdgeRelaxed d d' u v w := by
  intro x hx hfin
  obtain ⟨x1, hx1, hle1⟩ := hle u x hx
  have hr := hinv.range u x hx
  obtain ⟨y, hy, hyle⟩ := h x1 hx1 (by omega)
  exact ⟨y, hy, by omega⟩

theorem edgeRelaxed_of_le_right {d d1 d' : DistMap} {u v : Node} {w : Int}
    (h : EdgeRelaxed d d1 u v w) (hle : DistLe d1 d') : EdgeRelaxed d d' u v w := by
  intro x hx hfin
  obtain ⟨y, hy, hyle⟩ := h x hx hfin
  obtain ⟨y', hy', hyle'⟩ := hle v y hy
  exact ⟨y', hy', by omega⟩

theorem bfInv_mapSet {G : Graph} {s u v : Node} {w dn old : Int} {d : DistMap}
    (h : BfInv G s d) (hedge : (v, w) ∈ adj G u)
    (hdn : mapFind d u = some dn) (hfin : dn ≠ intMax)
    (hold : mapFind d v = some old) (hlt : dn + w < old) :
    BfInv G s (mapSet d v (dn + w)) := by
  have hsd : SortedKeys d := sortedKeys_of_keys_eq h.keys_eq (initDistances_spec G).1
  have hvk : v ∈ keys d := (mem_keys_iff d v).2 ⟨old, hold⟩
  have hr := h.range v old hold
  refine ⟨?_, ?_, ?_, ?_⟩
  · rw [keys_mapSet_of_mem d v _ hsd hvk]; exact h.keys_eq
  · intro n x hx
    rw [mapFind_mapSet] at hx
    split at hx
    · simp only [Option.some.injEq] at hx; omega
    · exact h.range n x hx
  · obtain ⟨x, hx, hx0⟩ := h.start
    rw [mapFind_mapSet]
    by_cases hsv : s = v
    · subst hsv
      rw [hx] at hold
      simp only [Option.some.injEq] at hold
      exact ⟨dn + w, by simp, by omega⟩
    · exact ⟨x, by simp [hsv, hx], hx0⟩
  · intro n x hx hne
    rw [mapFind_mapSet] at hx
    split at hx
    · rename_i hnv
      simp only [Option.some.injEq] at hx
      subst hx hnv
      obtain ⟨p, hp⟩ := h.walk u dn hdn hfin
      exact ⟨u :: p, Walk.snoc hp hedge⟩
    · exact h.walk n x hx hne

/-- The innermost loop of a relaxation pass keeps the invariant, only lowers distances and
relaxes every edge it scans. -/
theorem bfRelaxEdges_spec {G : Graph} {s u : Node} (hc : Closed G)
    (hu : u ∈ keys G) (es : List (Node × Int)) (hes : ∀ e ∈ es, e ∈ adj G u)
    (d d' : DistMap) (h : BfInv G s d) (hrun : bfRelaxEdges u es d = .ok d') :
    BfInv G s d' ∧ DistLe d d' ∧ ∀ e ∈ es, EdgeRelaxed d d' u e.1 e.2 := by
  induction es generalizing d with
  | nil =>
    simp only [bfRelaxEdges, Except.ok.injEq] at hrun
    subst hrun
    exact ⟨h, distLe_refl d, by simp⟩
  | cons e es ih =>
    obtain ⟨v, w⟩ := e
    have hes' : ∀ e ∈ es, e ∈ adj G u := fun e he => hes e (List.mem_cons_of_mem _ he)
    have hedge : (v, w) ∈ adj G u := hes (v, w) (List.mem_cons_self _ _)
    obtain ⟨dn, hdn⟩ := (mem_keys_iff d u).1 (h.keys_eq ▸ (mem_keys_initDistances G u).2 hu)
    obtain ⟨old, hold⟩ := (mem_keys_iff d v).1 (h.keys_eq ▸ (mem_keys_initDistances G v).2 (hc u hu (v, w) hedge))
    have key : ∃ d1, bfRelaxEdges u es d1 = .ok d' ∧ BfInv G s d1 ∧ DistLe d d1 ∧
        EdgeRelaxed d d1 u v w := by
      simp only [bfRelaxEdges, mapIndex_of_find 0 hdn] at hrun
      by_cases hfin : dn = intMax
      · simp only [hfin, ne_eq, not_true_eq_false, if_false] at hrun
        refine ⟨d, hrun, h, distLe_refl d, ?_⟩
        intro x hx hne
        rw [hdn] at hx
        simp only [Option.some.injEq] at hx
        exact absurd (hx ▸ hfin) hne
      · simp only [ne_eq, hfin, not_false_eq_true, if_true] at hrun
        cases hadd : addInt dn w with
        | none => simp [hadd] at hrun
        | some sum =>
          obtain ⟨hsum, -, -⟩ := addInt_eq_some hadd
          subst hsum
          simp only [hadd, mapIndex_of_find 0 hold] at hrun
          by_cases hlt : dn + w < old
          · simp only [hlt, if_true] at hrun
            refine ⟨_, hrun, bfInv_mapSet h hedge hdn hfin hold hlt,
              distLe_mapSet hold hlt, ?_⟩
            intro x hx _
            rw [hdn] at hx
            simp only [Option.some.injEq] at hx
            subst hx
            exact ⟨dn + w, by rw [mapFind_mapSet]; simp, le_refl _⟩
          · simp only [hlt, if_false] at hrun
            refine ⟨d, hrun, h, distLe_refl d, ?_⟩
            intro x hx _
            rw [hdn] at hx
            simp only [Option.some.injEq] at hx
            subst hx
            exact ⟨old, hold, by omega⟩
    obtain ⟨d1, hrun1, hinv1, hle1, hrel1⟩ := key
    obtain ⟨hinv', hle', hrel'⟩ := ih hes' d1 hinv1 hrun1
    refine ⟨hinv', distLe_trans hle1 hle', ?_⟩
    intro e he
    rcases List.mem_cons.1 he with h1 | h1
    · rw [h1]
      exact edgeRelaxed_of_le_right hrel1 hle'
    · exact edgeRelaxed_of_le_left h hle1 (hrel' e h1)

/-- One relaxation pass keeps the invariant, only lowers distances and relaxes every edge
with respect to the distances at the beginning of the pass. -/
theorem bfPass_spec {G : Graph} {s : Node} (hdistinct : (keys G).Nodup) (hc : Closed G)
    (L : Graph) (hL : ∀ pair ∈ L, pair ∈ G) (d d' : DistMap) (h : BfInv G s d)
    (hrun : bfPass L d = .ok d') :
    BfInv G s d' ∧ DistLe d d' ∧
      ∀ pair ∈ L, ∀ e ∈ pair.2, EdgeRelaxed d d' pair.1 e.1 e.2 := by
  induction L generalizing d with
  | nil =>
    simp only [bfPass, Except.ok.injEq] at hrun
    subst hrun
    exact ⟨h, distLe_refl d, by simp⟩
  | cons pair L ih =>
    obtain ⟨u, es⟩ := pair
    have hL' : ∀ pair ∈ L, pair ∈ G := fun p hp => hL p (List.mem_cons_of_mem _ hp)
    have hmem : (u, es) ∈ G := hL _ (List.mem_cons_self _ _)
    have hu : u ∈ keys G := List.mem_map_of_mem Prod.fst hmem
    have hadj : adj G u = es := adj_eq_of_mem hdistinct hmem
    simp only [bfPass] at hrun
    cases h1 : bfRelaxEdges u es d with
    | error e => simp [h1] at hrun
    | ok d1 =>
      simp only [h1] at hrun
      obtain ⟨hinv1, hle1, hrel1⟩ :=
        bfRelaxEdges_spec hc hu es (fun e he => hadj ▸ he) d d1 h h1
      obtain ⟨hinv', hle', hrel'⟩ := ih hL' d1 hinv1 hrun
      refine ⟨hinv', distLe_trans hle1 hle', ?_⟩
      intro pair hp e he
      rcases List.mem_cons.1 hp with h2 | h2
      · subst h2
        exact edgeRelaxed_of_le_right (hrel1 e he) hle'
      · exact edgeRelaxed_of_le_left h hle1 (hrel' pair h2 e he)

/-! ## Walks: concatenation, splitting and removal of cycles -/

theorem walk_append {G : Graph} {s u v : Node} {W1 W2 : Int} {p1 p2 : List Node}
    (h1 : Walk G s u W1 p1) (h2 : Walk G u v W2 p2) : Walk G s v (W1 + W2) (p2 ++ p1) := by
  induction h2 with
  | nil => simpa using h1
  | snoc _ he ih =>
    have := Walk.snoc ih he
    simpa [add_assoc] using this

theorem walk_split {G : Graph} {s : Node} (a : List Node) (x : Node) (r : List Node)
    {v : Node} {W : Int} (h : Walk G s v W (a ++ x :: r)) :
    ∃ W1 W2, Walk G s x W1 r ∧ Walk G x v W2 (a ++ [x]) ∧ W = W1 + W2 := by
  induction a generalizing v W with
  | nil =>
    obtain ⟨W', w, hw', he, hW⟩ := walk_inv_cons h
    refine ⟨W', 0 + w, hw', Walk.snoc Walk.nil he, by omega⟩
  | cons y a ih =>
    obtain ⟨W', w, hw', he, hW⟩ := walk_inv_cons h
    obtain ⟨W1, W2, h1, h2, hW'⟩ := ih hw'
    exact ⟨W1, W2 + w, h1, Walk.snoc h2 he, by omega⟩

theorem walk_sources_reachable {G : Graph} {s v : Node} {W : Int} {p : List Node}
    (h : Walk G s v W p) : ∀ x ∈ p, Reachable G s x := by
  induction h with
  | nil => simp
  | snoc hw _ ih =>
    intro x hx
    rcases List.mem_cons.1 hx with h1 | h1
    · rw [h1]; exact ⟨_, _, hw⟩
    · exact ih x h1

theorem exists_dup_split {l : List Node} (h : ¬ l.Nodup) :
    ∃ a x b c, l = a ++ x :: (b ++ x :: c) := by
  induction l with
  | nil => exact absurd List.nodup_nil h
  | cons y l ih =>
    by_cases hy : y ∈ l
    · obtain ⟨b, c, hbc⟩ := List.append_of_mem hy
      exact ⟨[], y, b, c, by simp [hbc]⟩
    · have hl : ¬ l.Nodup := fun hnd => h (List.nodup_cons.2 ⟨hy, hnd⟩)
      obtain ⟨a, x, b, c, habc⟩ := ih hl
      exact ⟨y :: a, x, b, c, by simp [habc]⟩

/-- A walk that visits a node twice contains a cycle, and the walk without it is shorter. -/
theorem walk_remove_cycle {G : Graph} {s v : Node} {W : Int} {p : List Node}
    (h : Walk G s v W p) (hdup : ¬ (v :: p).Nodup) :
    ∃ x Wc pc W' p', Reachable G s x ∧ Walk G x x Wc pc ∧ Walk G s v W' p' ∧
      W = W' + Wc ∧ p'.length < p.length := by
  by_cases hv : v ∈ p
  · obtain ⟨a, r, har⟩ := List.append_of_mem hv
    subst har
    obtain ⟨W1, W2, h1, h2, hW⟩ := walk_split a v r h
    exact ⟨v, W2, a ++ [v], W1, r, ⟨_, _, h1⟩, h2, h1, hW, by simp; omega⟩
  · have hp : ¬ p.Nodup := fun hnd => hdup (List.nodup_cons.2 ⟨hv, hnd⟩)
    obtain ⟨a, x, b, c, habc⟩ := exists_dup_split hp
    subst habc
    obtain ⟨W1, W2, h1, h2, hW⟩ := walk_split a x (b ++ x :: c) h
    obtain ⟨W11, W12, h11, h12, hW1⟩ := walk_split b x c h1
    refine ⟨x, W12, b ++ [x], W11 + W2, (a ++ [x]) ++ c, ⟨_, _, h11⟩, h12,
      walk_append h11 h2, by omega, ?_⟩
    simp only [List.length_append, List.length_cons, List.length_nil]
    omega

/-- Every walk can be replaced by one with fewer edges than the graph has nodes; without a
reachable negative cycle the replacement is not heavier. -/
theorem walk_shorten {G : Graph} {s : Node} (hc : Closed G) (hs : s ∈ keys G) (n : Nat) :
    ∀ v W p, Walk G s v W p → p.length ≤ n →
      ∃ W' p', Walk G s v W' p' ∧ p'.length < (keys G).length ∧
        (¬ NegativeCycleReachable G s → W' ≤ W) := by
  induction n with
  | zero =>
    intro v W p h hlen
    refine ⟨W, p, h, ?_, fun _ => le_refl _⟩
    have : 0 < (keys G).length := List.length_pos_of_mem hs
    omega
  | succ n ih =>
    intro v W p h hlen
    by_cases hshort : p.length < (keys G).length
    · exact ⟨W, p, h, hshort, fun _ => le_refl _⟩
    · have hdup : ¬ (v :: p).Nodup := by
        intro hnd
        have hsub : v :: p ⊆ keys G := by
          intro x hx
          rcases List.mem_cons.1 hx with h1 | h1
          · rw [h1]; exact walk_mem_keys hc hs h
          · exact reachable_mem_keys hc hs (walk_sources_reachable h x h1)
        have := (List.subperm_of_subset hnd hsub).length_le
        simp only [List.length_cons] at this
        omega
      obtain ⟨x, Wc, pc, W', p', hx, hcyc, hw', hW, hlt⟩ := walk_remove_cycle h hdup
      obtain ⟨W'', p'', hw'', hlen'', hle⟩ := ih v W' p' hw' (by omega)
      refine ⟨W'', p'', hw'', hlen'', ?_⟩
      intro hneg
      have h1 := hle hneg
      have h2 : 0 ≤ Wc := by
        by_contra hcon
        exact hneg ⟨x, Wc, pc, hx, hcyc, by omega⟩
      omega

theorem exists_weight_lower_bound (G : Graph) :
    ∃ M : Int, M ≤ 0 ∧ ∀ pair ∈ G, ∀ e ∈ pair.2, M ≤ e.2 := by
  have hlist : ∀ es : List (Node × Int), ∃ M : Int, M ≤ 0 ∧ ∀ e ∈ es, M ≤ e.2 := by
    intro es
    induction es with
    | nil => exact ⟨0, le_refl _, by simp⟩
    | cons e es ih =>
      obtain ⟨M, hM0, hM⟩ := ih
      refine ⟨min M e.2, by omega, ?_⟩
      intro e' he'
      rcases List.mem_cons.1 he' with h1 | h1
      · rw [h1]; omega
      · have := hM e' h1
        omega
  induction G with
  | nil => exact ⟨0, le_refl _, by simp⟩
  | cons pair G ih =>
    obtain ⟨M, hM0, hM⟩ := ih
    obtain ⟨M', hM0', hM'⟩ := hlist pair.2
    refine ⟨min M M', by omega, ?_⟩
    intro q hq e he
    rcases List.mem_cons.1 hq with h1 | h1
    · rw [h1] at he
      have := hM' e he
      omega
    · have := hM q h1 e he
      omega

theorem walk_weight_lower_bound {G : Graph} (hdistinct : (keys G).Nodup) {M : Int}
    (hM : ∀ pair ∈ G, ∀ e ∈ pair.2, M ≤ e.2) {s v : Node} {W : Int} {p : List Node}
    (h : Walk G s v W p) : (p.length : Int) * M ≤ W := by
  induction h with
  | nil => simp
  | snoc _ he ih =>
    have := hM _ (adj_mem_graph hdistinct he) _ he
    simp only [List.length_cons, Nat.cast_add, Nat.cast_one] at this ⊢
    nlinarith

/-- Without a reachable negative cycle every reachable node has a minimum path weight, and
it is attained by a walk with fewer edges than the graph has nodes. -/
theorem exists_isDist_short {G : Graph} {s : Node} (hdistinct : (keys G).Nodup) (hc : Closed G)
    (hs : s ∈ keys G) (hneg : ¬ NegativeCycleReachable G s) {v : Node}
    (h : Reachable G s v) :
    ∃ d p, IsDist G s v d ∧ Walk G s v d p ∧ p.length < (keys G).length := by
  obtain ⟨M, hM0, hM⟩ := exists_weight_lower_bound G
  obtain ⟨W, p, hw⟩ := h
  obtain ⟨d, ⟨p0, hd⟩, hmin⟩ := Int.exists_least_of_bdd
    (P := fun W => ∃ p, Walk G s v W p)
    ⟨((keys G).length : Int) * M, fun z hz => by
      obtain ⟨pz, hpz⟩ := hz
      obtain ⟨W', p', hw', hlen', hle⟩ := walk_shorten hc hs pz.length v z pz hpz (le_refl _)
      have h1 := hle hneg
      have h2 := walk_weight_lower_bound hdistinct hM hw'
      have h3 : ((keys G).length : Int) * M ≤ (p'.length : Int) * M := by
        have : (p'.length : Int) ≤ ((keys G).length : Int) := by omega
        nlinarith
      omega⟩ ⟨W, p, hw⟩
  obtain ⟨W', p', hw', hlen', hle⟩ := walk_shorten hc hs p0.length v d p0 hd (le_refl _)
  have h1 := hle hneg
  have h2 := hmin W' ⟨p', hw'⟩
  have hdW : W' = d := by omega
  subst hdW
  exact ⟨W', p', ⟨⟨p', hw'⟩, fun W'' p'' hw'' => hmin W'' ⟨p'', hw''⟩⟩, hw', hlen'⟩

/-! ## Bellman-Ford: the passes -/

theorem bfInv_init {G : Graph} {s : Node} (hs : s ∈ keys G) :
    BfInv G s (mapSet (initDistances G) s 0) := by
  have h := dijkstraInv_init listQueue hs
  exact ⟨h.keys_eq, h.range, h.start, h.walk⟩

theorem goodAt_init {G : Graph} {s : Node} (Q : Node → Int → List Node → Prop)
    {d : DistMap} (h : BfInv G s d) : GoodAt G s Q 0 d := by
  intro v W p hw hlen _
  have hp : p = [] := List.length_eq_zero.1 (Nat.le_zero.1 hlen)
  subst hp
  obtain ⟨rfl, rfl⟩ := walk_inv_nil hw
  exact h.start

theorem goodAt_pass {G : Graph} {s : Node} (hdistinct : (keys G).Nodup) (hc : Closed G)
    (Q : Node → Int → List Node → Prop)
    (hQpre : ∀ u v w W p, Walk G s u W p → (v, w) ∈ adj G u → Q v (W + w) (u :: p) → Q u W p)
    (hQfin : ∀ v W p, Walk G s v W p → Q v W p → W < intMax)
    (j : Nat) (d d' : DistMap) (h : BfInv G s d) (hgood : GoodAt G s Q j d)
    (hrun : bfPass G d = .ok d') : BfInv G s d' ∧ DistLe d d' ∧ GoodAt G s Q (j + 1) d' := by
  obtain ⟨hinv', hle, hrel⟩ := bfPass_spec hdistinct hc G (fun _ hp => hp) d d' h hrun
  refine ⟨hinv', hle, ?_⟩
  intro v W p hw hlen hQ
  cases p with
  | nil =>
    obtain ⟨rfl, rfl⟩ := walk_inv_nil hw
    exact hinv'.start
  | cons u p =>
    obtain ⟨W', w, hw', he, hW⟩ := walk_inv_cons hw
    subst hW
    have hQ' := hQpre u v w W' p hw' he hQ
    obtain ⟨y, hy, hyle⟩ := hgood u W' p hw' (by simpa using hlen) hQ'
    have hfin := hQfin u W' p hw' hQ'
    obtain ⟨y', hy', hyle'⟩ := hrel _ (adj_mem_graph hdistinct he) (v, w) he y hy (by omega)
    exact ⟨y', hy', by simp only at hyle'; omega⟩

theorem goodAt_passes {G : Graph} {s : Node} (hdistinct : (keys G).Nodup) (hc : Closed G)
    (Q : Node → Int → List Node → Prop)
    (hQpre : ∀ u v w W p, Walk G s u W p → (v, w) ∈ adj G u → Q v (W + w) (u :: p) → Q u W p)
    (hQfin : ∀ v W p, Walk G s v W p → Q v W p → W < intMax)
    (k : Nat) : ∀ (j : Nat) (d d' : DistMap), BfInv G s d → GoodAt G s Q j d →
      bfPasses G k d = .ok d' → BfInv G s d' ∧ GoodAt G s Q (j + k) d' := by
  induction k with
  | zero =>
    intro j d d' h hgood hrun
    simp only [bfPasses, Except.ok.injEq] at hrun
    subst hrun
    exact ⟨h, hgood⟩
  | succ k ih =>
    intro j d d' h hgood hrun
    simp only [bfPasses] at hrun
    cases h1 : bfPass G d with
    | error e => simp [h1] at hrun
    | ok d1 =>
      simp only [h1] at hrun
      obtain ⟨hinv1, -, hgood1⟩ := goodAt_pass hdistinct hc Q hQpre hQfin j d d1 h hgood h1
      have := ih (j + 1) d1 d' hinv1 hgood1 hrun
      have e : j + 1 + k = j + (k + 1) := by omega
      rw [e] at this
      exact this

/-! ## Bellman-Ford: errors and the final pass -/

theorem bfRelaxEdges_error (u : Node) (es : List (Node × Int)) (d : DistMap) (e : Error)
    (h : bfRelaxEdges u es d = .error e) : e = .overflow := by
  induction es generalizing d with
  | nil => simp [bfRelaxEdges] at h
  | cons x es ih =>
    obtain ⟨v, w⟩ := x
    simp only [bfRelaxEdges] at h
    split at h
    · cases hadd : addInt (mapIndex d u 0).1 w with
      | none =>
        simp only [hadd, Except.error.injEq] at h
        exact h.symm
      | some sum =>
        simp only [hadd] at h
        split at h <;> exact ih _ h
    · exact ih _ h

theorem bfPass_error (L : Graph) (d : DistMap) (e : Error) (h : bfPass L d = .error e) :
    e = .overflow := by
  induction L generalizing d with
  | nil => simp [bfPass] at h
  | cons pair L ih =>
    obtain ⟨u, es⟩ := pair
    simp only [bfPass] at h
    cases h1 : bfRelaxEdges u es d with
    | error e' =>
      simp only [h1, Except.error.injEq] at h
      rw [← h]
      exact bfRelaxEdges_error u es d e' h1
    | ok d1 =>
      simp only [h1] at h
      exact ih _ h

theorem bfPasses_error (G : Graph) (k : Nat) (d : DistMap) (e : Error)
    (h : bfPasses G k d = .error e) : e = .overflow := by
  induction k generalizing d with
  | zero => simp [bfPasses] at h
  | succ k ih =>
    simp only [bfPasses] at h
    cases h1 : bfPass G d with
    | error e' =>
      simp only [h1, Except.error.injEq] at h
      rw [← h]
      exact bfPass_error G d e' h1
    | ok d1 =>
      simp only [h1] at h
      exact ih _ h

/-- The innermost loop of the final pass returns the map as it is when no scanned edge
relaxes, throws when one does, and otherwise ends in an overflow. -/
theorem bfCheckEdges_spec {G : Graph} {s u : Node} (hc : Closed G) (hu : u ∈ keys G)
    (es : List (Node × Int)) (hes : ∀ e ∈ es, e ∈ adj G u) (d : DistMap) (h : BfInv G s d) :
    (bfCheckEdges u es d = .ok d ∧ ∀ e ∈ es, EdgeRelaxed d d u e.1 e.2) ∨
    bfCheckEdges u es d = .error .overflow ∨
    (bfCheckEdges u es d = .error .negativeCycle ∧ ∃ e ∈ es, ¬ EdgeRelaxed d d u e.1 e.2) := by
  induction es with
  | nil => exact Or.inl ⟨rfl, by simp⟩
  | cons e es ih =>
    obtain ⟨v, w⟩ := e
    have hes' : ∀ e ∈ es, e ∈ adj G u := fun e he => hes e (List.mem_cons_of_mem _ he)
    have hedge : (v, w) ∈ adj G u := hes (v, w) (List.mem_cons_self _ _)
    obtain ⟨dn, hdn⟩ := (mem_keys_iff d u).1 (h.keys_eq ▸ (mem_keys_initDistances G u).2 hu)
    obtain ⟨old, hold⟩ := (mem_keys_iff d v).1 (h.keys_eq ▸ (mem_keys_initDistances G v).2 (hc u hu (v, w) hedge))
    have hrest : ∀ (r : Except Error DistMap), r = bfCheckEdges u es d →
        EdgeRelaxed d d u v w →
        (r = .ok d ∧ ∀ e ∈ (v, w) :: es, EdgeRelaxed d d u e.1 e.2) ∨
        r = .error .overflow ∨
        (r = .error .negativeCycle ∧ ∃ e ∈ (v, w) :: es, ¬ EdgeRelaxed d d u e.1 e.2) := by
      intro r hr hrel
      rcases ih hes' with ⟨h1, h2⟩ | h1 | ⟨h1, e, he, h2⟩
      · left
        refine ⟨hr.trans h1, ?_⟩
        intro e he
        rcases List.mem_cons.1 he with h3 | h3
        · rw [h3]; exact hrel
        · exact h2 e h3
      · exact Or.inr (Or.inl (hr.trans h1))
      · exact Or.inr (Or.inr ⟨hr.trans h1, e, List.mem_cons_of_mem _ he, h2⟩)
    simp only [bfCheckEdges, mapIndex_of_find 0 hdn]
    by_cases hfin : dn = intMax
    · simp only [hfin, ne_eq, not_true_eq_false, if_false]
      apply hrest _ rfl
      intro x hx hne
      rw [hdn] at hx
      simp only [Option.some.injEq] at hx
      exact absurd (hx ▸ hfin) hne
    · simp only [ne_eq, hfin, not_false_eq_true, if_true]
      cases hadd : addInt dn w with
      | none => exact Or.inr (Or.inl rfl)
      | some sum =>
        obtain ⟨hsum, -, -⟩ := addInt_eq_some hadd
        subst hsum
        simp only [mapIndex_of_find 0 hold]
        by_cases hlt : dn + w < old
        · simp only [hlt, if_true]
          refine Or.inr (Or.inr ⟨trivial, (v, w), List.mem_cons_self _ _, ?_⟩)
          intro hrel
          obtain ⟨y, hy, hyle⟩ := hrel dn hdn hfin
          rw [hold] at hy
          simp only [Option.some.injEq] at hy
          omega
        · simp only [hlt, if_false]
          apply hrest _ rfl
          intro x hx _
          rw [hdn] at hx
          simp only [Option.some.injEq] at hx
          subst hx
          exact ⟨old, hold, by omega⟩

/-- The final pass returns the map as it is when no edge relaxes, throws when one does,
and otherwise ends in an overflow. -/
theorem bfCheck_spec {G : Graph} {s : Node} (hdistinct : (keys G).Nodup) (hc : Closed G)
    (L : Graph) (hL : ∀ pair ∈ L, pair ∈ G) (d : DistMap) (h : BfInv G s d) :
    (bfCheck L d = .ok d ∧ ∀ pair ∈ L, ∀ e ∈ pair.2, EdgeRelaxed d d pair.1 e.1 e.2) ∨
    bfCheck L d = .error .overflow ∨
    (bfCheck L d = .error .negativeCycle ∧
      ∃ pair ∈ L, ∃ e ∈ pair.2, ¬ EdgeRelaxed d d pair.1 e.1 e.2) := by
  induction L with
  | nil => exact Or.inl ⟨rfl, by simp⟩
  | cons pair L ih =>
    obtain ⟨u, es⟩ := pair
    have hL' : ∀ pair ∈ L, pair ∈ G := fun p hp => hL p (List.mem_cons_of_mem _ hp)
    have hmem : (u, es) ∈ G := hL _ (List.mem_cons_self _ _)
    have hu : u ∈ keys G := List.mem_map_of_mem Prod.fst hmem
    have hadj : adj G u = es := adj_eq_of_mem hdistinct hmem
    simp only [bfCheck]
    rcases bfCheckEdges_spec hc hu es (fun e he => hadj ▸ he) d h with
      ⟨h1, h2⟩ | h1 | ⟨h1, e, he, h2⟩
    · simp only [h1]
      rcases ih hL' with ⟨h3, h4⟩ | h3 | ⟨h3, pair, hp, e, he, h4⟩
      · left
        refine ⟨h3, ?_⟩
        intro pair hp e he
        rcases List.mem_cons.1 hp with h5 | h5
        · subst h5; exact h2 e he
        · exact h4 pair h5 e he
      · exact Or.inr (Or.inl h3)
      · exact Or.inr (Or.inr ⟨h3, pair, List.mem_cons_of_mem _ hp, e, he, h4⟩)
    · simp only [h1]
      exact Or.inr (Or.inl trivial)
    · simp only [h1]
      exact Or.inr (Or.inr ⟨trivial, (u, es), List.mem_cons_self _ _, e, he, h2⟩)

/-! ## Bellman-Ford: the loop variable of the passes -/

/-- The counted loop performs the passes of `bfPasses` and advances `i` by their number. -/
theorem bfPassesCounted_eq (graph : Graph) (n i : Nat) (d : DistMap) :
    bfPassesCounted graph n (i, d)
      = match bfPasses graph n d with
        | .error e => .error e
        | .ok d1 => .ok (i + n, d1) := by
  induction n generalizing i d with
  | zero => rfl
  | succ n ih =>
    simp only [bfPassesCounted, bfPasses]
    cases bfPass graph d with
    | error e => rfl
    | ok d1 =>
      simp only
      rw [ih]
      cases bfPasses graph n d1 with
      | error e => rfl
      | ok d2 =>
        simp only
        have e : i + 1 + n = i + (n + 1) := by omega
        rw [e]

theorem bellmanFordRun_of (graph : Graph) (start : Node) (numVertices bound : Int)
    (h1 : intOfSize graph.length = some numVertices)
    (h2 : addInt numVertices (-1) = some bound) :
    bellmanFordRun graph start =
      match bfPasses graph (sizeOfInt bound) (mapSet (initDistances graph) start 0) with
      | .error e => .error e
      | .ok distances1 =>
        match bfCheck graph distances1 with
        | .error e => .error e
        | .ok distances2 => .ok (sizeOfInt bound, distances2) := by
  unfold bellmanFordRun
  simp only [h1, h2, bfPassesCounted_eq]
  cases bfPasses graph (sizeOfInt bound) (mapSet (initDistances graph) start 0) with
  | error e => rfl
  | ok d1 => simp only [Nat.zero_add]

theorem bellmanFordResult_unfold (graph : Graph) (start : Node) :
    bellmanFordResult graph start =
      match intOfSize graph.length with
      | none => .error .overflow
      | some numVertices =>
        match addInt numVertices (-1) with
        | none => .error .overflow
        | some bound =>
          match bfPasses graph (sizeOfInt bound) (mapSet (initDistances graph) start 0) with
          | .error e => .error e
          | .ok distances1 => bfCheck graph distances1 := by
  unfold bellmanFordResult
  cases h1 : intOfSize graph.length with
  | none => simp [bellmanFordRun, h1]
  | some numVertices =>
    cases h2 : addInt numVertices (-1) with
    | none => simp [bellmanFordRun, h1, h2]
    | some bound =>
      rw [bellmanFordRun_of graph start numVertices bound h1 h2]
      simp only [h2]
      cases bfPasses graph (sizeOfInt bound) (mapSet (initDistances graph) start 0) with
      | error e => rfl
      | ok d1 =>
        simp only
        cases bfCheck graph d1 <;> rfl

/-! ## Bellman-Ford: correctness -/

theorem bellmanFordResult_eq {G : Graph} {s : Node} (hs : s ∈ keys G)
    (hov : bellmanFordResult G s ≠ .error .overflow) :
    ∃ d1, bfPasses G ((keys G).length - 1) (mapSet (initDistances G) s 0) = .ok d1 ∧
      bellmanFordResult G s = bfCheck G d1 := by
  have hpos : 0 < G.length := by
    have : 0 < (keys G).length := List.length_pos_of_mem hs
    simpa [keys] using this
  have hlen : (keys G).length = G.length := by simp [keys]
  rw [bellmanFordResult_unfold] at hov ⊢
  by_cases hfit : (G.length : Int) ≤ intMax
  · have hadd : addInt (G.length : Int) (-1) = some ((G.length : Int) + (-1)) := by
      apply addInt_of_range
      · have : intMin ≤ -1 := by decide
        omega
      · omega
    have hsize : sizeOfInt ((G.length : Int) + (-1)) = (keys G).length - 1 := by
      have h1 : (G.length : Int) ≤ 2147483647 := hfit
      unfold sizeOfInt
      rw [hlen]
      omega
    simp only [intOfSize, hfit, if_true, hadd, hsize] at hov ⊢
    cases h1 : bfPasses G ((keys G).length - 1) (mapSet (initDistances G) s 0) with
    | error e =>
      have := bfPasses_error G _ _ e h1
      subst this
      simp [h1] at hov
    | ok d1 => exact ⟨d1, rfl, by simp⟩
  · simp [intOfSize, hfit] at hov

theorem isDist_prefix {G : Graph} {s u v : Node} {w W : Int} {p : List Node}
    (hw : Walk G s u W p) (he : (v, w) ∈ adj G u) (h : IsDist G s v (W + w)) :
    IsDist G s u W := by
  refine ⟨⟨p, hw⟩, ?_⟩
  intro W' p' hw'
  have := h.2 _ _ (Walk.snoc hw' he)
  omega

/-- C2 (amended). On a finite graph in which every neighbour is a key, without a negative
cycle reachable from the start, in which no computed sum overflows and every node
reachable from the start has a minimum path weight strictly below the sentinel, from a
start node that is a key, `bellmanFord` returns normally a map with exactly the keys of
the graph; for every node the mapped value is the minimum total weight of a directed
path from the start when the node is reachable, and is the sentinel if and only if the
node is not reachable. -/
theorem bellmanFord_correct (G : Graph) (s : Node) (hdistinct : (keys G).Nodup) (hc : Closed G)
    (hs : s ∈ keys G) (hneg : ¬ NegativeCycleReachable G s)
    (hov : (bellmanFord G s).2 ≠ .error .overflow)
    (hbelow : ∀ n d, IsDist G s n d → d < intMax) :
    ∃ m : DistMap, bellmanFord G s = (G, .ok m) ∧
      SortedKeys m ∧ (∀ n, n ∈ keys m ↔ n ∈ keys G) ∧
      ∀ n ∈ keys G, ∃ d, mapFind m n = some d ∧
        (Reachable G s n → IsDist G s n d) ∧ (d = intMax ↔ ¬ Reachable G s n) := by
  obtain ⟨d1, hpasses, hres⟩ := bellmanFordResult_eq hs hov
  obtain ⟨hinv, hgood⟩ := goodAt_passes hdistinct hc (fun v W _ => IsDist G s v W)
    (fun u v w W p hw he hQ => isDist_prefix hw he hQ)
    (fun v W p _ hQ => hbelow v W hQ)
    ((keys G).length - 1) 0 _ d1 (bfInv_init hs)
    (goodAt_init _ (bfInv_init hs)) hpasses
  -- every reachable node holds its minimum path weight
  have hval : ∀ v, Reachable G s v → ∃ δ, IsDist G s v δ ∧ mapFind d1 v = some δ := by
    intro v hv
    obtain ⟨δ, p, hδ, hp, hlen⟩ := exists_isDist_short hdistinct hc hs hneg hv
    obtain ⟨y, hy, hyle⟩ := hgood v δ p hp (by omega) hδ
    have hlt := hbelow v δ hδ
    obtain ⟨p', hp'⟩ := hinv.walk v y hy (by omega)
    have := hδ.2 _ _ hp'
    have hyδ : y = δ := by omega
    subst hyδ
    exact ⟨y, hδ, hy⟩
  -- no edge relaxes any more
  have hfixed : ∀ pair ∈ G, ∀ e ∈ pair.2, EdgeRelaxed d1 d1 pair.1 e.1 e.2 := by
    intro pair hp e he x hx hfin
    have hadj : e ∈ adj G pair.1 := by rw [adj_eq_of_mem hdistinct hp]; exact he
    obtain ⟨p, hw⟩ := hinv.walk _ x hx hfin
    have hru : Reachable G s pair.1 := ⟨x, p, hw⟩
    obtain ⟨δu, hδu, hfu⟩ := hval _ hru
    rw [hx] at hfu
    simp only [Option.some.injEq] at hfu
    subst hfu
    obtain ⟨δv, hδv, hfv⟩ := hval _ (reachable_step hru hadj)
    exact ⟨δv, hfv, hδv.2 _ _ (Walk.snoc hw hadj)⟩
  have hok : bfCheck G d1 = .ok d1 := by
    rcases bfCheck_spec hdistinct hc G (fun _ hp => hp) d1 hinv with
      ⟨h1, -⟩ | h1 | ⟨-, pair, hp, e, he, h2⟩
    · exact h1
    · exfalso
      apply hov
      show bellmanFordResult G s = _
      rw [hres, h1]
    · exact absurd (hfixed pair hp e he) h2
  refine ⟨d1, ?_, sortedKeys_of_keys_eq hinv.keys_eq (initDistances_spec G).1,
    fun n => by rw [hinv.keys_eq, mem_keys_initDistances], ?_⟩
  · show (G, bellmanFordResult G s) = _
    rw [hres, hok]
  · intro n hn
    obtain ⟨d, hd⟩ := (mem_keys_iff d1 n).1 (hinv.keys_eq ▸ (mem_keys_initDistances G n).2 hn)
    have hreach : Reachable G s n → IsDist G s n d := by
      intro hr
      obtain ⟨δ, hδ, hf⟩ := hval n hr
      rw [hd] at hf
      simp only [Option.some.injEq] at hf
      exact hf ▸ hδ
    refine ⟨d, hd, hreach, ?_⟩
    constructor
    · intro hmax hr
      have := hbelow n d (hreach hr)
      omega
    · intro hnr
      by_contra hfinite
      obtain ⟨p, hp⟩ := hinv.walk n d hd hfinite
      exact hnr ⟨d, p, hp⟩

theorem noNegCycle_of_positive {G : Graph} (hdistinct : (keys G).Nodup) (hpos : PositiveWeights G)
    (s : Node) : ¬ NegativeCycleReachable G s := by
  rintro ⟨x, W, p, -, hw, hlt⟩
  have := walk_nonneg hdistinct hpos hw
  omega

theorem walk_increasing {G : Graph} (hdistinct : (keys G).Nodup)
    (hinc : ∀ pair ∈ G, ∀ e ∈ pair.2, pair.1 < e.1) {x z : Node} {W : Int} {p : List Node}
    (h : Walk G x z W p) : (p = [] ∧ z = x ∧ W = 0) ∨ x < z := by
  induction h with
  | nil => exact Or.inl ⟨rfl, rfl, rfl⟩
  | @snoc u v w W' p' _ he ih =>
    have h1 : u < v := hinc _ (adj_mem_graph hdistinct he) _ he
    right
    rcases ih with ⟨-, h2, -⟩ | h2
    · rw [← h2]; exact h1
    · exact Nat.lt_trans h2 h1

theorem noNegCycle_of_increasing {G : Graph} (hdistinct : (keys G).Nodup)
    (hinc : ∀ pair ∈ G, ∀ e ∈ pair.2, pair.1 < e.1) (s : Node) :
    ¬ NegativeCycleReachable G s := by
  rintro ⟨x, W, p, -, hw, hlt⟩
  rcases walk_increasing hdistinct hinc hw with ⟨-, -, h⟩ | h
  · omega
  · exact Nat.lt_irrefl x h

theorem walk_weight_upper_bound {G : Graph} (hdistinct : (keys G).Nodup) {M : Int}
    (hM : ∀ pair ∈ G, ∀ e ∈ pair.2, e.2 ≤ M) {s v : Node} {W : Int} {p : List Node}
    (h : Walk G s v W p) : W ≤ (p.length : Int) * M := by
  induction h with
  | nil => simp
  | snoc _ he ih =>
    have := hM _ (adj_mem_graph hdistinct he) _ he
    simp only [List.length_cons, Nat.cast_add, Nat.cast_one] at this ⊢
    nlinarith

theorem scenario5_below_sentinel : ∀ n d, IsDist scenario5 0 n d → d < intMax := by
  have hdistinct : (keys scenario5).Nodup := by decide
  have hc : Closed scenario5 := by decide
  have hs : 0 ∈ keys scenario5 := by decide
  have hinc : ∀ pair ∈ scenario5, ∀ e ∈ pair.2, pair.1 < e.1 := by decide
  have hM : ∀ pair ∈ scenario5, ∀ e ∈ pair.2, e.2 ≤ 5 := by decide
  intro n d hd
  obtain ⟨p0, hp0⟩ := hd.1
  obtain ⟨δ, p, hδ, hw, hlen⟩ :=
    exists_isDist_short hdistinct hc hs (noNegCycle_of_increasing hdistinct hinc 0) ⟨d, p0, hp0⟩
  have h1 := isDist_unique hd hδ
  have h2 := walk_weight_upper_bound hdistinct hM hw
  have h3 : (p.length : Int) ≤ 3 := by
    have : (keys scenario5).length = 3 := by decide
    omega
  have h4 : intMax = 2147483647 := rfl
  nlinarith

/-- Witness for C2 (amended): scenario 5 of the specification,
`bellman_ford(A) = {A:0, B:4, C:1}`. -/
theorem bellmanFord_correct_witness :
    (keys scenario5).Nodup ∧ Closed scenario5 ∧ 0 ∈ keys scenario5 ∧
    ¬ NegativeCycleReachable scenario5 0 ∧
    (bellmanFord scenario5 0).2 ≠ .error .overflow ∧
    (∀ n d, IsDist scenario5 0 n d → d < intMax) ∧
    bellmanFord scenario5 0 = (scenario5, .ok [(0, 0), (1, 4), (2, 1)]) ∧
    ∃ m : DistMap, bellmanFord scenario5 0 = (scenario5, .ok m) ∧
      SortedKeys m ∧ (∀ n, n ∈ keys m ↔ n ∈ keys scenario5) ∧
      ∀ n ∈ keys scenario5, ∃ d, mapFind m n = some d ∧
        (Reachable scenario5 0 n → IsDist scenario5 0 n d) ∧
        (d = intMax ↔ ¬ Reachable scenario5 0 n) :=
  ⟨by decide, by decide, by decide,
    noNegCycle_of_increasing (by decide) (by decide) 0, by decide, scenario5_below_sentinel,
    by decide,
    bellmanFord_correct scenario5 0 (by decide) (by decide) (by decide)
      (noNegCycle_of_increasing (by decide) (by decide) 0) (by decide)
      scenario5_below_sentinel⟩

/-- C2, counterexample. On A→[B(max)], B→[] every hypothesis of the claim holds (every
neighbour is a key, there is no cycle at all, no sum overflows), `bellmanFord` returns
{A: 0, B: sentinel}, and B is reachable from A: the value of B is the sentinel although
B is reachable. -/
theorem bellmanFord_correct_counterexample :
    (keys sentinelEdge).Nodup ∧ Closed sentinelEdge ∧ 0 ∈ keys sentinelEdge ∧
    ¬ NegativeCycleReachable sentinelEdge 0 ∧
    (bellmanFord sentinelEdge 0).2 ≠ .error .overflow ∧
    bellmanFord sentinelEdge 0 = (sentinelEdge, .ok [(0, 0), (1, intMax)]) ∧
    Reachable sentinelEdge 0 1 ∧
    ¬ ∃ m : DistMap, bellmanFord sentinelEdge 0 = (sentinelEdge, .ok m) ∧
      ∀ n ∈ keys sentinelEdge, ∃ d, mapFind m n = some d ∧
        (d = intMax ↔ ¬ Reachable sentinelEdge 0 n) := by
  have hreach : Reachable sentinelEdge 0 1 :=
    ⟨0 + intMax, [0], Walk.snoc Walk.nil (by decide)⟩
  refine ⟨by decide, by decide, by decide,
    noNegCycle_of_positive (by decide) (by decide) 0, by decide, by decide, hreach, ?_⟩
  rintro ⟨m, hm, hall⟩
  have hm' : m = [(0, 0), (1, intMax)] := by
    have h1 : bellmanFord sentinelEdge 0 = (sentinelEdge, .ok [(0, 0), (1, intMax)]) := by
      decide
    rw [h1] at hm
    simp only [Prod.mk.injEq, Except.ok.injEq, true_and] at hm
    exact hm.symm
  subst hm'
  obtain ⟨d, hd, hiff⟩ := hall 1 (by decide)
  have hd' : d = intMax := by
    have : mapFind [((0 : Node), (0 : Int)), (1, intMax)] 1 = some intMax := by decide
    rw [this] at hd
    simp only [Option.some.injEq] at hd
    exact hd.symm
  exact hiff.1 hd' hreach

/-! ## Bellman-Ford: detection of negative cycles -/

theorem reachable_trans {G : Graph} {s x z : Node} {W : Int} {p : List Node}
    (h : Reachable G s x) (hw : Walk G x z W p) : Reachable G s z := by
  obtain ⟨W1, p1, h1⟩ := h
  exact ⟨_, _, walk_append h1 hw⟩

/-- When no edge relaxes and every reachable node holds a distance below the sentinel, the
recorded distances decrease along a walk by at most its weight. -/
theorem fixed_point_walk {G : Graph} {s x : Node} {d : DistMap} (hdistinct : (keys G).Nodup)
    (hx : Reachable G s x)
    (hfinite : ∀ v, Reachable G s v → ∃ y, mapFind d v = some y ∧ y < intMax)
    (hfixed : ∀ pair ∈ G, ∀ e ∈ pair.2, EdgeRelaxed d d pair.1 e.1 e.2)
    {z : Node} {W : Int} {p : List Node} (hw : Walk G x z W p) :
    ∀ yx, mapFind d x = some yx → ∃ yz, mapFind d z = some yz ∧ yz ≤ yx + W := by
  induction hw with
  | nil => exact fun yx hyx => ⟨yx, hyx, by omega⟩
  | @snoc u v w W' p' hw' he ih =>
    intro yx hyx
    obtain ⟨yu, hyu, hle⟩ := ih yx hyx
    obtain ⟨yu', hyu', hlt⟩ := hfinite u (reachable_trans hx hw')
    rw [hyu] at hyu'
    simp only [Option.some.injEq] at hyu'
    subst hyu'
    obtain ⟨yv, hyv, hle'⟩ :=
      hfixed _ (adj_mem_graph hdistinct he) (v, w) he yu hyu (by omega)
    exact ⟨yv, hyv, by simp only at hle'; omega⟩

/-- C3 (amended). On a finite graph in which every neighbour is a key, in which no computed
sum overflows and every directed path from the start with fewer edges than the graph
has nodes weighs strictly less than the sentinel, from a start node that is a key: if a
directed cycle of strictly negative total weight is reachable from the start, then
`bellmanFord` fails with the NegativeCycle error and returns no distance map. -/
theorem bellmanFord_detects_negative_cycle (G : Graph) (s : Node) (hdistinct : (keys G).Nodup)
    (hc : Closed G) (hs : s ∈ keys G) (hcyc : NegativeCycleReachable G s)
    (hov : (bellmanFord G s).2 ≠ .error .overflow)
    (hbelow : ∀ v W p, Walk G s v W p → p.length < (keys G).length → W < intMax) :
    bellmanFord G s = (G, .error .negativeCycle) := by
  obtain ⟨d1, hpasses, hres⟩ := bellmanFordResult_eq hs hov
  obtain ⟨hinv, hgood⟩ := goodAt_passes hdistinct hc (fun _ _ p => p.length < (keys G).length)
    (fun u v w W p _ _ hQ => by
      simp only [List.length_cons] at hQ
      omega)
    (fun v W p hw hQ => hbelow v W p hw hQ)
    ((keys G).length - 1) 0 _ d1 (bfInv_init hs)
    (goodAt_init _ (bfInv_init hs)) hpasses
  have hfinite : ∀ v, Reachable G s v → ∃ y, mapFind d1 v = some y ∧ y < intMax := by
    intro v hv
    obtain ⟨W, p, hw⟩ := hv
    obtain ⟨W', p', hw', hlen, -⟩ := walk_shorten hc hs p.length v W p hw (le_refl _)
    obtain ⟨y, hy, hyle⟩ := hgood v W' p' hw' (by omega) hlen
    have := hbelow v W' p' hw' hlen
    exact ⟨y, hy, by omega⟩
  show (G, bellmanFordResult G s) = _
  rw [hres]
  rcases bfCheck_spec hdistinct hc G (fun _ hp => hp) d1 hinv with ⟨-, h1⟩ | h1 | ⟨h1, -⟩
  · exfalso
    obtain ⟨x, Wc, pc, hx, hw, hlt⟩ := hcyc
    obtain ⟨yx, hyx, -⟩ := hfinite x hx
    obtain ⟨yx', hyx', hle⟩ := fixed_point_walk hdistinct hx hfinite h1 hw yx hyx
    rw [hyx] at hyx'
    simp only [Option.some.injEq] at hyx'
    omega
  · exfalso
    apply hov
    show bellmanFordResult G s = _
    rw [hres, h1]
  · rw [h1]

theorem scenario6_below_sentinel :
    ∀ v W p, Walk scenario6 0 v W p → p.length < (keys scenario6).length → W < intMax := by
  intro v W p hw hlen
  have hM : ∀ pair ∈ scenario6, ∀ e ∈ pair.2, e.2 ≤ 1 := by decide
  have h2 := walk_weight_upper_bound (by decide) hM hw
  have h3 : (keys scenario6).length = 3 := by decide
  have h4 : intMax = 2147483647 := rfl
  omega

theorem scenario6_negative_cycle : NegativeCycleReachable scenario6 0 :=
  ⟨0, 0 + 1 + (-1) + (-1), [2, 1, 0], reachable_start scenario6 0,
    Walk.snoc (Walk.snoc (Walk.snoc Walk.nil (by decide)) (by decide)) (by decide), by decide⟩

/-- Witness for C3 (amended): scenario 6 of the specification, A→[B(1)], B→[C(-1)],
C→[A(-1)] with start A raises NegativeCycle. -/
theorem bellmanFord_detects_negative_cycle_witness :
    (keys scenario6).Nodup ∧ Closed scenario6 ∧ 0 ∈ keys scenario6 ∧
    NegativeCycleReachable scenario6 0 ∧
    (bellmanFord scenario6 0).2 ≠ .error .overflow ∧
    (∀ v W p, Walk scenario6 0 v W p → p.length < (keys scenario6).length → W < intMax) ∧
    bellmanFord scenario6 0 = (scenario6, .error .negativeCycle) :=
  ⟨by decide, by decide, by decide, scenario6_negative_cycle, by decide,
    scenario6_below_sentinel,
    bellmanFord_detects_negative_cycle scenario6 0 (by decide) (by decide) (by decide)
      scenario6_negative_cycle (by decide) scenario6_below_sentinel⟩

/-- C3, counterexample. On A→[B(max)], B→[B(-1)] every hypothesis of the claim holds (every
neighbour is a key, no sum overflows, the negative self-loop at B is reachable from A),
yet `bellmanFord` returns {A: 0, B: sentinel} and raises nothing. -/
theorem bellmanFord_detects_negative_cycle_counterexample :
    (keys sentinelCycle).Nodup ∧ Closed sentinelCycle ∧ 0 ∈ keys sentinelCycle ∧
    NegativeCycleReachable sentinelCycle 0 ∧
    (bellmanFord sentinelCycle 0).2 ≠ .error .overflow ∧
    bellmanFord sentinelCycle 0 = (sentinelCycle, .ok [(0, 0), (1, intMax)]) ∧
    bellmanFord sentinelCycle 0 ≠ (sentinelCycle, .error .negativeCycle) :=
  ⟨by decide, by decide, by decide,
    ⟨1, 0 + (-1), [1], ⟨0 + intMax, [0], Walk.snoc Walk.nil (by decide)⟩,
      Walk.snoc Walk.nil (by decide), by decide⟩,
    by decide, by decide, by decide⟩

/-! ## Dijkstra: termination on every graph -/

theorem dval_nonneg {d : DistMap} (h : InRange d) (n : Node) : 0 ≤ dval d n := by
  unfold dval
  cases hf : mapFind d n with
  | none => simp
  | some x =>
    have := (h n x hf).1
    simp only
    omega

theorem potential_nonneg {d : DistMap} (h : InRange d) (U : List Node) : 0 ≤ potential U d := by
  unfold potential
  apply List.sum_nonneg
  intro x hx
  obtain ⟨n, -, rfl⟩ := List.mem_map.1 hx
  exact dval_nonneg h n

theorem potential_le {d d' : DistMap} (U : List Node) (h : ∀ n, dval d' n ≤ dval d n) :
    potential U d' ≤ potential U d := by
  unfold potential
  exact List.sum_le_sum (fun n _ => h n)

theorem potential_lt {d d' : DistMap} (U : List Node) (h : ∀ n, dval d' n ≤ dval d n)
    {k : Node} (hk : k ∈ U) (hlt : dval d' k < dval d k) :
    potential U d' + 1 ≤ potential U d := by
  unfold potential
  induction U with
  | nil => cases hk
  | cons a U ih =>
    simp only [List.map_cons, List.sum_cons]
    have hrest : (U.map (dval d')).sum ≤ (U.map (dval d)).sum :=
      List.sum_le_sum (fun n _ => h n)
    rcases List.mem_cons.1 hk with h1 | h1
    · subst h1
      omega
    · have := ih h1
      have := h a
      omega

theorem dval_mapSet (d : DistMap) (k : Node) (x : Int) (n : Node) :
    dval (mapSet d k x) n = if n = k then x - intMin else dval d n := by
  unfold dval
  rw [mapFind_mapSet]
  by_cases h : n = k <;> simp [h]

theorem inRange_mapSet {d : DistMap} (h : InRange d) (k : Node) (x : Int)
    (hx : intMin ≤ x ∧ x ≤ intMax) : InRange (mapSet d k x) := by
  intro n y hy
  rw [mapFind_mapSet] at hy
  split at hy
  · simp only [Option.some.injEq] at hy
    exact hy ▸ hx
  · exact h n y hy

/-- A read `distances[k]` keeps the values in range, does not raise the potential, returns
a value in range and leaves an entry for `k` with that value. -/
theorem mapIndex_dist {d : DistMap} (h : InRange d) (k : Node) :
    InRange (mapIndex d k 0).2 ∧ (∀ n, dval (mapIndex d k 0).2 n ≤ dval d n) ∧
      mapFind (mapIndex d k 0).2 k = some (mapIndex d k 0).1 ∧
      intMin ≤ (mapIndex d k 0).1 ∧ (mapIndex d k 0).1 ≤ intMax := by
  unfold mapIndex
  cases hf : mapFind d k with
  | some x =>
    simp only
    exact ⟨h, fun n => le_refl _, hf, (h k x hf).1, (h k x hf).2⟩
  | none =>
    simp only
    have h0 : intMin ≤ (0 : Int) ∧ (0 : Int) ≤ intMax := by decide
    refine ⟨inRange_mapSet h k 0 h0, ?_, by rw [mapFind_mapSet]; simp, h0.1, h0.2⟩
    intro n
    rw [dval_mapSet]
    by_cases hn : n = k
    · subst hn
      simp only [if_true, dval, hf]
      decide
    · simp [hn]

/-- The inner loop of `dijkstra`, when it does not overflow, keeps the values in range and
does not raise the measure `queue length + potential`. -/
theorem dijkstraRelax_measure (P : PriorityQueue) (U : List Node) (cd : Int)
    (es : List (Node × Int)) (d : DistMap) (q : List Entry) (r : DistMap × List Entry)
    (hes : ∀ e ∈ es, e.1 ∈ U) (h : InRange d)
    (hrun : dijkstraRelax P cd es (d, q) = .ok r) :
    InRange r.1 ∧ (r.2.length : Int) + potential U r.1 ≤ (q.length : Int) + potential U d := by
  induction es generalizing d q with
  | nil =>
    simp only [dijkstraRelax, Except.ok.injEq] at hrun
    subst hrun
    exact ⟨h, le_refl _⟩
  | cons e es ih =>
    obtain ⟨v, w⟩ := e
    have hes' : ∀ e ∈ es, e.1 ∈ U := fun e he => hes e (List.mem_cons_of_mem _ he)
    have hv : v ∈ U := hes (v, w) (List.mem_cons_self _ _)
    by_cases hw : w = 0
    · subst hw
      simp only [dijkstraRelax, ne_eq, not_true_eq_false, if_false] at hrun
      exact ih d q hes' h hrun
    · simp only [dijkstraRelax, ne_eq, hw, not_false_eq_true, if_true] at hrun
      cases hadd : addInt cd w with
      | none => simp [hadd] at hrun
      | some nd =>
        obtain ⟨-, hnd1, hnd2⟩ := addInt_eq_some hadd
        obtain ⟨hr1, hle1, hf1, -, -⟩ := mapIndex_dist h v
        simp only [hadd] at hrun
        split at hrun
        · rename_i hlt
          have hr2 := inRange_mapSet hr1 v nd ⟨hnd1, hnd2⟩
          obtain ⟨hr', hm'⟩ := ih _ _ hes' hr2 hrun
          refine ⟨hr', ?_⟩
          have hpot : potential U (mapSet (mapIndex d v 0).2 v nd) + 1
              ≤ potential U (mapIndex d v 0).2 := by
            apply potential_lt U _ hv
            · rw [dval_mapSet]
              simp only [if_true, dval, hf1]
              omega
            · intro n
              rw [dval_mapSet]
              by_cases hn : n = v
              · subst hn
                simp only [if_true, dval, hf1]
                omega
              · simp [hn]
          have hpot1 := potential_le U hle1
          rw [length_push] at hm'
          push_cast at hm'
          omega
        · obtain ⟨hr', hm'⟩ := ih _ _ hes' hr1 hrun
          have hpot1 := potential_le U hle1
          exact ⟨hr', by omega⟩

theorem mapFind_mem {V : Type} {m : NodeMap V} {k : Node} {v : V} (h : mapFind m k = some v) :
    (k, v) ∈ m := by
  induction m with
  | nil => simp [mapFind] at h
  | cons p rest ih =>
    obtain ⟨a, b⟩ := p
    by_cases hk : k = a
    · subst hk
      simp only [mapFind, if_true, Option.some.injEq] at h
      subst h
      exact List.mem_cons_self _ _
    · simp only [mapFind, hk, if_false] at h
      exact List.mem_cons_of_mem _ (ih h)

theorem adj_subset_neighbours (G : Graph) (u : Node) : ∀ e ∈ adj G u, e.1 ∈ neighbours G := by
  intro e he
  unfold adj at he
  cases hf : mapFind G u with
  | none => simp [hf] at he
  | some es =>
    simp only [hf, Option.getD_some] at he
    unfold neighbours
    rw [List.mem_flatMap]
    exact ⟨(u, es), mapFind_mem hf, List.mem_map_of_mem Prod.fst he⟩

theorem mapIndex_graph_adj (g : Graph) (u : Node) :
    (mapIndex g u []).1 = adj g u ∧ ∀ n, adj (mapIndex g u []).2 n = adj g n := by
  unfold mapIndex adj
  cases hf : mapFind g u with
  | some es => simp
  | none =>
    simp only [Option.getD_none, true_and]
    intro n
    rw [mapFind_mapSet]
    by_cases hn : n = u
    · subst hn; simp [hf]
    · simp [hn]

theorem dijkstraStep_unfold (P : PriorityQueue) (st : DijkstraState) :
    dijkstraStep P st
      = if (P.top st.queue).1 > (mapIndex st.distances (P.top st.queue).2 0).1 then
          (st.graph, .ok ((mapIndex st.distances (P.top st.queue).2 0).2, P.pop st.queue))
        else
          ((mapIndex st.graph (P.top st.queue).2 []).2,
            dijkstraRelax P (P.top st.queue).1 (mapIndex st.graph (P.top st.queue).2 []).1
              ((mapIndex st.distances (P.top st.queue).2 0).2, P.pop st.queue)) := rfl

/-- One iteration of the loop of `dijkstra`, when it does not overflow, keeps the values in
range and the edges of the graph, and lowers the measure `queue length + potential`. -/
theorem dijkstraStep_measure (P : PriorityQueue) (G : Graph) (st : DijkstraState)
    (hq : st.queue ≠ []) (hadj : ∀ n, adj st.graph n = adj G n) (h : InRange st.distances)
    (g : Graph) (d : DistMap) (q : List Entry) (hrun : dijkstraStep P st = (g, .ok (d, q))) :
    (∀ n, adj g n = adj G n) ∧ InRange d ∧
      (q.length : Int) + potential (neighbours G) d + 1
        ≤ (st.queue.length : Int) + potential (neighbours G) st.distances := by
  have hlen := length_pop P st.queue hq
  obtain ⟨hr1, hle1, -, -, -⟩ := mapIndex_dist h (P.top st.queue).2
  have hpot1 := potential_le (neighbours G) hle1
  obtain ⟨hes, hadj'⟩ := mapIndex_graph_adj st.graph (P.top st.queue).2
  rw [dijkstraStep_unfold] at hrun
  split at hrun
  · simp only [Prod.mk.injEq, Except.ok.injEq] at hrun
    obtain ⟨rfl, rfl, rfl⟩ := hrun
    exact ⟨hadj, hr1, by omega⟩
  · simp only [Prod.mk.injEq] at hrun
    obtain ⟨rfl, hrelax⟩ := hrun
    obtain ⟨hr', hm'⟩ := dijkstraRelax_measure P (neighbours G) _ _ _ _ (d, q) (by
      intro e he
      rw [hes, hadj] at he
      exact adj_subset_neighbours G _ e he) hr1 hrelax
    refine ⟨fun n => (hadj' n).trans (hadj n), hr', ?_⟩
    simp only at hm'
    omega

theorem dijkstraLoop_terminates (P : PriorityQueue) (G : Graph) (fuel : Nat)
    (st : DijkstraState) (hadj : ∀ n, adj st.graph n = adj G n) (h : InRange st.distances)
    (hfuel : (st.queue.length : Int) + potential (neighbours G) st.distances ≤ fuel) :
    (dijkstraLoop P fuel st).2 ≠ .error .outOfFuel := by
  induction fuel generalizing st with
  | zero =>
    have h0 := potential_nonneg h (neighbours G)
    have hq : st.queue = [] := by
      have : st.queue.length = 0 := by
        simp only [Nat.cast_zero] at hfuel
        omega
      exact List.length_eq_zero.1 this
    simp [dijkstraLoop, hq]
  | succ fuel ih =>
    by_cases hq : st.queue = []
    · simp [dijkstraLoop, hq]
    · simp only [dijkstraLoop, hq, if_false]
      rcases hstep : dijkstraStep P st with ⟨g, r⟩
      cases r with
      | error e =>
        simp only
        intro he
        simp only [Except.error.injEq] at he
        subst he
        -- the step itself never reports an exhausted fuel
        have : ∀ es (s : DistMap × List Entry) cd,
            dijkstraRelax P cd es s ≠ .error .outOfFuel := by
          intro es
          induction es with
          | nil => intro s cd; simp [dijkstraRelax]
          | cons e es ih' =>
            intro s cd
            obtain ⟨v, w⟩ := e
            obtain ⟨d, q⟩ := s
            simp only [dijkstraRelax]
            split
            · cases addInt cd w with
              | none => simp
              | some nd =>
                simp only
                split <;> exact ih' _ _
            · exact ih' _ _
        rw [dijkstraStep_unfold] at hstep
        split at hstep
        · simp at hstep
        · simp only [Prod.mk.injEq] at hstep
          exact this _ _ _ hstep.2
      | ok r =>
        obtain ⟨d, q⟩ := r
        simp only
        obtain ⟨hadj', hr', hm'⟩ := dijkstraStep_measure P G st hq hadj h g d q hstep
        exact ih _ hadj' hr' (by
          simp only
          push_cast at hfuel
          omega)

theorem inRange_initDistances (G : Graph) : InRange (initDistances G) := by
  unfold initDistances
  have hgen : ∀ (L : Graph) (acc : DistMap), InRange acc →
      InRange (L.foldl (fun d pair => mapSet d pair.1 intMax) acc) := by
    intro L
    induction L with
    | nil => exact fun acc h => h
    | cons p L ih =>
      intro acc h
      exact ih _ (inRange_mapSet h p.1 intMax (by decide))
  exact hgen G [] (by intro n x hx; simp [mapFind] at hx)

/-- On every graph and from every start node the loop of `dijkstra` stops: with enough fuel
the run returns a map or ends in an overflow. -/
theorem dijkstra_terminates (P : PriorityQueue) (G : Graph) (s : Node) :
    ∃ N, ∀ fuel, N ≤ fuel → (dijkstra P fuel G s).2 ≠ .error .outOfFuel := by
  have hr : InRange (dijkstraInit P G s).distances :=
    inRange_mapSet (inRange_initDistances G) s 0 (by decide)
  have h0 := potential_nonneg hr (neighbours G)
  refine ⟨(((dijkstraInit P G s).queue.length : Int)
    + potential (neighbours G) (dijkstraInit P G s).distances).toNat, ?_⟩
  intro fuel hfuel
  exact dijkstraLoop_terminates P G fuel _ (fun _ => rfl) hr (by omega)

/-- C9. `dijkstra` treats zero-weight edges as absent: on every graph and from every start
node the run stops, and it returns the same distance map (step by step, the same
outcome) as on the graph with the same keys and every edge of weight 0 deleted from
every adjacency list; on A→[B(0)], B→[] the result is {A: 0, B: sentinel}. -/
theorem dijkstra_ignores_zero_edges :
    (∀ (P : PriorityQueue) (G : Graph) (s : Node),
      keys (dropZeroEdges G) = keys G ∧
      (∀ fuel, (dijkstra P fuel (dropZeroEdges G) s).2 = (dijkstra P fuel G s).2) ∧
      ∃ N, ∀ fuel, N ≤ fuel → (dijkstra P fuel G s).2 ≠ .error .outOfFuel) ∧
    dijkstra listQueue 2 scenario4 0 = (scenario4, .ok [(0, 0), (1, intMax)]) ∧
    dijkstra listQueue 2 (dropZeroEdges scenario4) 0
      = (dropZeroEdges scenario4, .ok [(0, 0), (1, intMax)]) := by
  refine ⟨?_, by decide, by decide⟩
  intro P G s
  refine ⟨keys_dropZeroEdges G, ?_, dijkstra_terminates P G s⟩
  intro fuel
  have := dijkstraLoop_dropZero P fuel G (mapSet (initDistances G) s 0) (P.push [] (0, s))
  simp only [dijkstra, dijkstraInit, initDistances_dropZeroEdges]
  rw [this]

/-! ## Bellman-Ford: the empty graph and the single-node graph -/

theorem bfPasses_nil (n : Nat) (d : DistMap) : bfPasses [] n d = .ok d := by
  induction n with
  | zero => rfl
  | succ n ih => simp only [bfPasses, bfPass]; exact ih

theorem bellmanFordResult_of (graph : Graph) (start : Node) (numVertices bound : Int)
    (h1 : intOfSize graph.length = some numVertices)
    (h2 : addInt numVertices (-1) = some bound) :
    bellmanFordResult graph start =
      match bfPasses graph (sizeOfInt bound) (mapSet (initDistances graph) start 0) with
      | .error e => .error e
      | .ok distances1 => bfCheck graph distances1 := by
  rw [bellmanFordResult_unfold]
  simp only [h1, h2]

/-- C11. On the empty graph the bound `numVertices - 1 = -1` of the pass loop, converted to
`size_t` for the comparison with `i`, is 2^64 - 1: `bellmanFord` leaves the pass loop only
when `i` has reached 18446744073709551615, and the map it holds then is not empty, it
has the key `start` that `distances[start] = 0` created. -/
theorem bellmanFord_empty_passes (start : Node) :
    bellmanFordRun [] start = .ok (18446744073709551615, [(start, 0)]) := by
  have h1 : intOfSize ([] : Graph).length = some 0 := by decide
  have h2 : addInt 0 (-1) = some (-1) := by decide
  have h3 : sizeOfInt (-1) = 18446744073709551615 := by decide
  rw [bellmanFordRun_of [] start 0 (-1) h1 h2, h3, bfPasses_nil]
  rfl

theorem bfCheckEdges_self (s : Node) (es : List (Node × Int))
    (hes : ∀ e ∈ es, e.1 = s ∧ 0 ≤ e.2 ∧ e.2 ≤ intMax) :
    bfCheckEdges s es [(s, 0)] = .ok [(s, 0)] := by
  induction es with
  | nil => rfl
  | cons e es ih =>
    obtain ⟨v, w⟩ := e
    obtain ⟨hv, hw0, hw1⟩ := hes (v, w) (List.mem_cons_self _ _)
    simp only at hv hw0 hw1
    subst hv
    have hidx : mapIndex ([(v, 0)] : DistMap) v 0 = (0, [(v, 0)]) := by
      simp [mapIndex, mapFind]
    have hadd : addInt 0 w = some w := by
      unfold addInt
      rw [if_pos]
      · simp
      · unfold intMin; constructor <;> omega
    have hne : (0 : Int) ≠ intMax := by decide
    simp only [bfCheckEdges, hidx, hadd, ne_eq, hne, not_false_eq_true, if_true]
    rw [if_neg (by omega)]
    exact ih (fun e he => hes e (List.mem_cons_of_mem _ he))

/-- C12 (amended). On a graph whose only key is `s` and whose edge list holds only
self-loops `s → s` of non-negative weight, `bellmanFord` performs no relaxation pass (the
loop variable `i` is still 0 when the pass loop is left), the final pass does not raise,
and the returned map is exactly `{s: 0}`. -/
theorem bellmanFord_single_node (s : Node) (es : List (Node × Int))
    (hes : ∀ e ∈ es, e.1 = s ∧ 0 ≤ e.2 ∧ e.2 ≤ intMax) :
    bellmanFordRun [(s, es)] s = .ok (0, [(s, 0)]) ∧
    bellmanFord [(s, es)] s = ([(s, es)], .ok [(s, 0)]) := by
  have h1 : intOfSize ([(s, es)] : Graph).length = some 1 := rfl
  have h2 : addInt 1 (-1) = some 0 := by decide
  have h3 : sizeOfInt 0 = 0 := by decide
  have hinit : mapSet (initDistances [(s, es)]) s 0 = [(s, 0)] := by
    simp [initDistances, mapSet]
  constructor
  · rw [bellmanFordRun_of _ s 1 0 h1 h2, h3, hinit]
    simp only [bfPasses, bfCheck, bfCheckEdges_self s es hes]
  · unfold bellmanFord
    rw [bellmanFordResult_of _ s 1 0 h1 h2, h3, hinit]
    simp only [bfPasses, bfCheck, bfCheckEdges_self s es hes]

/-- Witness for C12 (amended): the single node 0 with a self-loop of weight 3. -/
theorem bellmanFord_single_node_witness :
    (∀ e ∈ [((0 : Node), (3 : Int))], e.1 = 0 ∧ 0 ≤ e.2 ∧ e.2 ≤ intMax) ∧
    (bellmanFordRun [(0, [(0, 3)])] 0 = .ok (0, [(0, 0)]) ∧
    bellmanFord [(0, [(0, 3)])] 0 = ([(0, [(0, 3)])], .ok [(0, 0)])) :=
  ⟨by decide, bellmanFord_single_node 0 [(0, 3)] (by decide)⟩

/-- C12, counterexample. On the graph whose only key is 0, with the single self-loop
0 → 0 of weight -1, no relaxation pass runs, but the final pass finds `0 + (-1) < 0` and
raises. -/
theorem bellmanFord_single_node_counterexample :
    keys ([(0, [(0, -1)])] : Graph) = [0] ∧ (∀ e ∈ adj [(0, [(0, -1)])] 0, e.1 = 0) ∧
    bellmanFordRun [(0, [(0, -1)])] 0 = .error .negativeCycle ∧
    bellmanFord [(0, [(0, -1)])] 0 = ([(0, [(0, -1)])], .error .negativeCycle) := by
  decide

/-! ## A start node without outgoing edges -/

/-- C13. From a start node that is a key of the graph with an empty edge list,
`breadthFirstSearch` and `depthFirstSearch` each return the one-element sequence
`[value s]` (after one iteration of the loop), whatever else the graph contains. -/
theorem traversal_from_sink {T : Type} (value : Node → T) (G : Graph) (s : Node)
    (hsink : mapFind G s = some []) (fuel : Nat) (hfuel : 0 < fuel) :
    breadthFirstSearch value fuel G s = (G, .ok [value s]) ∧
    depthFirstSearch value fuel G s = (G, .ok [value s]) := by
  obtain ⟨n, rfl⟩ : ∃ n, fuel = n + 1 := ⟨fuel - 1, by omega⟩
  constructor
  · cases n <;>
      simp [breadthFirstSearch, bfsLoop, bfsInit, bfsStep, mapIndex, hsink, bfsNeighbors]
  · cases n <;>
      simp [depthFirstSearch, dfsLoop, dfsInit, dfsStep, mapIndex, hsink, dfsNeighbors]

/-- Witness for C13: node 3 of scenario 1 has no outgoing edges. -/
theorem traversal_from_sink_witness :
    mapFind scenario1 3 = some [] ∧ 0 < 1 ∧
    (breadthFirstSearch id 1 scenario1 3 = (scenario1, .ok [3]) ∧
    depthFirstSearch id 1 scenario1 3 = (scenario1, .ok [3])) :=
  ⟨by decide, by decide, traversal_from_sink id scenario1 3 (by decide) 1 (by decide)⟩

theorem push_singleton (P : PriorityQueue) (e : Entry) : P.push [] e = [e] :=
  List.perm_singleton.1 (P.push_perm [] e)

theorem top_singleton (P : PriorityQueue) (e : Entry) : P.top [e] = e := by
  have h := top_mem P [e] (by simp)
  simpa using h

theorem pop_singleton (P : PriorityQueue) (e : Entry) : P.pop [e] = [] := by
  have h := length_pop P [e] (by simp)
  simp only [List.length_singleton] at h
  exact List.length_eq_zero.1 (by omega)

theorem dijkstra_sink (P : PriorityQueue) (G : Graph) (s : Node)
    (hsink : mapFind G s = some []) (fuel : Nat) (hfuel : 0 < fuel) :
    dijkstra P fuel G s = (G, .ok (mapSet (initDistances G) s 0)) := by
  obtain ⟨n, rfl⟩ : ∃ n, fuel = n + 1 := ⟨fuel - 1, by omega⟩
  have hkey : s ∈ keys G := (mem_keys_iff G s).2 ⟨[], hsink⟩
  have hfind : mapFind (mapSet (initDistances G) s 0) s = some 0 := by
    rw [mapFind_mapSet, if_pos rfl]
  have hadj : adj G s = [] := by unfold adj; rw [hsink]; rfl
  have hstep : dijkstraStep P (dijkstraInit P G s)
      = (G, .ok (mapSet (initDistances G) s 0, [])) := by
    rw [dijkstraStep_eq P (dijkstraInit P G s) 0 s 0
      (by simp only [dijkstraInit, push_singleton, top_singleton]) hfind hkey]
    simp only [dijkstraInit, push_singleton, pop_singleton, hadj, dijkstraRelax]
    simp
  have hq : (dijkstraInit P G s).queue ≠ [] := by
    simp [dijkstraInit, push_singleton]
  unfold dijkstra
  simp only [dijkstraLoop, hq, if_false, hstep]
  cases n <;> simp [dijkstraLoop]

theorem bfRelaxEdges_sentinel (node : Node) (es : List (Node × Int)) (d : DistMap)
    (h : mapFind d node = some intMax) : bfRelaxEdges node es d = .ok d := by
  induction es with
  | nil => rfl
  | cons e es ih =>
    obtain ⟨v, w⟩ := e
    simp only [bfRelaxEdges, mapIndex_of_find 0 h, ne_eq, not_true_eq_false, if_false]
    exact ih

theorem bfCheckEdges_sentinel (node : Node) (es : List (Node × Int)) (d : DistMap)
    (h : mapFind d node = some intMax) : bfCheckEdges node es d = .ok d := by
  induction es with
  | nil => rfl
  | cons e es ih =>
    obtain ⟨v, w⟩ := e
    simp only [bfCheckEdges, mapIndex_of_find 0 h, ne_eq, not_true_eq_false, if_false]
    exact ih

theorem bfPass_sink (G : Graph) (s : Node) (L : Graph)
    (hL : ∀ pair ∈ L, pair.1 ∈ keys G ∧ (pair.1 = s → pair.2 = [])) :
    bfPass L (mapSet (initDistances G) s 0) = .ok (mapSet (initDistances G) s 0) ∧
    bfCheck L (mapSet (initDistances G) s 0) = .ok (mapSet (initDistances G) s 0) := by
  induction L with
  | nil => exact ⟨rfl, rfl⟩
  | cons pair L ih =>
    obtain ⟨node, es⟩ := pair
    obtain ⟨hk, hsrc⟩ := hL (node, es) (List.mem_cons_self _ _)
    obtain ⟨ih1, ih2⟩ := ih (fun p hp => hL p (List.mem_cons_of_mem _ hp))
    simp only at hk hsrc
    by_cases hn : node = s
    · rw [hsrc hn]
      simp only [bfPass, bfRelaxEdges, bfCheck, bfCheckEdges]
      exact ⟨ih1, ih2⟩
    · have hfind : mapFind (mapSet (initDistances G) s 0) node = some intMax := by
        rw [mapFind_mapSet, if_neg hn, (initDistances_spec G).2, if_pos hk]
      simp only [bfPass, bfCheck, bfRelaxEdges_sentinel node es _ hfind,
        bfCheckEdges_sentinel node es _ hfind]
      exact ⟨ih1, ih2⟩

theorem bfPasses_sink (G : Graph) (s : Node)
    (hG : ∀ pair ∈ G, pair.1 ∈ keys G ∧ (pair.1 = s → pair.2 = [])) (n : Nat) :
    bfPasses G n (mapSet (initDistances G) s 0) = .ok (mapSet (initDistances G) s 0) := by
  induction n with
  | zero => rfl
  | succ n ih =>
    simp only [bfPasses, (bfPass_sink G s G hG).1]
    exact ih

theorem bellmanFord_sink (G : Graph) (s : Node) (hdistinct : (keys G).Nodup)
    (hsink : mapFind G s = some []) (hsize : (G.length : Int) ≤ intMax) :
    bellmanFord G s = (G, .ok (mapSet (initDistances G) s 0)) := by
  have hG : ∀ pair ∈ G, pair.1 ∈ keys G ∧ (pair.1 = s → pair.2 = []) := by
    intro pair hp
    refine ⟨List.mem_map_of_mem Prod.fst hp, ?_⟩
    intro h
    rw [← adj_eq_of_mem hdistinct hp, h]
    unfold adj; rw [hsink]; rfl
  have h1 : intOfSize G.length = some (G.length : Int) := by
    unfold intOfSize; rw [if_pos hsize]
  have h2 : addInt (G.length : Int) (-1) = some ((G.length : Int) + -1) := by
    unfold addInt
    rw [if_pos]
    unfold intMin
    constructor <;> omega
  unfold bellmanFord
  rw [bellmanFordResult_of G s _ _ h1 h2, bfPasses_sink G s hG]
  simp only [(bfPass_sink G s G hG).2]

/-- C14. From a start node `s` that is a key of the graph with an empty edge list,
`dijkstra` (with any priority queue, after one iteration) and `bellmanFord` (for a node
count that fits in `int`) each return, without raising, the map that sends `s` to 0 and
every other key of the graph to the sentinel, whatever weights and cycles the rest of
the graph contains. -/
theorem shortest_paths_from_sink (P : PriorityQueue) (G : Graph) (s : Node)
    (hdistinct : (keys G).Nodup) (hsink : mapFind G s = some [])
    (hsize : (G.length : Int) ≤ intMax) (fuel : Nat) (hfuel : 0 < fuel) :
    ∃ m : DistMap, dijkstra P fuel G s = (G, .ok m) ∧ bellmanFord G s = (G, .ok m) ∧
      (∀ n, n ∈ keys m ↔ n ∈ keys G) ∧ mapFind m s = some 0 ∧
      ∀ n ∈ keys G, n ≠ s → mapFind m n = some intMax := by
  have hkey : s ∈ keys G := (mem_keys_iff G s).2 ⟨[], hsink⟩
  refine ⟨mapSet (initDistances G) s 0, dijkstra_sink P G s hsink fuel hfuel,
    bellmanFord_sink G s hdistinct hsink hsize, ?_, ?_, ?_⟩
  · intro n
    rw [mem_keys_mapSet, mem_keys_initDistances]
    constructor
    · rintro (h | h)
      · rw [h]; exact hkey
      · exact h
    · exact Or.inr
  · rw [mapFind_mapSet, if_pos rfl]
  · intro n hn hne
    rw [mapFind_mapSet, if_neg hne, (initDistances_spec G).2, if_pos hn]

/-- Witness for C14: nodes 0 and 1 lie on a cycle of weight -2 and node 2 has no
outgoing edge. -/
theorem shortest_paths_from_sink_witness :
    (keys ([(0, [(1, 1)]), (1, [(0, -3), (2, 1)]), (2, [])] : Graph)).Nodup ∧
    mapFind ([(0, [(1, 1)]), (1, [(0, -3), (2, 1)]), (2, [])] : Graph) 2 = some [] ∧
    ∃ m : DistMap,
      dijkstra listQueue 1 [(0, [(1, 1)]), (1, [(0, -3), (2, 1)]), (2, [])] 2
        = ([(0, [(1, 1)]), (1, [(0, -3), (2, 1)]), (2, [])], .ok m) ∧
      bellmanFord [(0, [(1, 1)]), (1, [(0, -3), (2, 1)]), (2, [])] 2
        = ([(0, [(1, 1)]), (1, [(0, -3), (2, 1)]), (2, [])], .ok m) ∧
      (∀ n, n ∈ keys m ↔
        n ∈ keys ([(0, [(1, 1)]), (1, [(0, -3), (2, 1)]), (2, [])] : Graph)) ∧
      mapFind m 2 = some 0 ∧
      ∀ n ∈ keys ([(0, [(1, 1)]), (1, [(0, -3), (2, 1)]), (2, [])] : Graph), n ≠ 2 →
        mapFind m n = some intMax :=
  ⟨by decide, by decide,
    shortest_paths_from_sink listQueue [(0, [(1, 1)]), (1, [(0, -3), (2, 1)]), (2, [])] 2
      (by decide) (by decide) (by decide) 1 (by decide)⟩

/-! ## A neighbour that is not a key -/

theorem dijkstra_one_step (P : PriorityQueue) (G g : Graph) (s : Node) (d : DistMap)
    (hstep : dijkstraStep P (dijkstraInit P G s) = (g, .ok (d, [])))
    (fuel : Nat) (hfuel : 0 < fuel) : dijkstra P fuel G s = (g, .ok d) := by
  obtain ⟨n, rfl⟩ : ∃ n, fuel = n + 1 := ⟨fuel - 1, by omega⟩
  have hq : (dijkstraInit P G s).queue ≠ [] := by
    simp [dijkstraInit, push_singleton]
  unfold dijkstra
  simp only [dijkstraLoop, hq, if_false, hstep]
  cases n <;> simp [dijkstraLoop]

theorem addInt_zero_left (w : Int) (h0 : 0 ≤ w) (h1 : w ≤ intMax) : addInt 0 w = some w := by
  unfold addInt
  rw [if_pos]
  · simp
  · unfold intMin; constructor <;> omega

/-- C19. On the graph whose only key is `A`, with the edge list `[(B, w)]`, `w > 0`, where
`B` is not a key, `dijkstra` (with any priority queue, after one iteration) and
`bellmanFord` each return the map `{A: 0, B: 0}`: the first read of the entry of `B`
creates it with the value 0, and `w < 0` is false. -/
theorem non_key_neighbour_at_zero (P : PriorityQueue) (A B : Node) (w : Int) (hAB : A ≠ B)
    (hw : 0 < w) (hmax : w ≤ intMax) (fuel : Nat) (hfuel : 0 < fuel) :
    ∃ m : DistMap, dijkstra P fuel [(A, [(B, w)])] A = ([(A, [(B, w)])], .ok m) ∧
      bellmanFord [(A, [(B, w)])] A = ([(A, [(B, w)])], .ok m) ∧
      (∀ n, n ∈ keys m ↔ n = A ∨ n = B) ∧ mapFind m A = some 0 ∧ mapFind m B = some 0 := by
  have hinit : mapSet (initDistances [(A, [(B, w)])]) A 0 = [(A, 0)] := by
    simp [initDistances, mapSet]
  have hadd := addInt_zero_left w (by omega) hmax
  have hw0 : w ≠ 0 := by omega
  have hnlt : ¬ w < 0 := by omega
  have hidxA : mapIndex ([(A, 0)] : DistMap) A 0 = (0, [(A, 0)]) := by
    simp [mapIndex, mapFind]
  have hidxB : mapIndex ([(A, 0)] : DistMap) B 0 = (0, mapSet [(A, 0)] B 0) := by
    simp [mapIndex, mapFind, hAB.symm]
  have hne : (0 : Int) ≠ intMax := by decide
  refine ⟨mapSet [(A, 0)] B 0, ?_, ?_, ?_, ?_, ?_⟩
  · apply dijkstra_one_step P _ _ A _ _ fuel hfuel
    rw [dijkstraStep_eq P (dijkstraInit P [(A, [(B, w)])] A) 0 A 0
      (by simp only [dijkstraInit, push_singleton, top_singleton])
      (by simp only [dijkstraInit, hinit]; simp [mapFind])
      (by simp [dijkstraInit, keys])]
    have hadj : adj [(A, [(B, w)])] A = [(B, w)] := by simp [adj, mapFind]
    simp only [dijkstraInit, push_singleton, pop_singleton, hadj, hinit, dijkstraRelax,
      ne_eq, hw0, not_false_eq_true, if_true, hadd, hidxB, hnlt, if_false]
    simp
  · have h1 : intOfSize ([(A, [(B, w)])] : Graph).length = some 1 := rfl
    have h2 : addInt 1 (-1) = some 0 := by decide
    have h3 : sizeOfInt 0 = 0 := by decide
    unfold bellmanFord
    rw [bellmanFordResult_of _ A 1 0 h1 h2, h3, hinit]
    simp only [bfPasses, bfCheck, bfCheckEdges, hidxA, ne_eq, hne, not_false_eq_true,
      if_true, hadd, hidxB, hnlt, if_false]
  · intro n
    rw [mem_keys_mapSet]
    simp [keys, or_comm]
  · rw [mapFind_mapSet, if_neg hAB]
    simp [mapFind]
  · rw [mapFind_mapSet, if_pos rfl]

/-- Witness for C19: `A = 0`, `B = 1`, `w = 5`. -/
theorem non_key_neighbour_at_zero_witness :
    ∃ m : DistMap, dijkstra listQueue 1 [(0, [(1, 5)])] 0 = ([(0, [(1, 5)])], .ok m) ∧
      bellmanFord [(0, [(1, 5)])] 0 = ([(0, [(1, 5)])], .ok m) ∧
      (∀ n, n ∈ keys m ↔ n = 0 ∨ n = 1) ∧ mapFind m 0 = some 0 ∧ mapFind m 1 = some 0 :=
  non_key_neighbour_at_zero listQueue 0 1 5 (by decide) (by decide) (by decide) 1 (by decide)

/-! ## The sentinel is never stored as a computed distance -/

theorem sentinelKept_refl (d : DistMap) : SentinelKept d d := fun _ h => h

theorem sentinelKept_trans {d d1 d2 : DistMap} (h1 : SentinelKept d d1)
    (h2 : SentinelKept d1 d2) : SentinelKept d d2 := fun n h => h1 n (h2 n h)

theorem sentinelKept_mapSet (d : DistMap) (k : Node) (x : Int) (hx : x ≠ intMax) :
    SentinelKept d (mapSet d k x) := by
  intro n h
  rw [mapFind_mapSet] at h
  split at h
  · simp only [Option.some.injEq] at h
    exact absurd h hx
  · exact h

theorem sentinelKept_mapIndex (d : DistMap) (k : Node) : SentinelKept d (mapIndex d k 0).2 := by
  unfold mapIndex
  cases hf : mapFind d k with
  | some x => exact sentinelKept_refl d
  | none => exact sentinelKept_mapSet d k 0 (by decide)

theorem dijkstraRelax_sentinelKept (P : PriorityQueue) (cd : Int) (es : List (Node × Int))
    (d : DistMap) (q : List Entry) (r : DistMap × List Entry) (h : InRange d)
    (hrun : dijkstraRelax P cd es (d, q) = .ok r) : SentinelKept d r.1 := by
  induction es generalizing d q with
  | nil =>
    simp only [dijkstraRelax, Except.ok.injEq] at hrun
    subst hrun
    exact sentinelKept_refl d
  | cons e es ih =>
    obtain ⟨v, w⟩ := e
    by_cases hw : w = 0
    · subst hw
      simp only [dijkstraRelax, ne_eq, not_true_eq_false, if_false] at hrun
      exact ih d q h hrun
    · simp only [dijkstraRelax, ne_eq, hw, not_false_eq_true, if_true] at hrun
      cases hadd : addInt cd w with
      | none => simp [hadd] at hrun
      | some nd =>
        obtain ⟨-, hnd1, hnd2⟩ := addInt_eq_some hadd
        obtain ⟨hr1, -, -, -, hold⟩ := mapIndex_dist h v
        have hk1 := sentinelKept_mapIndex d v
        simp only [hadd] at hrun
        split at hrun
        · rename_i hlt
          have hr2 := inRange_mapSet hr1 v nd ⟨hnd1, hnd2⟩
          have hk2 := sentinelKept_mapSet (mapIndex d v 0).2 v nd (by omega)
          exact sentinelKept_trans (sentinelKept_trans hk1 hk2) (ih _ _ hr2 hrun)
        · exact sentinelKept_trans hk1 (ih _ _ hr1 hrun)

theorem dijkstraLoop_sentinelKept (P : PriorityQueue) (fuel : Nat) (st : DijkstraState)
    (h : InRange st.distances) (g : Graph) (m : DistMap)
    (hrun : dijkstraLoop P fuel st = (g, .ok m)) : SentinelKept st.distances m := by
  induction fuel generalizing st with
  | zero =>
    simp only [dijkstraLoop, Prod.mk.injEq] at hrun
    split at hrun
    · simp only [Except.ok.injEq] at hrun
      rw [← hrun.2]; exact sentinelKept_refl _
    · simp at hrun
  | succ fuel ih =>
    by_cases hq : st.queue = []
    · simp only [dijkstraLoop, hq, if_true, Prod.mk.injEq, Except.ok.injEq] at hrun
      rw [← hrun.2]; exact sentinelKept_refl _
    · simp only [dijkstraLoop, hq, if_false] at hrun
      rcases hstep : dijkstraStep P st with ⟨g1, r⟩
      cases r with
      | error e => simp [hstep] at hrun
      | ok r =>
        obtain ⟨d, q⟩ := r
        simp only [hstep] at hrun
        obtain ⟨-, hr', -⟩ := dijkstraStep_measure P st.graph st hq (fun _ => rfl) h g1 d q hstep
        have hk := ih { graph := g1, distances := d, queue := q } hr' hrun
        refine sentinelKept_trans ?_ hk
        have hk1 := sentinelKept_mapIndex st.distances (P.top st.queue).2
        obtain ⟨hr1, -, -, -, -⟩ := mapIndex_dist h (P.top st.queue).2
        rw [dijkstraStep_unfold] at hstep
        split at hstep
        · simp only [Prod.mk.injEq, Except.ok.injEq] at hstep
          obtain ⟨-, rfl, -⟩ := hstep
          exact hk1
        · simp only [Prod.mk.injEq] at hstep
          exact sentinelKept_trans hk1
            (dijkstraRelax_sentinelKept P _ _ _ _ (d, q) hr1 hstep.2)

theorem bfRelaxEdges_sentinelKept (node : Node) (es : List (Node × Int)) (d d' : DistMap)
    (h : InRange d) (hrun : bfRelaxEdges node es d = .ok d') :
    InRange d' ∧ SentinelKept d d' := by
  induction es generalizing d with
  | nil =>
    simp only [bfRelaxEdges, Except.ok.injEq] at hrun
    subst hrun
    exact ⟨h, sentinelKept_refl d⟩
  | cons e es ih =>
    obtain ⟨v, w⟩ := e
    obtain ⟨hr1, -, -, -, -⟩ := mapIndex_dist h node
    have hk1 := sentinelKept_mapIndex d node
    simp only [bfRelaxEdges] at hrun
    split at hrun
    · cases hadd : addInt (mapIndex d node 0).1 w with
      | none => simp [hadd] at hrun
      | some sum =>
        obtain ⟨-, hs1, hs2⟩ := addInt_eq_some hadd
        obtain ⟨hr2, -, -, -, hold⟩ := mapIndex_dist hr1 v
        have hk2 := sentinelKept_mapIndex (mapIndex d node 0).2 v
        simp only [hadd] at hrun
        split at hrun
        · rename_i hlt
          have hr3 := inRange_mapSet hr2 v sum ⟨hs1, hs2⟩
          have hk3 := sentinelKept_mapSet (mapIndex (mapIndex d node 0).2 v 0).2 v sum
            (by omega)
          obtain ⟨hr', hk'⟩ := ih _ hr3 hrun
          exact ⟨hr', sentinelKept_trans (sentinelKept_trans (sentinelKept_trans hk1 hk2) hk3)
            hk'⟩
        · obtain ⟨hr', hk'⟩ := ih _ hr2 hrun
          exact ⟨hr', sentinelKept_trans (sentinelKept_trans hk1 hk2) hk'⟩
    · obtain ⟨hr', hk'⟩ := ih _ hr1 hrun
      exact ⟨hr', sentinelKept_trans hk1 hk'⟩

theorem bfPass_sentinelKept (L : Graph) (d d' : DistMap) (h : InRange d)
    (hrun : bfPass L d = .ok d') : InRange d' ∧ SentinelKept d d' := by
  induction L generalizing d with
  | nil =>
    simp only [bfPass, Except.ok.injEq] at hrun
    subst hrun
    exact ⟨h, sentinelKept_refl d⟩
  | cons pair L ih =>
    obtain ⟨node, es⟩ := pair
    simp only [bfPass] at hrun
    cases h1 : bfRelaxEdges node es d with
    | error e => simp [h1] at hrun
    | ok d1 =>
      simp only [h1] at hrun
      obtain ⟨hr1, hk1⟩ := bfRelaxEdges_sentinelKept node es d d1 h h1
      obtain ⟨hr', hk'⟩ := ih d1 hr1 hrun
      exact ⟨hr', sentinelKept_trans hk1 hk'⟩

theorem bfPasses_sentinelKept (G : Graph) (n : Nat) (d d' : DistMap) (h : InRange d)
    (hrun : bfPasses G n d = .ok d') : InRange d' ∧ SentinelKept d d' := by
  induction n generalizing d with
  | zero =>
    simp only [bfPasses, Except.ok.injEq] at hrun
    subst hrun
    exact ⟨h, sentinelKept_refl d⟩
  | succ n ih =>
    simp only [bfPasses] at hrun
    cases h1 : bfPass G d with
    | error e => simp [h1] at hrun
    | ok d1 =>
      simp only [h1] at hrun
      obtain ⟨hr1, hk1⟩ := bfPass_sentinelKept G d d1 h h1
      obtain ⟨hr', hk'⟩ := ih d1 hr1 hrun
      exact ⟨hr', sentinelKept_trans hk1 hk'⟩

theorem bfCheckEdges_sentinelKept (node : Node) (es : List (Node × Int)) (d d' : DistMap)
    (hrun : bfCheckEdges node es d = .ok d') : SentinelKept d d' := by
  induction es generalizing d with
  | nil =>
    simp only [bfCheckEdges, Except.ok.injEq] at hrun
    subst hrun
    exact sentinelKept_refl d
  | cons e es ih =>
    obtain ⟨v, w⟩ := e
    have hk1 := sentinelKept_mapIndex d node
    simp only [bfCheckEdges] at hrun
    split at hrun
    · cases hadd : addInt (mapIndex d node 0).1 w with
      | none => simp [hadd] at hrun
      | some sum =>
        have hk2 := sentinelKept_mapIndex (mapIndex d node 0).2 v
        simp only [hadd] at hrun
        split at hrun
        · simp at hrun
        · exact sentinelKept_trans (sentinelKept_trans hk1 hk2) (ih _ hrun)
    · exact sentinelKept_trans hk1 (ih _ hrun)

theorem bfCheck_sentinelKept (L : Graph) (d d' : DistMap)
    (hrun : bfCheck L d = .ok d') : SentinelKept d d' := by
  induction L generalizing d with
  | nil =>
    simp only [bfCheck, Except.ok.injEq] at hrun
    subst hrun
    exact sentinelKept_refl d
  | cons pair L ih =>
    obtain ⟨node, es⟩ := pair
    simp only [bfCheck] at hrun
    cases h1 : bfCheckEdges node es d with
    | error e => simp [h1] at hrun
    | ok d1 =>
      simp only [h1] at hrun
      exact sentinelKept_trans (bfCheckEdges_sentinelKept node es d d1 h1) (ih d1 hrun)

theorem bellmanFordResult_sentinelKept (G : Graph) (s : Node) (m : DistMap)
    (hrun : bellmanFordResult G s = .ok m) :
    SentinelKept (mapSet (initDistances G) s 0) m := by
  have hr : InRange (mapSet (initDistances G) s 0) :=
    inRange_mapSet (inRange_initDistances G) s 0 (by decide)
  cases h1 : intOfSize G.length with
  | none => simp [bellmanFordResult_unfold, h1] at hrun
  | some nv =>
    cases h2 : addInt nv (-1) with
    | none => simp [bellmanFordResult_unfold, h1, h2] at hrun
    | some bound =>
      rw [bellmanFordResult_of G s nv bound h1 h2] at hrun
      cases h3 : bfPasses G (sizeOfInt bound) (mapSet (initDistances G) s 0) with
      | error e => simp [h3] at hrun
      | ok d1 =>
        simp only [h3] at hrun
        exact sentinelKept_trans (bfPasses_sentinelKept G _ _ d1 hr h3).2
          (bfCheck_sentinelKept G d1 m hrun)

theorem initial_sentinel (G : Graph) (s n : Node)
    (h : mapFind (mapSet (initDistances G) s 0) n = some intMax) : n ∈ keys G ∧ n ≠ s := by
  rw [mapFind_mapSet] at h
  by_cases hn : n = s
  · rw [if_pos hn] at h
    exact absurd h (by decide)
  · rw [if_neg hn, (initDistances_spec G).2] at h
    by_cases hk : n ∈ keys G
    · exact ⟨hk, hn⟩
    · rw [if_neg hk] at h
      exact absurd h (by simp)

theorem sentinel_edge_distances (G : Graph) (A B : Node) (hAB : A ≠ B)
    (hB : mapFind G B = some []) :
    mapFind (mapSet (initDistances G) A 0) A = some 0 ∧
    mapFind (mapSet (initDistances G) A 0) B = some intMax := by
  have hkB : B ∈ keys G := (mem_keys_iff G B).2 ⟨[], hB⟩
  constructor
  · rw [mapFind_mapSet, if_pos rfl]
  · rw [mapFind_mapSet, if_neg (fun h => hAB h.symm), (initDistances_spec G).2, if_pos hkB]

theorem dijkstra_sentinel_edge (P : PriorityQueue) (G : Graph) (A B : Node) (hAB : A ≠ B)
    (hA : mapFind G A = some [(B, intMax)]) (hB : mapFind G B = some [])
    (fuel : Nat) (hfuel : 0 < fuel) :
    dijkstra P fuel G A = (G, .ok (mapSet (initDistances G) A 0)) := by
  obtain ⟨hfA, hfB⟩ := sentinel_edge_distances G A B hAB hB
  have hkA : A ∈ keys G := (mem_keys_iff G A).2 ⟨_, hA⟩
  have hadj : adj G A = [(B, intMax)] := by unfold adj; rw [hA]; rfl
  have hadd : addInt 0 intMax = some intMax := by decide
  have hw0 : intMax ≠ 0 := by decide
  apply dijkstra_one_step P _ _ A _ _ fuel hfuel
  rw [dijkstraStep_eq P (dijkstraInit P G A) 0 A 0
    (by simp only [dijkstraInit, push_singleton, top_singleton]) hfA hkA]
  simp only [dijkstraInit, push_singleton, pop_singleton, hadj, dijkstraRelax,
    ne_eq, hw0, not_false_eq_true, if_true, hadd, mapIndex_of_find 0 hfB, lt_self_iff_false,
    if_false]

theorem bfPass_sentinel_edge (G : Graph) (A B : Node) (hAB : A ≠ B)
    (hA : mapFind G A = some [(B, intMax)]) (hB : mapFind G B = some [])
    (L : Graph)
    (hL : ∀ pair ∈ L, (pair.1 = A ∧ pair.2 = [(B, intMax)]) ∨ (pair.1 = B ∧ pair.2 = [])) :
    bfPass L (mapSet (initDistances G) A 0) = .ok (mapSet (initDistances G) A 0) ∧
    bfCheck L (mapSet (initDistances G) A 0) = .ok (mapSet (initDistances G) A 0) := by
  obtain ⟨hfA, hfB⟩ := sentinel_edge_distances G A B hAB hB
  have hadd : addInt 0 intMax = some intMax := by decide
  have hne : (0 : Int) ≠ intMax := by decide
  induction L with
  | nil => exact ⟨rfl, rfl⟩
  | cons pair L ih =>
    obtain ⟨node, es⟩ := pair
    obtain ⟨ih1, ih2⟩ := ih (fun p hp => hL p (List.mem_cons_of_mem _ hp))
    rcases hL (node, es) (List.mem_cons_self _ _) with ⟨h1, h2⟩ | ⟨h1, h2⟩
    · simp only at h1 h2
      subst h1 h2
      simp only [bfPass, bfCheck, bfRelaxEdges, bfCheckEdges, mapIndex_of_find 0 hfA,
        mapIndex_of_find 0 hfB, ne_eq, hne, not_false_eq_true, if_true, hadd,
        lt_self_iff_false, if_false]
      exact ⟨ih1, ih2⟩
    · simp only at h1 h2
      subst h1 h2
      simp only [bfPass, bfCheck, bfRelaxEdges, bfCheckEdges]
      exact ⟨ih1, ih2⟩

theorem bfPasses_fixed (G : Graph) (d : DistMap) (h : bfPass G d = .ok d) (n : Nat) :
    bfPasses G n d = .ok d := by
  induction n with
  | zero => rfl
  | succ n ih =>
    simp only [bfPasses, h]
    exact ih

theorem bellmanFord_sentinel_edge (G : Graph) (A B : Node) (hAB : A ≠ B)
    (hdistinct : (keys G).Nodup)
    (hA : mapFind G A = some [(B, intMax)]) (hB : mapFind G B = some [])
    (hkeys : ∀ n ∈ keys G, n = A ∨ n = B) :
    bellmanFord G A = (G, .ok (mapSet (initDistances G) A 0)) := by
  have hG : ∀ pair ∈ G,
      (pair.1 = A ∧ pair.2 = [(B, intMax)]) ∨ (pair.1 = B ∧ pair.2 = []) := by
    intro pair hp
    have hadj := adj_eq_of_mem hdistinct hp
    rcases hkeys pair.1 (List.mem_map_of_mem Prod.fst hp) with h | h
    · refine Or.inl ⟨h, ?_⟩
      rw [← hadj, h]; unfold adj; rw [hA]; rfl
    · refine Or.inr ⟨h, ?_⟩
      rw [← hadj, h]; unfold adj; rw [hB]; rfl
  have hlen : G.length ≤ 2 := by
    have hsub : keys G ⊆ [A, B] := by
      intro n hn
      rcases hkeys n hn with h | h <;> simp [h]
    have := (List.subperm_of_subset hdistinct hsub).length_le
    simpa [keys] using this
  have h1 : intOfSize G.length = some (G.length : Int) := by
    unfold intOfSize; rw [if_pos]
    unfold intMax; omega
  have h2 : addInt (G.length : Int) (-1) = some ((G.length : Int) + -1) := by
    unfold addInt
    rw [if_pos]
    unfold intMin intMax
    constructor <;> omega
  obtain ⟨hp1, hp2⟩ := bfPass_sentinel_edge G A B hAB hA hB G hG
  unfold bellmanFord
  rw [bellmanFordResult_of G A _ _ h1 h2, bfPasses_fixed G _ hp1]
  simp only [hp2]

/-- C20. A recorded distance is only ever replaced by a strictly smaller one, so a sentinel
in the map returned by `dijkstra` or `bellmanFord` is the initial entry of a key other
than the start, never a computed distance; and on every graph with the two keys `A`,
`B`, the single edge `A → B` of weight `INT_MAX` and no edge out of `B`, both functions
return `{A: 0, B: sentinel}` although `B` is reachable from `A`. -/
theorem sentinel_ambiguous :
    (∀ (P : PriorityQueue) (fuel : Nat) (G g : Graph) (s : Node) (m : DistMap),
      dijkstra P fuel G s = (g, .ok m) →
      ∀ n, mapFind m n = some intMax → n ∈ keys G ∧ n ≠ s) ∧
    (∀ (G : Graph) (s : Node) (m : DistMap), bellmanFord G s = (G, .ok m) →
      ∀ n, mapFind m n = some intMax → n ∈ keys G ∧ n ≠ s) ∧
    (∀ (P : PriorityQueue) (G : Graph) (A B : Node), A ≠ B → (keys G).Nodup →
      mapFind G A = some [(B, intMax)] → mapFind G B = some [] →
      (∀ n ∈ keys G, n = A ∨ n = B) → ∀ fuel, 0 < fuel →
      Reachable G A B ∧
      ∃ m : DistMap, dijkstra P fuel G A = (G, .ok m) ∧ bellmanFord G A = (G, .ok m) ∧
        (∀ n, n ∈ keys m ↔ n = A ∨ n = B) ∧
        mapFind m A = some 0 ∧ mapFind m B = some intMax) := by
  refine ⟨?_, ?_, ?_⟩
  · intro P fuel G g s m hrun n hn
    have hr : InRange (dijkstraInit P G s).distances :=
      inRange_mapSet (inRange_initDistances G) s 0 (by decide)
    exact initial_sentinel G s n (dijkstraLoop_sentinelKept P fuel _ hr g m hrun n hn)
  · intro G s m hrun n hn
    have hres : bellmanFordResult G s = .ok m := by
      unfold bellmanFord at hrun
      simp only [Prod.mk.injEq, true_and] at hrun
      exact hrun
    exact initial_sentinel G s n (bellmanFordResult_sentinelKept G s m hres n hn)
  · intro P G A B hAB hdistinct hA hB hkeys fuel hfuel
    obtain ⟨hfA, hfB⟩ := sentinel_edge_distances G A B hAB hB
    have hkA : A ∈ keys G := (mem_keys_iff G A).2 ⟨_, hA⟩
    have hkB : B ∈ keys G := (mem_keys_iff G B).2 ⟨_, hB⟩
    have hadj : (B, intMax) ∈ adj G A := by unfold adj; rw [hA]; simp
    refine ⟨⟨_, _, Walk.snoc Walk.nil hadj⟩, mapSet (initDistances G) A 0,
      dijkstra_sentinel_edge P G A B hAB hA hB fuel hfuel,
      bellmanFord_sentinel_edge G A B hAB hdistinct hA hB hkeys, ?_, hfA, hfB⟩
    intro n
    rw [mem_keys_mapSet, mem_keys_initDistances]
    constructor
    · rintro (h | h)
      · exact Or.inl h
      · exact hkeys n h
    · rintro (h | h)
      · exact Or.inl h
      · rw [h]; exact Or.inr hkB

/-- Witness for C20: the graph 0 → [1 (INT_MAX)], 1 → []. -/
theorem sentinel_ambiguous_witness :
    Reachable sentinelEdge 0 1 ∧
    ∃ m : DistMap, dijkstra listQueue 1 sentinelEdge 0 = (sentinelEdge, .ok m) ∧
      bellmanFord sentinelEdge 0 = (sentinelEdge, .ok m) ∧
      (∀ n, n ∈ keys m ↔ n = 0 ∨ n = 1) ∧
      mapFind m 0 = some 0 ∧ mapFind m 1 = some intMax :=
  sentinel_ambiguous.2.2 listQueue sentinelEdge 0 1 (by decide) (by decide) (by decide)
    (by decide) (by decide) 1 (by decide)

/-! ## Depth-first search: the push filter -/

theorem dfsNeighborsUnfiltered_eq (es : List (Node × Int)) (stack : List Node) :
    dfsNeighborsUnfiltered es stack = (es.map Prod.fst).reverse ++ stack := by
  induction es generalizing stack with
  | nil => simp [dfsNeighborsUnfiltered]
  | cons e es ih =>
    obtain ⟨n, w⟩ := e
    simp only [dfsNeighborsUnfiltered, List.map_cons, List.reverse_cons, List.append_assoc,
      List.singleton_append]
    exact ih _

theorem dfsStepUnfiltered_skip {T : Type} (value : Node → T) (g : Graph)
    (visited rest : List Node) (result : List T) (c : Node) (hc : c ∈ visited) :
    dfsStepUnfiltered value
        { graph := g, visited := visited, stack := c :: rest, result := result }
      = { graph := g, visited := visited, stack := rest, result := result } := by
  simp [dfsStepUnfiltered, hc]

theorem dfsStepUnfiltered_visit {T : Type} (value : Node → T) (G : Graph)
    (visited rest : List Node) (result : List T) (c : Node) (hc : c ∉ visited)
    (hk : c ∈ keys G) :
    dfsStepUnfiltered value
        { graph := G, visited := visited, stack := c :: rest, result := result }
      = { graph := G, visited := c :: visited,
          stack := ((adj G c).map Prod.fst).reverse ++ rest,
          result := result ++ [value c] } := by
  simp only [dfsStepUnfiltered, hc, if_false, mapIndex_graph hk, dfsNeighborsUnfiltered_eq]

theorem dfsLoopUnfiltered_succ {T : Type} (value : Node → T) (fuel : Nat) (st : DfsState T)
    (h : st.stack ≠ []) :
    dfsLoopUnfiltered value (fuel + 1) st
      = dfsLoopUnfiltered value fuel (dfsStepUnfiltered value st) := by
  simp [dfsLoopUnfiltered, h]

theorem dfsLoopUnfiltered_empty {T : Type} (value : Node → T) (fuel : Nat) (g : Graph)
    (visited : List Node) (result : List T) :
    dfsLoopUnfiltered value fuel
        { graph := g, visited := visited, stack := [], result := result }
      = (g, .ok result) := by
  cases fuel <;> simp [dfsLoopUnfiltered]

/-- The unfiltered loop simulates a run of `visitAll` over the top segment of its stack. -/
theorem visitAll_sim_unfiltered {T : Type} (value : Node → T) {G : Graph}
    (visit : Node → List Node × List Node → Option (List Node × List Node))
    (hsim : ∀ u visited out st', u ∈ keys G → u ∉ visited →
      visit u (visited, out) = some st' → ∀ rest, ∃ k, ∀ fuel,
        dfsLoopUnfiltered value (k + fuel)
            { graph := G, visited := visited, stack := u :: rest, result := out.map value }
          = dfsLoopUnfiltered value fuel
            { graph := G, visited := st'.1, stack := rest, result := st'.2.map value })
    (vs : List Node) (st st' : List Node × List Node) (hk : ∀ v ∈ vs, v ∈ keys G)
    (h : visitAll visit vs st = some st') (rest : List Node) :
    ∃ k, ∀ fuel,
      dfsLoopUnfiltered value (k + fuel)
          { graph := G, visited := st.1, stack := vs ++ rest, result := st.2.map value }
        = dfsLoopUnfiltered value fuel
          { graph := G, visited := st'.1, stack := rest, result := st'.2.map value } := by
  induction vs generalizing st with
  | nil =>
    simp only [visitAll, Option.some.injEq] at h
    subst h
    exact ⟨0, fun fuel => by simp⟩
  | cons v vs ih =>
    obtain ⟨visited, out⟩ := st
    have hk' : ∀ x ∈ vs, x ∈ keys G := fun x hx => hk x (List.mem_cons_of_mem v hx)
    by_cases hv : v ∈ visited
    · simp only [visitAll, hv, if_true] at h
      obtain ⟨k, hk2⟩ := ih _ hk' h
      refine ⟨k + 1, fun fuel => ?_⟩
      have e : k + 1 + fuel = (k + fuel) + 1 := by omega
      rw [e, dfsLoopUnfiltered_succ _ _ _ (by simp)]
      simp only [List.cons_append]
      rw [dfsStepUnfiltered_skip value G visited (vs ++ rest) _ v hv]
      exact hk2 fuel
    · simp only [visitAll, hv, if_false] at h
      cases h1 : visit v (visited, out) with
      | none => simp [h1] at h
      | some st1 =>
        simp only [h1] at h
        obtain ⟨k1, hk1⟩ := hsim v visited out st1 (hk v (by simp)) hv h1 (vs ++ rest)
        obtain ⟨k2, hk2⟩ := ih _ hk' h
        refine ⟨k1 + k2, fun fuel => ?_⟩
        have e : k1 + k2 + fuel = k1 + (k2 + fuel) := by omega
        rw [e]
        simp only [List.cons_append]
        rw [hk1 (k2 + fuel)]
        exact hk2 fuel

/-- The unfiltered loop simulates a call of the recursive depth-first search on its stack
top: the entries pushed although visited are skipped when they are popped. -/
theorem dfsVisit_sim_unfiltered {T : Type} (value : Node → T) {G : Graph} (hc : Closed G)
    (depth : Nat) :
    ∀ u visited out st', u ∈ keys G → u ∉ visited →
      dfsVisit G depth u (visited, out) = some st' → ∀ rest, ∃ k, ∀ fuel,
        dfsLoopUnfiltered value (k + fuel)
            { graph := G, visited := visited, stack := u :: rest, result := out.map value }
          = dfsLoopUnfiltered value fuel
            { graph := G, visited := st'.1, stack := rest, result := st'.2.map value } := by
  induction depth with
  | zero =>
    intro u visited out st' _ _ h
    simp [dfsVisit] at h
  | succ depth ih =>
    intro u visited out st' hu hnv h rest
    simp only [dfsVisit] at h
    have hkeys : ∀ v ∈ ((adj G u).map Prod.fst).reverse, v ∈ keys G := by
      intro v hv
      simp only [List.mem_reverse, List.mem_map] at hv
      obtain ⟨e, he, rfl⟩ := hv
      exact hc u hu e he
    obtain ⟨k, hk⟩ := visitAll_sim_unfiltered value _ ih _ _ _ hkeys h rest
    refine ⟨k + 1, fun fuel => ?_⟩
    have e : k + 1 + fuel = (k + fuel) + 1 := by omega
    rw [e, dfsLoopUnfiltered_succ _ _ _ (by simp),
      dfsStepUnfiltered_visit value G visited rest _ u hnv hu]
    have := hk fuel
    simp only [List.map_append, List.map_cons, List.map_nil] at this
    exact this

/-- C17. On a graph in which every neighbour is a key, from a start node that is a key,
the depth-first search of the code (a neighbour is pushed only if it is not visited at
push time) and the depth-first search of the specification (every neighbour is pushed,
in adjacency-list order) both terminate and return the same sequence. -/
theorem dfs_push_filter_unobservable {T : Type} (value : Node → T) (G : Graph) (s : Node)
    (hc : Closed G) (hs : s ∈ keys G) :
    ∃ order : List Node,
      (∃ N, ∀ fuel, N ≤ fuel →
        depthFirstSearch value fuel G s = (G, .ok (order.map value))) ∧
      (∃ N, ∀ fuel, N ≤ fuel →
        depthFirstSearchUnfiltered value fuel G s = (G, .ok (order.map value))) := by
  obtain ⟨order, ⟨N, hN⟩, D, hD⟩ := dfs_iterative_recursive hc hs
  refine ⟨order, ⟨N, fun fuel hfuel => ?_⟩, ?_⟩
  · rw [depthFirstSearch_eq_map, hN fuel hfuel]
    rfl
  · have hrec := hD D (le_refl _)
    unfold dfsRecursive at hrec
    cases hv : dfsVisit G D s ([], []) with
    | none => simp [hv] at hrec
    | some st' =>
      simp only [hv, Option.map_some', Option.some.injEq] at hrec
      obtain ⟨k, hk⟩ := dfsVisit_sim_unfiltered value hc D s [] [] st' hs (by simp) hv []
      refine ⟨k, fun fuel hfuel => ?_⟩
      obtain ⟨j, rfl⟩ := Nat.exists_eq_add_of_le hfuel
      have := hk j
      rw [dfsLoopUnfiltered_empty, hrec] at this
      exact this

/-- Witness for C17: on scenario 1 the unfiltered search pushes node 3 twice and both
searches return `[0, 2, 3, 1]`. -/
theorem dfs_push_filter_unobservable_witness :
    Closed scenario1 ∧ 0 ∈ keys scenario1 ∧
    depthFirstSearch id 6 scenario1 0 = (scenario1, .ok [0, 2, 3, 1]) ∧
    depthFirstSearchUnfiltered id 6 scenario1 0 = (scenario1, .ok [0, 2, 3, 1]) ∧
    ∃ order : List Node,
      (∃ N, ∀ fuel, N ≤ fuel →
        depthFirstSearch id fuel scenario1 0 = (scenario1, .ok (order.map id))) ∧
      (∃ N, ∀ fuel, N ≤ fuel →
        depthFirstSearchUnfiltered id fuel scenario1 0 = (scenario1, .ok (order.map id))) :=
  ⟨by decide, by decide, by decide, by decide,
    dfs_push_filter_unobservable id scenario1 0 (by decide) (by decide)⟩

/-! ## Dijkstra: the returned map is a fixed point of relaxation -/

/-- A run of the loop that returns a map ends in a state with an empty queue that
satisfies the invariant. -/
theorem dijkstraLoop_final (P : PriorityQueue) {G : Graph} {s : Node} (hc : Closed G)
    (fuel : Nat) (st : DijkstraState) (h : DijkstraInv G s st) (g : Graph) (m : DistMap)
    (hrun : dijkstraLoop P fuel st = (g, .ok m)) :
    ∃ fin : DijkstraState, DijkstraInv G s fin ∧ fin.queue = [] ∧ fin.distances = m := by
  induction fuel generalizing st with
  | zero =>
    by_cases hq : st.queue = []
    · simp only [dijkstraLoop, hq, if_true, Prod.mk.injEq, Except.ok.injEq] at hrun
      exact ⟨st, h, hq, hrun.2⟩
    · simp [dijkstraLoop, hq] at hrun
  | succ fuel ih =>
    by_cases hq : st.queue = []
    · simp only [dijkstraLoop, hq, if_true, Prod.mk.injEq, Except.ok.injEq] at hrun
      exact ⟨st, h, hq, hrun.2⟩
    · simp only [dijkstraLoop, hq, if_false] at hrun
      rcases hstep : dijkstraStep P st with ⟨g1, r⟩
      cases r with
      | error e => simp [hstep] at hrun
      | ok r =>
        obtain ⟨d, q⟩ := r
        simp only [hstep] at hrun
        exact ih _ (dijkstraStep_inv P hc h hq g1 d q hstep).1 hrun

/-- From a start node that is not a key the loop of `dijkstra` runs once: the read
`graph.graph[start]` creates an empty edge list and nothing is relaxed. -/
theorem dijkstra_start_not_key (P : PriorityQueue) (G : Graph) (s : Node)
    (hs : s ∉ keys G) (fuel : Nat) (hfuel : 0 < fuel) :
    dijkstra P fuel G s = (mapSet G s [], .ok (mapSet (initDistances G) s 0)) := by
  have hnone : mapFind G s = none := by
    cases hf : mapFind G s with
    | none => rfl
    | some es => exact absurd ((mem_keys_iff G s).2 ⟨es, hf⟩) hs
  have hfind : mapFind (mapSet (initDistances G) s 0) s = some 0 := by
    rw [mapFind_mapSet, if_pos rfl]
  apply dijkstra_one_step P _ _ s _ _ fuel hfuel
  rw [dijkstraStep_unfold]
  simp only [dijkstraInit, push_singleton, top_singleton, pop_singleton,
    mapIndex_of_find 0 hfind, gt_iff_lt, lt_self_iff_false, if_false]
  simp [mapIndex, hnone, dijkstraRelax]

/-- C18. On a graph in which every neighbour is a key, with arbitrary integer weights,
the loop of `dijkstra` stops (with enough fuel the run ends in a map or in an overflow),
and every map `m` it returns is a fixed point of relaxation: for every edge `(u, v, w)` of
the graph with `w ≠ 0` and `m(u)` different from the sentinel, `m(v) ≤ m(u) + w`. -/
theorem dijkstra_fixed_point (P : PriorityQueue) (G : Graph) (s : Node) (hc : Closed G) :
    (∃ N, ∀ fuel, N ≤ fuel → (dijkstra P fuel G s).2 ≠ .error .outOfFuel) ∧
    ∀ fuel g m, dijkstra P fuel G s = (g, .ok m) →
      ∀ u x, mapFind m u = some x → x ≠ intMax → ∀ e ∈ adj G u, e.2 ≠ 0 →
        ∃ y, mapFind m e.1 = some y ∧ y ≤ x + e.2 := by
  refine ⟨dijkstra_terminates P G s, ?_⟩
  intro fuel g m hrun u x hx hfin e he hw
  by_cases hs : s ∈ keys G
  · obtain ⟨fin, hinv, hq, hm⟩ :=
      dijkstraLoop_final P hc fuel _ (dijkstraInv_init P hs) g m hrun
    subst hm
    rcases hinv.relaxed u x hx hfin with hmem | hrel
    · rw [hq] at hmem
      cases hmem
    · exact hrel e he hw
  · have hfuel : 0 < fuel := by
      rcases Nat.eq_zero_or_pos fuel with h0 | h0
      · subst h0
        simp [dijkstra, dijkstraLoop, dijkstraInit, push_singleton] at hrun
      · exact h0
    rw [dijkstra_start_not_key P G s hs fuel hfuel] at hrun
    simp only [Prod.mk.injEq, Except.ok.injEq] at hrun
    obtain ⟨-, rfl⟩ := hrun
    rw [mapFind_mapSet] at hx
    by_cases hu : u = s
    · subst hu
      have hnone : mapFind G u = none := by
        cases hf : mapFind G u with
        | none => rfl
        | some es => exact absurd ((mem_keys_iff G u).2 ⟨es, hf⟩) hs
      unfold adj at he
      rw [hnone] at he
      simp at he
    · rw [if_neg hu, (initDistances_spec G).2] at hx
      by_cases hk : u ∈ keys G
      · rw [if_pos hk, Option.some.injEq] at hx
        exact absurd hx.symm hfin
      · rw [if_neg hk] at hx
        simp at hx

/-- Witness for C18: scenario 5 of the specification, which has a negative weight; the
run returns `{A: 0, B: 4, C: 1}`. -/
theorem dijkstra_fixed_point_witness :
    Closed scenario5 ∧
    dijkstra listQueue 5 scenario5 0 = (scenario5, .ok [(0, 0), (1, 4), (2, 1)]) ∧
    ((∃ N, ∀ fuel, N ≤ fuel → (dijkstra listQueue fuel scenario5 0).2 ≠ .error .outOfFuel) ∧
    ∀ fuel g m, dijkstra listQueue fuel scenario5 0 = (g, .ok m) →
      ∀ u x, mapFind m u = some x → x ≠ intMax → ∀ e ∈ adj scenario5 u, e.2 ≠ 0 →
        ∃ y, mapFind m e.1 = some y ∧ y ≤ x + e.2) :=
  ⟨by decide, by decide, dijkstra_fixed_point listQueue scenario5 0 (by decide)⟩

/-! ## Dijkstra: the choice among equal smallest entries -/

theorem map_ext_of_keys {V : Type} (m1 m2 : NodeMap V) (hk : keys m1 = keys m2)
    (hnd : (keys m1).Nodup) (hf : ∀ n, mapFind m1 n = mapFind m2 n) : m1 = m2 := by
  induction m1 generalizing m2 with
  | nil =>
    cases m2 with
    | nil => rfl
    | cons p r => simp [keys] at hk
  | cons p1 r1 ih =>
    cases m2 with
    | nil => simp [keys] at hk
    | cons p2 r2 =>
      obtain ⟨k1, v1⟩ := p1
      obtain ⟨k2, v2⟩ := p2
      simp only [keys, List.map_cons, List.cons.injEq] at hk
      obtain ⟨hk1, hkr⟩ := hk
      subst hk1
      have hnd' : k1 ∉ keys r1 ∧ (keys r1).Nodup := by
        simpa [keys] using hnd
      have hv : v1 = v2 := by
        have := hf k1
        simpa [mapFind] using this
      subst hv
      have hrest : r1 = r2 := by
        apply ih r2 hkr hnd'.2
        intro n
        by_cases hn : n = k1
        · subst hn
          have h1 : mapFind r1 n = none := by
            cases h : mapFind r1 n with
            | none => rfl
            | some v => exact absurd ((mem_keys_iff r1 n).2 ⟨v, h⟩) hnd'.1
          have h2 : mapFind r2 n = none := by
            cases h : mapFind r2 n with
            | none => rfl
            | some v =>
              have : n ∈ keys r2 := (mem_keys_iff r2 n).2 ⟨v, h⟩
              have hkr' : keys r1 = keys r2 := hkr
              rw [← hkr'] at this
              exact absurd this hnd'.1
          rw [h1, h2]
        · have := hf n
          simpa [mapFind, hn] using this
      rw [hrest]

theorem adj_dropZeroEdges (G : Graph) (u : Node) :
    adj (dropZeroEdges G) u = (adj G u).filter (fun e => decide (e.2 ≠ 0)) := by
  unfold adj
  rw [mapFind_dropZeroEdges]
  cases mapFind G u <;> simp

theorem closed_dropZeroEdges {G : Graph} (hc : Closed G) : Closed (dropZeroEdges G) := by
  intro u hu e he
  rw [keys_dropZeroEdges] at hu ⊢
  rw [adj_dropZeroEdges] at he
  exact hc u hu e (List.mem_filter.1 he).1

theorem positive_dropZeroEdges {G : Graph} (h : NonNegWeights G) :
    PositiveWeights (dropZeroEdges G) := by
  intro pair hp e he
  unfold dropZeroEdges at hp
  obtain ⟨p, hpG, rfl⟩ := List.mem_map.1 hp
  simp only [List.mem_filter, ne_eq, decide_not, Bool.not_eq_true', decide_eq_false_iff_not]
    at he
  have := h p hpG e he.1
  omega

theorem dijkstra_dropZero (P : PriorityQueue) (fuel : Nat) (G : Graph) (s : Node) :
    (dijkstra P fuel (dropZeroEdges G) s).2 = (dijkstra P fuel G s).2 := by
  have := dijkstraLoop_dropZero P fuel G (mapSet (initDistances G) s 0) (P.push [] (0, s))
  simp only [dijkstra, dijkstraInit, initDistances_dropZeroEdges]
  rw [this]

theorem dijkstraRelax_error (P : PriorityQueue) (cd : Int) (es : List (Node × Int))
    (st : DistMap × List Entry) (e : Error) (h : dijkstraRelax P cd es st = .error e) :
    e = .overflow := by
  induction es generalizing st with
  | nil => simp [dijkstraRelax] at h
  | cons x es ih =>
    obtain ⟨v, w⟩ := x
    obtain ⟨d, q⟩ := st
    simp only [dijkstraRelax] at h
    split at h
    · cases hadd : addInt cd w with
      | none =>
        simp only [hadd, Except.error.injEq] at h
        exact h.symm
      | some nd =>
        simp only [hadd] at h
        split at h <;> exact ih _ h
    · exact ih _ h

theorem dijkstraLoop_error (P : PriorityQueue) (fuel : Nat) (st : DijkstraState) (e : Error)
    (h : (dijkstraLoop P fuel st).2 = .error e) : e = .overflow ∨ e = .outOfFuel := by
  induction fuel generalizing st with
  | zero =>
    simp only [dijkstraLoop] at h
    split at h
    · simp at h
    · simp only [Except.error.injEq] at h
      exact Or.inr h.symm
  | succ fuel ih =>
    by_cases hq : st.queue = []
    · simp [dijkstraLoop, hq] at h
    · simp only [dijkstraLoop, hq, if_false] at h
      rcases hstep : dijkstraStep P st with ⟨g1, r⟩
      cases r with
      | error e1 =>
        simp only [hstep, Except.error.injEq] at h
        subst h
        rw [dijkstraStep_unfold] at hstep
        split at hstep
        · simp at hstep
        · simp only [Prod.mk.injEq] at hstep
          exact Or.inl (dijkstraRelax_error P _ _ _ _ hstep.2)
      | ok r =>
        obtain ⟨d, q⟩ := r
        simp only [hstep] at h
        exact ih _ h

/-- On a graph in which every neighbour is a key, a run of `dijkstra` that does not
overflow returns a map, the same for every sufficient fuel, and this map is the
distance map of a final state of the loop on the graph without its zero-weight edges. -/
theorem dijkstra_nonneg_final (P : PriorityQueue) {G : Graph} {s : Node} (hc : Closed G)
    (hs : s ∈ keys G) (hov : ∀ fuel, (dijkstra P fuel G s).2 ≠ .error .overflow) :
    ∃ fin : DijkstraState, DijkstraInv (dropZeroEdges G) s fin ∧ fin.queue = [] ∧
      ∃ N, ∀ fuel, N ≤ fuel → dijkstra P fuel G s = (G, .ok fin.distances) := by
  obtain ⟨N, hN⟩ := dijkstra_terminates P G s
  have hgraph : (dijkstra P N G s).1 = G := by
    refine dijkstraLoop_graph P hc N _ rfl ?_
    intro e he
    have : e = (0, s) := by
      have := (mem_push P [] (0, s) e).1 he
      simpa using this
    rw [this]; exact hs
  rcases hrun : dijkstra P N G s with ⟨g, r⟩
  rw [hrun] at hgraph
  simp only at hgraph
  subst hgraph
  cases r with
  | error e =>
    have h1 := hN N (le_refl _)
    have h2 := hov N
    have h3 := dijkstraLoop_error P N (dijkstraInit P g s) e (by
      have : (dijkstra P N g s).2 = .error e := by rw [hrun]
      exact this)
    rw [hrun] at h1 h2
    rcases h3 with h3 | h3
    · subst h3; exact absurd rfl h2
    · subst h3; exact absurd rfl h1
  | ok m =>
    have h0 : (dijkstra P N (dropZeroEdges g) s).2 = .ok m := by
      rw [dijkstra_dropZero, hrun]
    have hs0 : s ∈ keys (dropZeroEdges g) := by rw [keys_dropZeroEdges]; exact hs
    obtain ⟨fin, hinv, hq, hm⟩ := dijkstraLoop_final P (closed_dropZeroEdges hc) N _
      (dijkstraInv_init P hs0) (dijkstra P N (dropZeroEdges g) s).1 m (by
        show dijkstra P N (dropZeroEdges g) s = _
        rw [← h0])
    refine ⟨fin, hinv, hq, N, ?_⟩
    intro fuel hfuel
    obtain ⟨k, rfl⟩ := Nat.exists_eq_add_of_le hfuel
    rw [hm]
    exact dijkstraLoop_mono P N _ _ _ hrun k

/-- Two final states of the loop of `dijkstra` on a graph with positive weights hold the
same distance map. -/
theorem dijkstra_final_unique {G : Graph} {s : Node} (hdistinct : (keys G).Nodup)
    (hpos : PositiveWeights G) {fin1 fin2 : DijkstraState}
    (h1 : DijkstraInv G s fin1) (hq1 : fin1.queue = [])
    (h2 : DijkstraInv G s fin2) (hq2 : fin2.queue = []) :
    fin1.distances = fin2.distances := by
  have hle : ∀ {a b : DijkstraState}, DijkstraInv G s a → a.queue = [] →
      DijkstraInv G s b → ∀ n x y, mapFind a.distances n = some x →
      mapFind b.distances n = some y → x ≤ y := by
    intro a b ha hqa hb n x y hx hy
    by_cases hfin : y = intMax
    · rw [hfin]; exact ha.range n x hx
    · obtain ⟨p, hp⟩ := hb.walk n y hy hfin
      have hlt : y < intMax := lt_of_le_of_ne (hb.range n y hy) hfin
      rcases dijkstra_frontier hdistinct hpos ha hp hlt with ⟨e, hmem, -⟩ | ⟨x', hx', hle'⟩
      · rw [hqa] at hmem; cases hmem
      · rw [hx] at hx'
        simp only [Option.some.injEq] at hx'
        omega
  have hkeys : keys fin1.distances = keys fin2.distances := by
    rw [h1.keys_eq, h2.keys_eq]
  have hnd : (keys fin1.distances).Nodup := by
    rw [h1.keys_eq]
    exact sortedKeys_nodup (initDistances_spec G).1
  apply map_ext_of_keys _ _ hkeys hnd
  intro n
  cases hx : mapFind fin1.distances n with
  | none =>
    cases hy : mapFind fin2.distances n with
    | none => rfl
    | some y =>
      have : n ∈ keys fin2.distances := (mem_keys_iff _ n).2 ⟨y, hy⟩
      rw [← hkeys] at this
      obtain ⟨x, hx'⟩ := (mem_keys_iff _ n).1 this
      rw [hx] at hx'
      cases hx'
  | some x =>
    have : n ∈ keys fin1.distances := (mem_keys_iff _ n).2 ⟨x, hx⟩
    rw [hkeys] at this
    obtain ⟨y, hy⟩ := (mem_keys_iff _ n).1 this
    rw [hy]
    have hxy := hle h1 hq1 h2 n x y hx hy
    have hyx := hle h2 hq2 h1 n y x hy hx
    have : x = y := by omega
    rw [this]

/-- C16. On a graph with non-negative weights in which every neighbour is a key, from a
start node that is a key, two runs of `dijkstra` with any two priority queues (each
returns an entry of smallest distance, whichever it likes among equals) in which no sum
overflows both terminate and return the same distance map. -/
theorem dijkstra_tie_break_independent (P1 P2 : PriorityQueue) (G : Graph) (s : Node)
    (hdistinct : (keys G).Nodup) (hc : Closed G) (hnonneg : NonNegWeights G)
    (hs : s ∈ keys G)
    (hov1 : ∀ fuel, (dijkstra P1 fuel G s).2 ≠ .error .overflow)
    (hov2 : ∀ fuel, (dijkstra P2 fuel G s).2 ≠ .error .overflow) :
    ∃ m : DistMap, (∃ N, ∀ fuel, N ≤ fuel → dijkstra P1 fuel G s = (G, .ok m)) ∧
      (∃ N, ∀ fuel, N ≤ fuel → dijkstra P2 fuel G s = (G, .ok m)) := by
  obtain ⟨fin1, hinv1, hq1, hrun1⟩ := dijkstra_nonneg_final P1 hc hs hov1
  obtain ⟨fin2, hinv2, hq2, hrun2⟩ := dijkstra_nonneg_final P2 hc hs hov2
  have hd0 : (keys (dropZeroEdges G)).Nodup := by rw [keys_dropZeroEdges]; exact hdistinct
  have heq := dijkstra_final_unique hd0 (positive_dropZeroEdges hnonneg) hinv1 hq1 hinv2 hq2
  refine ⟨fin1.distances, hrun1, ?_⟩
  rw [heq]
  exact hrun2

theorem dijkstraLoop_error_mono (P : PriorityQueue) (fuel : Nat) (st : DijkstraState)
    (e : Error) (he : e ≠ .outOfFuel) (h : (dijkstraLoop P fuel st).2 = .error e) (k : Nat) :
    (dijkstraLoop P (fuel + k) st).2 = .error e := by
  induction fuel generalizing st with
  | zero =>
    simp only [dijkstraLoop] at h
    split at h
    · simp at h
    · simp only [Except.error.injEq] at h
      exact absurd h.symm he
  | succ fuel ih =>
    have e1 : fuel + 1 + k = (fuel + k) + 1 := by omega
    rw [e1]
    by_cases hq : st.queue = []
    · simp [dijkstraLoop, hq] at h
    · simp only [dijkstraLoop, hq, if_false] at h ⊢
      rcases hstep : dijkstraStep P st with ⟨g1, r⟩
      rw [hstep] at h
      cases r with
      | error e2 => exact h
      | ok r =>
        obtain ⟨d, q⟩ := r
        simp only at h ⊢
        exact ih _ h

/-- A run of `dijkstra` that returns a map with some fuel overflows with no fuel. -/
theorem dijkstra_no_overflow (P : PriorityQueue) (N : Nat) (G g : Graph) (s : Node)
    (m : DistMap) (h : dijkstra P N G s = (g, .ok m)) :
    ∀ fuel, (dijkstra P fuel G s).2 ≠ .error .overflow := by
  intro fuel hov
  rcases Nat.le_total fuel N with hle | hle
  · obtain ⟨k, rfl⟩ := Nat.exists_eq_add_of_le hle
    have := dijkstraLoop_error_mono P fuel (dijkstraInit P G s) .overflow (by decide) hov k
    unfold dijkstra at h
    rw [h] at this
    simp at this
  · obtain ⟨k, rfl⟩ := Nat.exists_eq_add_of_le hle
    have := dijkstraLoop_mono P N _ _ _ h k
    unfold dijkstra at hov
    rw [this] at hov
    simp at hov

/-- Witness for C16: on scenario 1 the entries of B and C tie at distance 1; the queue
that takes the earlier one and the queue that takes the later one both give
`{A: 0, B: 1, C: 1, D: 2}`. -/
theorem dijkstra_tie_break_independent_witness :
    (keys scenario1).Nodup ∧ Closed scenario1 ∧ NonNegWeights scenario1 ∧
    0 ∈ keys scenario1 ∧
    dijkstra listQueue 5 scenario1 0 = (scenario1, .ok [(0, 0), (1, 1), (2, 1), (3, 2)]) ∧
    dijkstra stackQueue 5 scenario1 0 = (scenario1, .ok [(0, 0), (1, 1), (2, 1), (3, 2)]) ∧
    ∃ m : DistMap,
      (∃ N, ∀ fuel, N ≤ fuel → dijkstra listQueue fuel scenario1 0 = (scenario1, .ok m)) ∧
      (∃ N, ∀ fuel, N ≤ fuel → dijkstra stackQueue fuel scenario1 0 = (scenario1, .ok m)) :=
  ⟨by decide, by decide, by decide, by decide, by decide, by decide,
    dijkstra_tie_break_independent listQueue stackQueue scenario1 0 (by decide) (by decide)
      (by decide) (by decide)
      (dijkstra_no_overflow listQueue 5 scenario1 scenario1 0
        [(0, 0), (1, 1), (2, 1), (3, 2)] (by decide))
      (dijkstra_no_overflow stackQueue 5 scenario1 scenario1 0
        [(0, 0), (1, 1), (2, 1), (3, 2)] (by decide))⟩

/-! ## Walks that stay below the sentinel -/

theorem lowWalk_walk {G : Graph} {s v : Node} {b W : Int} {p : List Node}
    (h : LowWalk G s b v W p) : Walk G s v (W - b) p := by
  induction h with
  | nil => simpa using (Walk.nil : Walk G s s 0 [])
  | @snoc u v w W p _ he _ ih =>
    have := Walk.snoc ih he
    have e : W - b + w = W + w - b := by omega
    rw [e] at this
    exact this

theorem lowWalk_inv_cons {G : Graph} {s v u : Node} {b W : Int} {p : List Node}
    (h : LowWalk G s b v W (u :: p)) :
    ∃ W' w, LowWalk G s b u W' p ∧ (v, w) ∈ adj G u ∧ W = W' + w ∧ W < intMax := by
  cases h with
  | snoc hw he hlt => exact ⟨_, _, hw, he, rfl, hlt⟩

theorem lowWalk_inv_nil {G : Graph} {s v : Node} {b W : Int} (h : LowWalk G s b v W []) :
    v = s ∧ W = b := by
  cases h with
  | nil => exact ⟨rfl, rfl⟩

theorem lowWalk_lt {G : Graph} {s v : Node} {W : Int} {p : List Node}
    (h : LowWalk G s 0 v W p) : W < intMax := by
  cases h with
  | nil => decide
  | snoc _ _ hlt => exact hlt

theorem lowWalk_append {G : Graph} {s x v : Node} {b W1 W : Int} {r q : List Node}
    (h1 : LowWalk G s b x W1 r) (h2 : LowWalk G x W1 v W q) :
    LowWalk G s b v W (q ++ r) := by
  induction h2 with
  | nil => simpa using h1
  | snoc _ he hlt ih => exact LowWalk.snoc ih he hlt

theorem lowWalk_split {G : Graph} {s : Node} {b : Int} (a : List Node) (x : Node)
    (r : List Node) {v : Node} {W : Int} (h : LowWalk G s b v W (a ++ x :: r)) :
    ∃ W1, LowWalk G s b x W1 r ∧ LowWalk G x W1 v W (a ++ [x]) := by
  induction a generalizing v W with
  | nil =>
    obtain ⟨W', w, hw', he, hW, hlt⟩ := lowWalk_inv_cons h
    subst hW
    exact ⟨W', hw', LowWalk.snoc LowWalk.nil he hlt⟩
  | cons y a ih =>
    obtain ⟨W', w, hw', he, hW, hlt⟩ := lowWalk_inv_cons h
    subst hW
    obtain ⟨W1, h1, h2⟩ := ih hw'
    exact ⟨W1, h1, LowWalk.snoc h2 he hlt⟩

/-- Lowering the running total at the start keeps a walk below the sentinel. -/
theorem lowWalk_shift {G : Graph} {x v : Node} {b W : Int} {p : List Node}
    (h : LowWalk G x b v W p) (c : Int) (hc : c ≤ 0) : LowWalk G x (b + c) v (W + c) p := by
  induction h with
  | nil => exact LowWalk.nil
  | @snoc u v w W p _ he hlt ih =>
    have := LowWalk.snoc ih he (by omega)
    have e : W + c + w = W + w + c := by omega
    rw [e] at this
    exact this

/-- Without a reachable negative cycle, a walk below the sentinel that visits a node twice
can be replaced by a shorter one that is not heavier. -/
theorem lowWalk_remove_cycle {G : Graph} {s v : Node} {W : Int} {p : List Node}
    (hneg : ¬ NegativeCycleReachable G s)
    (h : LowWalk G s 0 v W p) (hdup : ¬ (v :: p).Nodup) :
    ∃ W' p', LowWalk G s 0 v W' p' ∧ W' ≤ W ∧ p'.length < p.length := by
  by_cases hv : v ∈ p
  · obtain ⟨a, r, har⟩ := List.append_of_mem hv
    subst har
    obtain ⟨W1, h1, h2⟩ := lowWalk_split a v r h
    have hcyc := lowWalk_walk h2
    have hreach : Reachable G s v := ⟨_, _, lowWalk_walk h1⟩
    have h0 : 0 ≤ W - W1 := by
      by_contra hcon
      exact hneg ⟨v, _, _, hreach, hcyc, by omega⟩
    exact ⟨W1, r, h1, by omega, by simp; omega⟩
  · have hp : ¬ p.Nodup := fun hnd => hdup (List.nodup_cons.2 ⟨hv, hnd⟩)
    obtain ⟨a, x, b, c, habc⟩ := exists_dup_split hp
    subst habc
    obtain ⟨W1, h1, h2⟩ := lowWalk_split a x (b ++ x :: c) h
    obtain ⟨W11, h11, h12⟩ := lowWalk_split b x c h1
    have hcyc := lowWalk_walk h12
    have hreach : Reachable G s x := ⟨_, _, lowWalk_walk h11⟩
    have h0 : 0 ≤ W1 - W11 := by
      by_contra hcon
      exact hneg ⟨x, _, _, hreach, hcyc, by omega⟩
    have h3 := lowWalk_shift h2 (W11 - W1) (by omega)
    have e : W1 + (W11 - W1) = W11 := by omega
    rw [e] at h3
    refine ⟨W + (W11 - W1), (a ++ [x]) ++ c, lowWalk_append h11 h3, by omega, ?_⟩
    simp only [List.length_append, List.length_cons, List.length_nil]
    omega

/-- Without a reachable negative cycle, every walk below the sentinel can be replaced by
one that is not heavier and has fewer edges than the graph has nodes. -/
theorem lowWalk_shorten {G : Graph} {s : Node} (hc : Closed G) (hs : s ∈ keys G)
    (hneg : ¬ NegativeCycleReachable G s) (n : Nat) :
    ∀ v W p, LowWalk G s 0 v W p → p.length ≤ n →
      ∃ W' p', LowWalk G s 0 v W' p' ∧ p'.length < (keys G).length ∧ W' ≤ W := by
  induction n with
  | zero =>
    intro v W p h hlen
    refine ⟨W, p, h, ?_, le_refl _⟩
    have : 0 < (keys G).length := List.length_pos_of_mem hs
    omega
  | succ n ih =>
    intro v W p h hlen
    by_cases hshort : p.length < (keys G).length
    · exact ⟨W, p, h, hshort, le_refl _⟩
    · have hw := lowWalk_walk h
      have hdup : ¬ (v :: p).Nodup := by
        intro hnd
        have hsub : v :: p ⊆ keys G := by
          intro x hx
          rcases List.mem_cons.1 hx with h1 | h1
          · rw [h1]; exact walk_mem_keys hc hs hw
          · exact reachable_mem_keys hc hs (walk_sources_reachable hw x h1)
        have := (List.subperm_of_subset hnd hsub).length_le
        simp only [List.length_cons] at this
        omega
      obtain ⟨W', p', hw', hW, hlt⟩ := lowWalk_remove_cycle hneg h hdup
      obtain ⟨W'', p'', hw'', hlen'', hle⟩ := ih v W' p' hw' (by omega)
      exact ⟨W'', p'', hw'', hlen'', by omega⟩

/-- Without a reachable negative cycle, every node that a walk below the sentinel reaches
has a minimum weight among these walks, attained with fewer edges than the graph has
nodes. -/
theorem exists_isLowDist_short {G : Graph} {s : Node} (hdistinct : (keys G).Nodup)
    (hc : Closed G) (hs : s ∈ keys G) (hneg : ¬ NegativeCycleReachable G s) {v : Node}
    {W : Int} {p : List Node} (hw : LowWalk G s 0 v W p) :
    ∃ d p', IsLowDist G s v d ∧ LowWalk G s 0 v d p' ∧ p'.length < (keys G).length := by
  obtain ⟨M, hM0, hM⟩ := exists_weight_lower_bound G
  obtain ⟨d, ⟨p0, hd⟩, hmin⟩ := Int.exists_least_of_bdd
    (P := fun W => ∃ p, LowWalk G s 0 v W p)
    ⟨((keys G).length : Int) * M, fun z hz => by
      obtain ⟨pz, hpz⟩ := hz
      obtain ⟨W', p', hw', hlen', hle⟩ :=
        lowWalk_shorten hc hs hneg pz.length v z pz hpz (le_refl _)
      have h2 := walk_weight_lower_bound hdistinct hM (lowWalk_walk hw')
      have h3 : ((keys G).length : Int) * M ≤ (p'.length : Int) * M := by
        have : (p'.length : Int) ≤ ((keys G).length : Int) := by omega
        nlinarith
      omega⟩ ⟨W, p, hw⟩
  obtain ⟨W', p', hw', hlen', hle⟩ :=
    lowWalk_shorten hc hs hneg p0.length v d p0 hd (le_refl _)
  have h2 := hmin W' ⟨p', hw'⟩
  have hdW : W' = d := by omega
  subst hdW
  exact ⟨W', p', ⟨⟨p', hw'⟩, fun W'' p'' hw'' => hmin W'' ⟨p'', hw''⟩⟩, hw', hlen'⟩

theorem isLowDist_unique {G : Graph} {s n : Node} {d d' : Int}
    (h : IsLowDist G s n d) (h' : IsLowDist G s n d') : d = d' := by
  obtain ⟨⟨p, hp⟩, hmin⟩ := h
  obtain ⟨⟨p', hp'⟩, hmin'⟩ := h'
  have := hmin _ _ hp'
  have := hmin' _ _ hp
  omega

/-- The part of a lightest walk below the sentinel before its last edge is a lightest walk
below the sentinel. -/
theorem isLowDist_before_last {G : Graph} {s u v : Node} {w W : Int}
    (he : (v, w) ∈ adj G u) (hlt : W + w < intMax)
    (hmin : ∀ W' p', LowWalk G s 0 v W' p' → W + w ≤ W') :
    ∀ W' p', LowWalk G s 0 u W' p' → W ≤ W' := by
  intro W' p' hw'
  by_contra hcon
  have := hmin _ _ (LowWalk.snoc hw' he (by omega))
  omega

/-! ## Bellman-Ford without a bound on the distances -/

theorem lowInv_init (G : Graph) (s : Node) : LowInv G s (mapSet (initDistances G) s 0) := by
  intro n x hx hne
  rw [mapFind_mapSet] at hx
  by_cases hn : n = s
  · rw [if_pos hn, Option.some.injEq] at hx
    subst hn hx
    exact ⟨[], LowWalk.nil⟩
  · rw [if_neg hn, (initDistances_spec G).2] at hx
    by_cases hk : n ∈ keys G
    · rw [if_pos hk, Option.some.injEq] at hx
      exact absurd hx.symm hne
    · rw [if_neg hk] at hx
      cases hx

theorem lowInv_mapSet {G : Graph} {s u v : Node} {w dn old : Int} {d : DistMap}
    (h : BfInv G s d) (hl : LowInv G s d) (hedge : (v, w) ∈ adj G u)
    (hdn : mapFind d u = some dn) (hfin : dn ≠ intMax)
    (hold : mapFind d v = some old) (hlt : dn + w < old) :
    LowInv G s (mapSet d v (dn + w)) := by
  have hr := h.range v old hold
  intro n x hx hne
  rw [mapFind_mapSet] at hx
  split at hx
  · rename_i hnv
    simp only [Option.some.injEq] at hx
    subst hx hnv
    obtain ⟨p, hp⟩ := hl u dn hdn hfin
    exact ⟨u :: p, LowWalk.snoc hp hedge (by omega)⟩
  · exact hl n x hx hne

/-- The innermost loop of a relaxation pass records only weights of walks that stay below
the sentinel. -/
theorem bfRelaxEdges_low {G : Graph} {s u : Node} (hc : Closed G)
    (hu : u ∈ keys G) (es : List (Node × Int)) (hes : ∀ e ∈ es, e ∈ adj G u)
    (d d' : DistMap) (h : BfInv G s d) (hl : LowInv G s d)
    (hrun : bfRelaxEdges u es d = .ok d') : LowInv G s d' := by
  induction es generalizing d with
  | nil =>
    simp only [bfRelaxEdges, Except.ok.injEq] at hrun
    subst hrun
    exact hl
  | cons e es ih =>
    obtain ⟨v, w⟩ := e
    have hes' : ∀ e ∈ es, e ∈ adj G u := fun e he => hes e (List.mem_cons_of_mem _ he)
    have hedge : (v, w) ∈ adj G u := hes (v, w) (List.mem_cons_self _ _)
    obtain ⟨dn, hdn⟩ := (mem_keys_iff d u).1 (h.keys_eq ▸ (mem_keys_initDistances G u).2 hu)
    obtain ⟨old, hold⟩ := (mem_keys_iff d v).1
      (h.keys_eq ▸ (mem_keys_initDistances G v).2 (hc u hu (v, w) hedge))
    have key : ∃ d1, bfRelaxEdges u es d1 = .ok d' ∧ BfInv G s d1 ∧ LowInv G s d1 := by
      simp only [bfRelaxEdges, mapIndex_of_find 0 hdn] at hrun
      by_cases hfin : dn = intMax
      · simp only [hfin, ne_eq, not_true_eq_false, if_false] at hrun
        exact ⟨d, hrun, h, hl⟩
      · simp only [ne_eq, hfin, not_false_eq_true, if_true] at hrun
        cases hadd : addInt dn w with
        | none => simp [hadd] at hrun
        | some sum =>
          obtain ⟨hsum, -, -⟩ := addInt_eq_some hadd
          subst hsum
          simp only [hadd, mapIndex_of_find 0 hold] at hrun
          by_cases hlt : dn + w < old
          · simp only [hlt, if_true] at hrun
            exact ⟨_, hrun, bfInv_mapSet h hedge hdn hfin hold hlt,
              lowInv_mapSet h hl hedge hdn hfin hold hlt⟩
          · simp only [hlt, if_false] at hrun
            exact ⟨d, hrun, h, hl⟩
    obtain ⟨d1, hrun1, hinv1, hl1⟩ := key
    exact ih hes' d1 hinv1 hl1 hrun1

theorem bfPass_low {G : Graph} {s : Node} (hdistinct : (keys G).Nodup) (hc : Closed G)
    (L : Graph) (hL : ∀ pair ∈ L, pair ∈ G) (d d' : DistMap) (h : BfInv G s d)
    (hl : LowInv G s d) (hrun : bfPass L d = .ok d') : LowInv G s d' := by
  induction L generalizing d with
  | nil =>
    simp only [bfPass, Except.ok.injEq] at hrun
    subst hrun
    exact hl
  | cons pair L ih =>
    obtain ⟨u, es⟩ := pair
    have hL' : ∀ pair ∈ L, pair ∈ G := fun p hp => hL p (List.mem_cons_of_mem _ hp)
    have hmem : (u, es) ∈ G := hL _ (List.mem_cons_self _ _)
    have hu : u ∈ keys G := List.mem_map_of_mem Prod.fst hmem
    have hadj : adj G u = es := adj_eq_of_mem hdistinct hmem
    simp only [bfPass] at hrun
    cases h1 : bfRelaxEdges u es d with
    | error e => simp [h1] at hrun
    | ok d1 =>
      simp only [h1] at hrun
      obtain ⟨hinv1, -, -⟩ := bfRelaxEdges_spec hc hu es (fun e he => hadj ▸ he) d d1 h h1
      have hl1 := bfRelaxEdges_low hc hu es (fun e he => hadj ▸ he) d d1 h hl h1
      exact ih hL' d1 hinv1 hl1 hrun

theorem goodLow_init {G : Graph} {s : Node} {d : DistMap} (h : BfInv G s d) :
    GoodLow G s 0 d := by
  intro v W p hw hlen _
  have hp : p = [] := List.length_eq_zero.1 (Nat.le_zero.1 hlen)
  subst hp
  obtain ⟨rfl, rfl⟩ := lowWalk_inv_nil hw
  exact h.start

theorem goodLow_pass {G : Graph} {s : Node} (hdistinct : (keys G).Nodup) (hc : Closed G)
    (j : Nat) (d d' : DistMap) (h : BfInv G s d) (hl : LowInv G s d)
    (hgood : GoodLow G s j d) (hrun : bfPass G d = .ok d') :
    BfInv G s d' ∧ LowInv G s d' ∧ GoodLow G s (j + 1) d' := by
  obtain ⟨hinv', hle, hrel⟩ := bfPass_spec hdistinct hc G (fun _ hp => hp) d d' h hrun
  refine ⟨hinv', bfPass_low hdistinct hc G (fun _ hp => hp) d d' h hl hrun, ?_⟩
  intro v W p hw hlen hmin
  cases p with
  | nil =>
    obtain ⟨rfl, rfl⟩ := lowWalk_inv_nil hw
    exact hinv'.start
  | cons u p =>
    obtain ⟨W', w, hw', he, hW, hlt⟩ := lowWalk_inv_cons hw
    subst hW
    have hmin' := isLowDist_before_last he hlt hmin
    obtain ⟨y, hy, hyle⟩ := hgood u W' p hw' (by simpa using hlen) hmin'
    have hfin := lowWalk_lt hw'
    obtain ⟨y', hy', hyle'⟩ := hrel _ (adj_mem_graph hdistinct he) (v, w) he y hy (by omega)
    exact ⟨y', hy', by simp only at hyle'; omega⟩

theorem goodLow_passes {G : Graph} {s : Node} (hdistinct : (keys G).Nodup) (hc : Closed G)
    (k : Nat) : ∀ (j : Nat) (d d' : DistMap), BfInv G s d → LowInv G s d → GoodLow G s j d →
      bfPasses G k d = .ok d' → BfInv G s d' ∧ LowInv G s d' ∧ GoodLow G s (j + k) d' := by
  induction k with
  | zero =>
    intro j d d' h hl hgood hrun
    simp only [bfPasses, Except.ok.injEq] at hrun
    subst hrun
    exact ⟨h, hl, hgood⟩
  | succ k ih =>
    intro j d d' h hl hgood hrun
    simp only [bfPasses] at hrun
    cases h1 : bfPass G d with
    | error e => simp [h1] at hrun
    | ok d1 =>
      simp only [h1] at hrun
      obtain ⟨hinv1, hl1, hgood1⟩ := goodLow_pass hdistinct hc j d d1 h hl hgood h1
      have := ih (j + 1) d1 d' hinv1 hl1 hgood1 hrun
      have e : j + 1 + k = j + (k + 1) := by omega
      rw [e] at this
      exact this

/-- On a graph in which every neighbour is a key, without a negative cycle reachable from
the start, a run of `bellmanFord` from a key that does not overflow returns a map with
the keys of the graph whose entries are determined by the walks that stay below the
sentinel: the minimum weight of such a walk to the node, and the sentinel when there is
none. -/
theorem bellmanFord_low {G : Graph} {s : Node} (hdistinct : (keys G).Nodup) (hc : Closed G)
    (hs : s ∈ keys G) (hneg : ¬ NegativeCycleReachable G s)
    (hov : bellmanFordResult G s ≠ .error .overflow) :
    ∃ m : DistMap, bellmanFord G s = (G, .ok m) ∧ keys m = keys (initDistances G) ∧
      ∀ n x, mapFind m n = some x →
        (x ≠ intMax → IsLowDist G s n x) ∧ (x = intMax → ∀ W p, ¬ LowWalk G s 0 n W p) := by
  obtain ⟨d1, hpasses, hres⟩ := bellmanFordResult_eq hs hov
  obtain ⟨hinv, hlow, hgood⟩ := goodLow_passes hdistinct hc ((keys G).length - 1) 0 _ d1
    (bfInv_init hs) (lowInv_init G s) (goodLow_init (bfInv_init hs)) hpasses
  -- every node reached below the sentinel holds its minimum
  have hval : ∀ v W p, LowWalk G s 0 v W p →
      ∃ δ, IsLowDist G s v δ ∧ mapFind d1 v = some δ := by
    intro v W p hw
    obtain ⟨δ, p', hδ, hp', hlen⟩ := exists_isLowDist_short hdistinct hc hs hneg hw
    obtain ⟨y, hy, hyle⟩ := hgood v δ p' hp' (by omega) hδ.2
    have hlt := lowWalk_lt hp'
    obtain ⟨p'', hp''⟩ := hlow v y hy (by omega)
    have := hδ.2 _ _ hp''
    have hyδ : y = δ := by omega
    subst hyδ
    exact ⟨y, hδ, hy⟩
  -- no edge relaxes any more
  have hfixed : ∀ pair ∈ G, ∀ e ∈ pair.2, EdgeRelaxed d1 d1 pair.1 e.1 e.2 := by
    intro pair hp e he x hx hfin
    have hadj : e ∈ adj G pair.1 := by rw [adj_eq_of_mem hdistinct hp]; exact he
    have hu : pair.1 ∈ keys G := List.mem_map_of_mem Prod.fst hp
    obtain ⟨y, hy⟩ := (mem_keys_iff d1 e.1).1
      (hinv.keys_eq ▸ (mem_keys_initDistances G e.1).2 (hc _ hu e hadj))
    refine ⟨y, hy, ?_⟩
    by_contra hcon
    have hr := hinv.range e.1 y hy
    obtain ⟨p, hw⟩ := hlow _ x hx hfin
    have hstep : LowWalk G s 0 e.1 (x + e.2) (pair.1 :: p) :=
      LowWalk.snoc hw hadj (by omega)
    obtain ⟨δv, hδv, hfv⟩ := hval _ _ _ hstep
    rw [hy] at hfv
    simp only [Option.some.injEq] at hfv
    subst hfv
    have := hδv.2 _ _ hstep
    omega
  have hok : bfCheck G d1 = .ok d1 := by
    rcases bfCheck_spec hdistinct hc G (fun _ hp => hp) d1 hinv with
      ⟨h1, -⟩ | h1 | ⟨-, pair, hp, e, he, h2⟩
    · exact h1
    · exfalso
      apply hov
      rw [hres, h1]
    · exact absurd (hfixed pair hp e he) h2
  refine ⟨d1, ?_, hinv.keys_eq, ?_⟩
  · show (G, bellmanFordResult G s) = _
    rw [hres, hok]
  · intro n x hx
    constructor
    · intro hne
      obtain ⟨p, hw⟩ := hlow n x hx hne
      obtain ⟨δ, hδ, hf⟩ := hval n x p hw
      rw [hx] at hf
      simp only [Option.some.injEq] at hf
      exact hf ▸ hδ
    · intro hmax W p hw
      obtain ⟨δ, hδ, hf⟩ := hval n W p hw
      rw [hx] at hf
      simp only [Option.some.injEq] at hf
      obtain ⟨p', hp'⟩ := hδ.1
      have := lowWalk_lt hp'
      omega

/-! ## Bellman-Ford: the order of the edge lists -/

theorem adj_of_not_key {G : Graph} {u : Node} (h : u ∉ keys G) : adj G u = [] := by
  unfold adj
  cases hf : mapFind G u with
  | none => rfl
  | some es => exact absurd ((mem_keys_iff G u).2 ⟨es, hf⟩) h

theorem edgePerm_mem {G G' : Graph} (h : EdgePerm G G') (u : Node) (e : Node × Int) :
    e ∈ adj G' u ↔ e ∈ adj G u := by
  by_cases hu : u ∈ keys G
  · exact (h.2 u hu).mem_iff
  · have hu' : u ∉ keys G' := by rw [h.1]; exact hu
    rw [adj_of_not_key hu, adj_of_not_key hu']

theorem walk_of_adj {G G' : Graph} (h : ∀ u e, e ∈ adj G u → e ∈ adj G' u)
    {s v : Node} {W : Int} {p : List Node} (hw : Walk G s v W p) : Walk G' s v W p := by
  induction hw with
  | nil => exact Walk.nil
  | snoc _ he ih => exact Walk.snoc ih (h _ _ he)

theorem lowWalk_of_adj {G G' : Graph} (h : ∀ u e, e ∈ adj G u → e ∈ adj G' u)
    {s v : Node} {b W : Int} {p : List Node} (hw : LowWalk G s b v W p) :
    LowWalk G' s b v W p := by
  induction hw with
  | nil => exact LowWalk.nil
  | snoc _ he hlt ih => exact LowWalk.snoc ih (h _ _ he) hlt

theorem initDistances_of_keys {G G' : Graph} (h : keys G' = keys G) :
    initDistances G' = initDistances G := by
  have hgen : ∀ L : Graph, initDistances L
      = (keys L).foldl (fun d k => mapSet d k intMax) [] := by
    intro L
    unfold initDistances keys
    rw [List.foldl_map]
  rw [hgen G', hgen G, h]

/-- A map that a relaxation pass and the final pass leave unchanged is the result of
`bellmanFord`, unless the node count overflows. -/
theorem bellmanFord_of_fixed (G : Graph) (s : Node)
    (h1 : bfPass G (mapSet (initDistances G) s 0) = .ok (mapSet (initDistances G) s 0))
    (h2 : bfCheck G (mapSet (initDistances G) s 0) = .ok (mapSet (initDistances G) s 0))
    (hov : bellmanFordResult G s ≠ .error .overflow) :
    bellmanFord G s = (G, .ok (mapSet (initDistances G) s 0)) := by
  unfold bellmanFord
  cases hn : intOfSize G.length with
  | none => simp [bellmanFordResult_unfold, hn] at hov
  | some nv =>
    cases hb : addInt nv (-1) with
    | none => simp [bellmanFordResult_unfold, hn, hb] at hov
    | some bound =>
      rw [bellmanFordResult_of G s nv bound hn hb, bfPasses_fixed G _ h1]
      simp only [h2]

/-- C15. For graphs `G` and `G'` with the same keys in which every edge list of `G'` is a
permutation of the edge list of `G`: if every neighbour is a key, no negative cycle is
reachable from the start and neither run overflows, then `bellmanFord` returns normally
on both graphs, with the same distance map. -/
theorem bellmanFord_edge_order_invariant (G G' : Graph) (s : Node) (hperm : EdgePerm G G')
    (hdistinct : (keys G).Nodup) (hc : Closed G) (hneg : ¬ NegativeCycleReachable G s)
    (hov : (bellmanFord G s).2 ≠ .error .overflow)
    (hov' : (bellmanFord G' s).2 ≠ .error .overflow) :
    ∃ m : DistMap, bellmanFord G s = (G, .ok m) ∧ bellmanFord G' s = (G', .ok m) := by
  have hinit := initDistances_of_keys hperm.1
  have hto : ∀ u e, e ∈ adj G u → e ∈ adj G' u := fun u e he => (edgePerm_mem hperm u e).2 he
  have hfrom : ∀ u e, e ∈ adj G' u → e ∈ adj G u := fun u e he => (edgePerm_mem hperm u e).1 he
  by_cases hs : s ∈ keys G
  · have hdistinct' : (keys G').Nodup := by rw [hperm.1]; exact hdistinct
    have hc' : Closed G' := by
      intro u hu e he
      rw [hperm.1] at hu ⊢
      exact hc u hu e (hfrom u e he)
    have hs' : s ∈ keys G' := by rw [hperm.1]; exact hs
    have hneg' : ¬ NegativeCycleReachable G' s := by
      rintro ⟨x, W, p, ⟨W0, p0, h0⟩, hcyc, hlt⟩
      exact hneg ⟨x, W, p, ⟨W0, p0, walk_of_adj hfrom h0⟩, walk_of_adj hfrom hcyc, hlt⟩
    obtain ⟨m, hrun, hkeys, hval⟩ := bellmanFord_low hdistinct hc hs hneg hov
    obtain ⟨m', hrun', hkeys', hval'⟩ := bellmanFord_low hdistinct' hc' hs' hneg' hov'
    have hkk : keys m = keys m' := by rw [hkeys, hkeys', hinit]
    have hnd : (keys m).Nodup := by
      rw [hkeys]; exact sortedKeys_nodup (initDistances_spec G).1
    have heq : m = m' := by
      apply map_ext_of_keys m m' hkk hnd
      intro n
      cases hx : mapFind m n with
      | none =>
        cases hy : mapFind m' n with
        | none => rfl
        | some y =>
          have : n ∈ keys m' := (mem_keys_iff _ n).2 ⟨y, hy⟩
          rw [← hkk] at this
          obtain ⟨x, hx'⟩ := (mem_keys_iff _ n).1 this
          rw [hx] at hx'
          cases hx'
      | some x =>
        have : n ∈ keys m := (mem_keys_iff _ n).2 ⟨x, hx⟩
        rw [hkk] at this
        obtain ⟨y, hy⟩ := (mem_keys_iff _ n).1 this
        rw [hy]
        obtain ⟨hx1, hx2⟩ := hval n x hx
        obtain ⟨hy1, hy2⟩ := hval' n y hy
        by_cases hxm : x = intMax
        · by_cases hym : y = intMax
          · rw [hxm, hym]
          · obtain ⟨⟨p, hp⟩, -⟩ := hy1 hym
            exact absurd (lowWalk_of_adj hfrom hp) (hx2 hxm _ _)
        · by_cases hym : y = intMax
          · obtain ⟨⟨p, hp⟩, -⟩ := hx1 hxm
            exact absurd (lowWalk_of_adj hto hp) (hy2 hym _ _)
          · obtain ⟨⟨p, hp⟩, hmin⟩ := hx1 hxm
            obtain ⟨⟨p', hp'⟩, hmin'⟩ := hy1 hym
            have h1 := hmin _ _ (lowWalk_of_adj hfrom hp')
            have h2 := hmin' _ _ (lowWalk_of_adj hto hp)
            have : x = y := by omega
            rw [this]
    exact ⟨m, hrun, heq ▸ hrun'⟩
  · have hs' : s ∉ keys G' := by rw [hperm.1]; exact hs
    have hG : ∀ pair ∈ G, pair.1 ∈ keys G ∧ (pair.1 = s → pair.2 = []) := by
      intro pair hp
      have hk : pair.1 ∈ keys G := List.mem_map_of_mem Prod.fst hp
      exact ⟨hk, fun h => absurd (h ▸ hk) hs⟩
    have hG' : ∀ pair ∈ G', pair.1 ∈ keys G' ∧ (pair.1 = s → pair.2 = []) := by
      intro pair hp
      have hk : pair.1 ∈ keys G' := List.mem_map_of_mem Prod.fst hp
      exact ⟨hk, fun h => absurd (h ▸ hk) hs'⟩
    obtain ⟨h1, h2⟩ := bfPass_sink G s G hG
    obtain ⟨h1', h2'⟩ := bfPass_sink G' s G' hG'
    refine ⟨mapSet (initDistances G) s 0, bellmanFord_of_fixed G s h1 h2 hov, ?_⟩
    rw [← hinit]
    exact bellmanFord_of_fixed G' s h1' h2' hov'

/-- Witness for C15: scenario 5 of the specification (it has the negative weight -3) and
the same graph with the edge list of A reversed; both give `{A: 0, B: 4, C: 1}`. -/
theorem bellmanFord_edge_order_invariant_witness :
    EdgePerm scenario5 scenario5Swapped ∧ (keys scenario5).Nodup ∧ Closed scenario5 ∧
    bellmanFord scenario5 0 = (scenario5, .ok [(0, 0), (1, 4), (2, 1)]) ∧
    bellmanFord scenario5Swapped 0 = (scenario5Swapped, .ok [(0, 0), (1, 4), (2, 1)]) ∧
    ∃ m : DistMap, bellmanFord scenario5 0 = (scenario5, .ok m) ∧
      bellmanFord scenario5Swapped 0 = (scenario5Swapped, .ok m) :=
  ⟨by decide, by decide, by decide, by decide, by decide,
    bellmanFord_edge_order_invariant scenario5 scenario5Swapped 0 (by decide) (by decide)
      (by decide) (noNegCycle_of_increasing (by decide) (by decide) 0) (by decide)
      (by decide)⟩

end GraphTraversal
